import Mathlib

/-!
# Verification of the directory-state tree (`src/rust/treedirstate/src/tree.rs`)

A shallow embedding of the directory-state tree: a persistent, hierarchical
map from byte-string paths to per-file records, with lazy loading from an
append-only block store, ordered iteration, and full/delta persistence.

Conventions of the embedding:
* Byte strings are `List Nat` (each element is morally a `u8`; byte bounds are
  irrelevant to the verified properties).
* Rust `&mut self` methods become state-passing functions; methods that use
  `&mut` only to materialize lazily-loaded entries (`get`, `has_dir`,
  `get_first`, `get_next`, `visit`) are modelled as read-only, reading through
  the store each time (spec §3 invariant 7: loading does not change observable
  semantics).
* Rust `Result` plus panics become the four-way result type `Res`:
  `ok`, `err` (typed failure), `panic` (process abort), and `fuelOut`.
  Recursion that is bounded in Rust by key length, tree height, or block size
  is given an explicit fuel parameter; `fuelOut` marks fuel exhaustion and is
  proved unreachable for sufficient fuel where a claim needs it.
* Machine integers are `Nat` with explicit `% 2 ^ 32` / `% 2 ^ 64` where Rust
  truncates (`as u32`, byte-order writers).
-/

namespace Treedirstate

/-- Keys are byte strings (`type Key = Vec<u8>` in the source).  Lexicographic
byte order is the `List Nat` linear order. -/
abbrev Key := List Nat

/-- The byte `b'/'`, the path separator. -/
def slash : Nat := 47

/-- Error kinds, per spec §7.  Modelled from the spec: the `errors` module is
not in `src/`; §7 names three kinds.  Truncated blocks and entries are mapped
to `corruptTree` ("block bytes do not parse (unknown tag, truncated entry,
trailing garbage, invalid length)"), store read failures to `storeIo`, payload
reader failures to `payloadDecode`. -/
inductive Err : Type where
  | storeIo : Err
  | corruptTree : Err
  | payloadDecode : Err
deriving DecidableEq, Repr

/-- Result of a tree operation: a value, a typed error (Rust `Err`), a process
abort (Rust `panic!` / `expect` / `assert!` / debug-build arithmetic overflow),
or fuel exhaustion of the embedding's explicit recursion bound. -/
inductive Res (α : Type) : Type where
  | ok : α → Res α
  | err : Err → Res α
  | panic : Res α
  | fuelOut : Res α
deriving DecidableEq, Repr

def Res.bind {α β : Type} : Res α → (α → Res β) → Res β
  | .ok a, f => f a
  | .err e, _ => .err e
  | .panic, _ => .panic
  | .fuelOut, _ => .fuelOut

instance : Monad Res where
  pure := .ok
  bind := .bind

/-- The append-only block store.  Modelled from the spec: `store::Store` /
`store::StoreView` (§4.1) are not in `src/`.  Blocks are immutable byte
sequences addressed by the identifier assigned at append time; a read of an
unknown id fails (`storeIo`). -/
structure Store : Type where
  blocks : List (List Nat)
deriving DecidableEq, Repr

/-- `StoreView::read`: the block at `i`, or a failure if `i` is unknown. -/
def Store.read (s : Store) (i : Nat) : Option (List Nat) :=
  s.blocks.get? i

/-- `Store::append`: adds a block, returning the new store and the assigned
block id. -/
def Store.append (s : Store) (data : List Nat) : Store × Nat :=
  (⟨s.blocks ++ [data]⟩, s.blocks.length)

/-- A store with no blocks; every read fails (spec §4.1 `NullStore`). -/
def nullStore : Store := ⟨[]⟩

/-- `s'` extends `s`: every block of `s` is present unchanged in `s'`.  This is
what `append` guarantees about the store it returns. -/
def Store.Ext (s s' : Store) : Prop := ∃ l, s'.blocks = s.blocks ++ l

/-- The `Storable` capability pair for the opaque per-file payload `T`
(spec §6): a serializer and a self-delimiting deserializer.  The two proof
fields are the payload contract the spec imposes on callers: the reader
consumes bytes from the front of its input, and reading back what was written
yields the original value and leaves the remainder untouched. -/
structure Storable (T : Type) : Type where
  write : T → List Nat
  read : List Nat → Option (T × List Nat)
  read_suffix : ∀ d t r, read d = some (t, r) → r.length ≤ d.length
  read_write : ∀ t rest, read (write t ++ rest) = some (t, rest)

mutual
/-- `NodeEntry<T>`: an entry in a directory, either a file or another
directory. -/
inductive NodeEntry (T : Type) : Type where
  | Directory : Node T → NodeEntry T
  | File : T → NodeEntry T

/-- `Node<T>`: the contents of a directory — an optional store id (present iff
persisted and unmodified) and an optionally-loaded child map. -/
inductive Node (T : Type) : Type where
  | mk : Option Nat → Option (EntryList T) → Node T

/-- The child map of a node: `VecMap<Key, NodeEntry<T>>` as an ordered
association list.  Modelled from the spec: the `vecmap` module is not in
`src/`; §3 describes it as an ordered mapping from key-component to entry,
with keys kept lexicographically sorted and unique (invariant 4). -/
inductive EntryList (T : Type) : Type where
  | nil : EntryList T
  | cons : Key → NodeEntry T → EntryList T → EntryList T
end

variable {T : Type}

def Node.id : Node T → Option Nat
  | .mk i _ => i

def Node.entries : Node T → Option (EntryList T)
  | .mk _ es => es

/-- `Node::new`: a fresh empty node, not yet written to the store. -/
def Node.new : Node T := .mk none (some .nil)

/-- `Node::open`: a node for an existing store block; entries are unloaded.
(Named `openId` because `open` is reserved in Lean.) -/
def Node.openId (i : Nat) : Node T := .mk (some i) none

/-- `VecMap::get`: the entry stored under `k`, if any. -/
def EntryList.lookup : EntryList T → Key → Option (NodeEntry T)
  | .nil, _ => none
  | .cons k' e rest, k => if k = k' then some e else rest.lookup k

/-- `VecMap::insert`: sorted insert, replacing an existing binding of the same
key. -/
def EntryList.insert : EntryList T → Key → NodeEntry T → EntryList T
  | .nil, k, e => .cons k e .nil
  | .cons k' e' rest, k, e =>
    if k < k' then .cons k e (.cons k' e' rest)
    else if k = k' then .cons k e rest
    else .cons k' e' (rest.insert k e)

/-- `VecMap::remove`: drops the binding of `k`, if present. -/
def EntryList.remove : EntryList T → Key → EntryList T
  | .nil, _ => .nil
  | .cons k' e rest, k => if k = k' then rest else .cons k' e (rest.remove k)

/-- `VecMap::is_empty`. -/
def EntryList.isEmpty : EntryList T → Bool
  | .nil => true
  | .cons _ _ _ => false

/-- `VecMap::len`. -/
def EntryList.length : EntryList T → Nat
  | .nil => 0
  | .cons _ _ rest => 1 + rest.length

/-- The keys of the map, in list order. -/
def EntryList.keys : EntryList T → List Key
  | .nil => []
  | .cons k _ rest => k :: rest.keys

/-- `VecMap::range((Bound::Included(k), Bound::Unbounded))` on a sorted map:
the suffix of entries whose key is `≥ k`. -/
def EntryList.seekGe : EntryList T → Key → EntryList T
  | .nil, _ => .nil
  | .cons k' e rest, k => if k' < k then rest.seekGe k else .cons k' e rest

/-- `split_key`: splits a key into its first path element and the remaining
path elements (if any).  The last byte is skipped, so a terminal `/` does not
split.  The Rust source computes `key.len() - 1` over `usize`; on the empty
key this subtraction underflows and panics in checked builds, which the
embedding renders as `none`. -/
def split_key (key : Key) : Option (Key × Option Key) :=
  match key.length with
  | 0 => none
  | n + 1 =>
    match findSlashBefore key n with
    | some i => some (key.take (i + 1), some (key.drop (i + 1)))
    | none => some (key, none)
where
  /-- Index of the first `/` among the first `n` bytes, if any. -/
  findSlashBefore : List Nat → Nat → Option Nat
    | _, 0 => none
    | [], _ + 1 => none
    | b :: rest, n + 1 =>
      if b = slash then some 0 else (findSlashBefore rest n).map (· + 1)

/-- Big-endian byte readers (`byteorder::ReadBytesExt` on a cursor): `read_u8`. -/
def read_u8 : List Nat → Option (Nat × List Nat)
  | [] => none
  | b :: r => some (b, r)

/-- `read_u32::<BigEndian>`. -/
def read_u32_be : List Nat → Option (Nat × List Nat)
  | b0 :: b1 :: b2 :: b3 :: r => some (((b0 * 256 + b1) * 256 + b2) * 256 + b3, r)
  | _ => none

/-- `read_u64::<BigEndian>`. -/
def read_u64_be : List Nat → Option (Nat × List Nat)
  | b0 :: b1 :: b2 :: b3 :: b4 :: b5 :: b6 :: b7 :: r =>
    some (((((((b0 * 256 + b1) * 256 + b2) * 256 + b3) * 256 + b4) * 256 + b5)
      * 256 + b6) * 256 + b7, r)
  | _ => none

/-- `read_exact` into a buffer of length `n`. -/
def takeExact (n : Nat) (d : List Nat) : Option (List Nat × List Nat) :=
  if n ≤ d.length then some (d.take n, d.drop n) else none

/-- `write_u32::<BigEndian>`: the four big-endian bytes of `n` (truncated to
32 bits, as Rust's `as u32` casts do). -/
def u32_be (n : Nat) : List Nat :=
  [n / 2 ^ 24 % 256, n / 2 ^ 16 % 256, n / 2 ^ 8 % 256, n % 256]

/-- `write_u64::<BigEndian>`. -/
def u64_be (n : Nat) : List Nat :=
  [n / 2 ^ 56 % 256, n / 2 ^ 48 % 256, n / 2 ^ 40 % 256, n / 2 ^ 32 % 256,
   n / 2 ^ 24 % 256, n / 2 ^ 16 % 256, n / 2 ^ 8 % 256, n % 256]

/-- `NodeEntry::read`: one serialized entry — a tag byte (`'f'` = 102 or
`'d'` = 100), the payload (file state, or big-endian block id), the big-endian
name length, and the name bytes.  Any other tag is `CorruptTree`; truncation
is `CorruptTree` and a payload reader failure is `payloadDecode` (spec §7). -/
def NodeEntry.read (st : Storable T) (data : List Nat) :
    Res ((Key × NodeEntry T) × List Nat) :=
  match read_u8 data with
  | none => .err .corruptTree
  | some (tag, r1) =>
    if tag = 102 then
      match st.read r1 with
      | none => .err .payloadDecode
      | some (t, r2) =>
        match read_u32_be r2 with
        | none => .err .corruptTree
        | some (nameLen, r3) =>
          match takeExact nameLen r3 with
          | none => .err .corruptTree
          | some (name, r4) => .ok ((name, .File t), r4)
    else if tag = 100 then
      match read_u64_be r1 with
      | none => .err .corruptTree
      | some (i, r2) =>
        match read_u32_be r2 with
        | none => .err .corruptTree
        | some (nameLen, r3) =>
          match takeExact nameLen r3 with
          | none => .err .corruptTree
          | some (name, r4) => .ok ((name, .Directory (Node.openId i)), r4)
    else .err .corruptTree

/-- The entry-reading loop of `Node::load`: `while cursor.position() < len`,
parse one entry and append it at the end of the map (`insert_hint_end`; the
spec notes the map trusts the on-disk sort order, so this is a plain append).
Each successful `NodeEntry::read` consumes at least the tag byte, so fuel
`data.length` always suffices. -/
def parseEntries (st : Storable T) : Nat → List Nat → Res (EntryList T)
  | _, [] => .ok .nil
  | 0, _ :: _ => .fuelOut
  | fuel + 1, b :: data =>
    match NodeEntry.read st (b :: data) with
    | .ok ((name, entry), rest) =>
      match parseEntries st fuel rest with
      | .ok es => .ok (.cons name entry es)
      | r => r
    | .err e => .err e
    | .panic => .panic
    | .fuelOut => .fuelOut

/-- `Node::load`: if entries are populated, done.  Otherwise read the block at
`id` (`expect`ing the id to be present — a panic if not), parse the 32-bit
big-endian count (used by the source only to pre-size the map), then parse
entries until the block is exhausted. -/
def Node.load (st : Storable T) (s : Store) : Node T → Res (Node T)
  | .mk i (some es) => .ok (.mk i (some es))
  | .mk none none => .panic
  | .mk (some i) none =>
    match s.read i with
    | none => .err .storeIo
    | some data =>
      match read_u32_be data with
      | none => .err .corruptTree
      | some (_count, rest) =>
        match parseEntries st rest.length rest with
        | .ok es => .ok (.mk (some i) (some es))
        | .err e => .err e
        | .panic => .panic
        | .fuelOut => .fuelOut

/-- `Node::get`: a file's state.  Splits the key (a panic on the empty key),
loads this node's entries, and classifies per `path_recurse`: descend through
`Directory`, report the payload at `File`, and report not-found in the
`ExactDirectory`, `MissingDirectory`, `MissingFile` and `ConflictingFile`
cases.  Fuel bounds the descent; one unit per path component suffices. -/
def Node.get (st : Storable T) : Nat → Store → Node T → Key → Res (Option T)
  | 0, _, _, _ => .fuelOut
  | fuel + 1, s, n, name =>
    match split_key name with
    | none => .panic
    | some (elem, pathOpt) =>
      match n.load st s with
      | .ok (.mk _ (some es)) =>
        match pathOpt with
        | some path =>
          match es.lookup elem with
          | some (.Directory nd) => Node.get st fuel s nd path
          | some (.File _) => .ok none
          | none => .ok none
        | none =>
          match es.lookup elem with
          | some (.Directory _) => .ok none
          | some (.File t) => .ok (some t)
          | none => .ok none
      | .ok (.mk _ none) => .panic
      | .err e => .err e
      | .panic => .panic
      | .fuelOut => .fuelOut

/-- `Node::has_dir`: true iff the path is a directory.  Descends through
`Directory`, true at `ExactDirectory`, false in every other case. -/
def Node.has_dir (st : Storable T) : Nat → Store → Node T → Key → Res Bool
  | 0, _, _, _ => .fuelOut
  | fuel + 1, s, n, name =>
    match split_key name with
    | none => .panic
    | some (elem, pathOpt) =>
      match n.load st s with
      | .ok (.mk _ (some es)) =>
        match pathOpt with
        | some path =>
          match es.lookup elem with
          | some (.Directory nd) => Node.has_dir st fuel s nd path
          | some (.File _) => .ok false
          | none => .ok false
        | none =>
          match es.lookup elem with
          | some (.Directory _) => .ok true
          | some (.File _) => .ok false
          | none => .ok false
      | .ok (.mk _ none) => .panic
      | .err e => .err e
      | .panic => .panic
      | .fuelOut => .fuelOut

/-- `Node::add`: adds or updates a file.  `Directory` → recurse in place;
`MissingDirectory` → create a fresh node, add beneath it, insert it;
`File` → clone-assign the payload; `MissingFile` → insert a new leaf;
`ExactDirectory` and `ConflictingFile` → panic (programmer error, spec §7).
Every successful call clears this node's id.  Returns whether a new file was
created.  In-place mutation of a child through `&mut` is rendered by
re-inserting the updated child at its (unchanged) key. -/
def Node.add (st : Storable T) : Nat → Store → Node T → Key → T → Res (Node T × Bool)
  | 0, _, _, _, _ => .fuelOut
  | fuel + 1, s, n, name, info =>
    match split_key name with
    | none => .panic
    | some (elem, pathOpt) =>
      match n.load st s with
      | .ok (.mk _ (some es)) =>
        match pathOpt with
        | some path =>
          match es.lookup elem with
          | some (.Directory nd) =>
            match Node.add st fuel s nd path info with
            | .ok (nd', fileAdded) =>
              .ok (.mk none (some (es.insert elem (.Directory nd'))), fileAdded)
            | .err e => .err e
            | .panic => .panic
            | .fuelOut => .fuelOut
          | some (.File _) => .panic
          | none =>
            match Node.add st fuel s Node.new path info with
            | .ok (nd', fileAdded) =>
              .ok (.mk none (some (es.insert elem (.Directory nd'))), fileAdded)
            | .err e => .err e
            | .panic => .panic
            | .fuelOut => .fuelOut
        | none =>
          match es.lookup elem with
          | some (.Directory _) => .panic
          | some (.File _) =>
            .ok (.mk none (some (es.insert elem (.File info))), false)
          | none =>
            .ok (.mk none (some (es.insert elem (.File info))), true)
      | .ok (.mk _ none) => .panic
      | .err e => .err e
      | .panic => .panic
      | .fuelOut => .fuelOut

/-- `Node::remove`: removes a file.  `Directory` → recurse, and drop the child
directory if it reports now-empty; `File` → drop the leaf; all other cases are
no-ops.  The id is cleared exactly when an entry was dropped here or a file
was removed below.  Returns `(file_removed, now_empty)` with `now_empty`
computed after the local mutation. -/
def Node.remove (st : Storable T) : Nat → Store → Node T → Key → Res ((Bool × Bool) × Node T)
  | 0, _, _, _ => .fuelOut
  | fuel + 1, s, n, name =>
    match split_key name with
    | none => .panic
    | some (elem, pathOpt) =>
      match n.load st s with
      | .ok (.mk i (some es)) =>
        match pathOpt with
        | some path =>
          match es.lookup elem with
          | some (.Directory nd) =>
            match Node.remove st fuel s nd path with
            | .ok ((fileRemoved, nowEmpty), nd') =>
              let es' := if nowEmpty then es.remove elem
                         else es.insert elem (.Directory nd')
              let i' : Option Nat := if nowEmpty ∨ fileRemoved then none else i
              .ok ((fileRemoved, es'.isEmpty), .mk i' (some es'))
            | .err e => .err e
            | .panic => .panic
            | .fuelOut => .fuelOut
          | some (.File _) => .ok ((false, es.isEmpty), .mk i (some es))
          | none => .ok ((false, es.isEmpty), .mk i (some es))
        | none =>
          match es.lookup elem with
          | some (.Directory _) => .ok ((false, es.isEmpty), .mk i (some es))
          | some (.File _) =>
            let es' := es.remove elem
            .ok ((true, es'.isEmpty), .mk none (some es'))
          | none => .ok ((false, es.isEmpty), .mk i (some es))
      | .ok (.mk _ none) => .panic
      | .err e => .err e
      | .panic => .panic
      | .fuelOut => .fuelOut

/-- The serialization loop of `Node::write_entries`: for each entry, the tag
byte, the payload (file state, or the child's block id — whose absence is the
`unwrap` panic, rendered as `none`), the name length and the name bytes. -/
def serializeEntries (st : Storable T) : EntryList T → Option (List Nat)
  | .nil => some []
  | .cons name (.File t) rest =>
    (serializeEntries st rest).map fun tail =>
      102 :: (st.write t ++ (u32_be name.length ++ (name ++ tail)))
  | .cons name (.Directory nd) rest =>
    match nd.id with
    | none => none
    | some i =>
      (serializeEntries st rest).map fun tail =>
        100 :: (u64_be i ++ (u32_be name.length ++ (name ++ tail)))

/-- `Node::write_entries`: serializes the child map behind a big-endian count,
appends the block to the store, and records the assigned id on the node.
Panics if the entries are not populated or a child directory has no id. -/
def Node.write_entries (st : Storable T) (s : Store) : Node T → Res (Node T × Store)
  | .mk _ none => .panic
  | .mk _ (some es) =>
    match serializeEntries st es with
    | none => .panic
    | some payload =>
      let data := u32_be es.length ++ payload
      let (s', newId) := s.append data
      .ok (.mk (some newId) (some es), s')

mutual
/-- `Node::write_full`: depth-first post-order rewrite of every reachable node
into `s`, loading from `old` where entries are absent, then `write_entries` on
this node. -/
def Node.write_full (st : Storable T) : Nat → Store → Store → Node T → Res (Node T × Store)
  | 0, _, _, _ => .fuelOut
  | fuel + 1, s, old, n =>
    match n.load st old with
    | .ok (.mk i (some es)) =>
      match writeFullEntries st fuel s old es with
      | .ok (es', s') => Node.write_entries st s' (.mk i (some es'))
      | .err e => .err e
      | .panic => .panic
      | .fuelOut => .fuelOut
    | .ok (.mk _ none) => .panic
    | .err e => .err e
    | .panic => .panic
    | .fuelOut => .fuelOut

/-- The child loop of `write_full`: rewrite each child directory in order,
threading the destination store. -/
def writeFullEntries (st : Storable T) : Nat → Store → Store → EntryList T → Res (EntryList T × Store)
  | 0, _, _, _ => .fuelOut
  | _ + 1, s, _, .nil => .ok (.nil, s)
  | fuel + 1, s, old, .cons name (.File t) rest =>
    match writeFullEntries st fuel s old rest with
    | .ok (rest', s') => .ok (.cons name (.File t) rest', s')
    | .err e => .err e
    | .panic => .panic
    | .fuelOut => .fuelOut
  | fuel + 1, s, old, .cons name (.Directory nd) rest =>
    match Node.write_full st fuel s old nd with
    | .ok (nd', s') =>
      match writeFullEntries st fuel s' old rest with
      | .ok (rest', s'') => .ok (.cons name (.Directory nd') rest', s'')
      | .err e => .err e
      | .panic => .panic
      | .fuelOut => .fuelOut
    | .err e => .err e
    | .panic => .panic
    | .fuelOut => .fuelOut
end

mutual
/-- `Node::write_delta`: a node with an id is already persisted in this store
(spec §3 invariant 1) and is returned unchanged with nothing written.  A dirty
node must have its entries populated (`expect`, a panic otherwise); its dirty
children are written first, then itself. -/
def Node.write_delta (st : Storable T) : Nat → Store → Node T → Res (Node T × Store)
  | 0, _, _ => .fuelOut
  | fuel + 1, s, n =>
    match n.id with
    | some _ => .ok (n, s)
    | none =>
      match n.entries with
      | none => .panic
      | some es =>
        match writeDeltaEntries st fuel s es with
        | .ok (es', s') => Node.write_entries st s' (.mk none (some es'))
        | .err e => .err e
        | .panic => .panic
        | .fuelOut => .fuelOut

/-- The child loop of `write_delta`. -/
def writeDeltaEntries (st : Storable T) : Nat → Store → EntryList T → Res (EntryList T × Store)
  | 0, _, _ => .fuelOut
  | _ + 1, s, .nil => .ok (.nil, s)
  | fuel + 1, s, .cons name (.File t) rest =>
    match writeDeltaEntries st fuel s rest with
    | .ok (rest', s') => .ok (.cons name (.File t) rest', s')
    | .err e => .err e
    | .panic => .panic
    | .fuelOut => .fuelOut
  | fuel + 1, s, .cons name (.Directory nd) rest =>
    match Node.write_delta st fuel s nd with
    | .ok (nd', s') =>
      match writeDeltaEntries st fuel s' rest with
      | .ok (rest', s'') => .ok (.cons name (.Directory nd') rest', s'')
      | .err e => .err e
      | .panic => .panic
      | .fuelOut => .fuelOut
    | .err e => .err e
    | .panic => .panic
    | .fuelOut => .fuelOut
end

mutual
/-- `Node::get_first`: the lexicographically first file beneath this node, as
a reversed stack of path components plus the payload, or `none` if the subtree
is empty. -/
def Node.get_first (st : Storable T) : Nat → Store → Node T → Res (Option (List Key × T))
  | 0, _, _ => .fuelOut
  | fuel + 1, s, n =>
    match n.load st s with
    | .ok (.mk _ (some es)) => getFirstEntries st fuel s es
    | .ok (.mk _ none) => .panic
    | .err e => .err e
    | .panic => .panic
    | .fuelOut => .fuelOut

/-- The entry loop of `get_first`: scan entries in order; descend into a
directory (pushing its name onto the reversed path on success, else moving
on), and return the first file immediately. -/
def getFirstEntries (st : Storable T) : Nat → Store → EntryList T → Res (Option (List Key × T))
  | 0, _, _ => .fuelOut
  | _ + 1, _, .nil => .ok none
  | fuel + 1, s, .cons name (.Directory nd) rest =>
    match Node.get_first st fuel s nd with
    | .ok (some (path, t)) => .ok (some (path ++ [name], t))
    | .ok none => getFirstEntries st fuel s rest
    | .err e => .err e
    | .panic => .panic
    | .fuelOut => .fuelOut
  | _ + 1, _, .cons name (.File t) _ => .ok (some ([name], t))
end

mutual
/-- `Node::get_next`: the first file strictly after `name` in this subtree.
Splits `name` into its first element and remainder, then scans the entries
with key ≥ the first element in order. -/
def Node.get_next (st : Storable T) : Nat → Store → Node T → Key → Res (Option (List Key × T))
  | 0, _, _, _ => .fuelOut
  | fuel + 1, s, n, name =>
    match split_key name with
    | none => .panic
    | some (elem, pathOpt) =>
      match n.load st s with
      | .ok (.mk _ (some es)) => getNextEntries st fuel s elem pathOpt (es.seekGe elem)
      | .ok (.mk _ none) => .panic
      | .err e => .err e
      | .panic => .panic
      | .fuelOut => .fuelOut

/-- The entry loop of `get_next`.  A directory whose name is not the original
first element discards the remaining subpath; descend with `get_next` on the
subpath if it is still relevant, else with `get_first`.  A file is returned
unless it is the resumption anchor itself. -/
def getNextEntries (st : Storable T) :
    Nat → Store → Key → Option Key → EntryList T → Res (Option (List Key × T))
  | 0, _, _, _, _ => .fuelOut
  | _ + 1, _, _, _, .nil => .ok none
  | fuel + 1, s, elem, pathOpt, .cons entryName (.Directory nd) rest =>
    let pathOpt' := if elem ≠ entryName then none else pathOpt
    match (match pathOpt' with
           | some path => Node.get_next st fuel s nd path
           | none => Node.get_first st fuel s nd) with
    | .ok (some (nextName, t)) => .ok (some (nextName ++ [entryName], t))
    | .ok none => getNextEntries st fuel s elem pathOpt' rest
    | .err e => .err e
    | .panic => .panic
    | .fuelOut => .fuelOut
  | fuel + 1, s, elem, pathOpt, .cons entryName (.File t) rest =>
    if elem ≠ entryName then .ok (some ([entryName], t))
    else getNextEntries st fuel s elem pathOpt rest
end

mutual
/-- `Node::visit`, with the caller's visitor specialized to collecting the
visited `(path, file)` pairs in order; `prefixPath` is the component stack
maintained by push/pop in the source. -/
def Node.visitList (st : Storable T) :
    Nat → Store → List Key → Node T → Res (List (List Key × T))
  | 0, _, _, _ => .fuelOut
  | fuel + 1, s, prefixPath, n =>
    match n.load st s with
    | .ok (.mk _ (some es)) => visitEntries st fuel s prefixPath es
    | .ok (.mk _ none) => .panic
    | .err e => .err e
    | .panic => .panic
    | .fuelOut => .fuelOut

/-- The entry loop of `visit`. -/
def visitEntries (st : Storable T) :
    Nat → Store → List Key → EntryList T → Res (List (List Key × T))
  | 0, _, _, _ => .fuelOut
  | _ + 1, _, _, .nil => .ok []
  | fuel + 1, s, prefixPath, .cons name (.Directory nd) rest =>
    match Node.visitList st fuel s (prefixPath ++ [name]) nd with
    | .ok sub =>
      match visitEntries st fuel s prefixPath rest with
      | .ok more => .ok (sub ++ more)
      | .err e => .err e
      | .panic => .panic
      | .fuelOut => .fuelOut
    | .err e => .err e
    | .panic => .panic
    | .fuelOut => .fuelOut
  | fuel + 1, s, prefixPath, .cons name (.File t) rest =>
    match visitEntries st fuel s prefixPath rest with
    | .ok more => .ok ((prefixPath ++ [name], t) :: more)
    | .err e => .err e
    | .panic => .panic
    | .fuelOut => .fuelOut
end

/-- The `Tree` façade: the root node plus the cached file count.  The count is
a `u32` in the source; its width is immaterial here (it never exceeds the
number of `add` calls), so it is carried as `Nat`. -/
structure Tree (T : Type) : Type where
  root : Node T
  file_count : Nat

/-- `Tree::new`. -/
def Tree.new : Tree T := ⟨Node.new, 0⟩

/-- `Tree::open` (named `openTree` because `open` is reserved in Lean). -/
def Tree.openTree (rootId : Nat) (fileCount : Nat) : Tree T := ⟨Node.openId rootId, fileCount⟩

/-- `Tree::root_id`. -/
def Tree.root_id (t : Tree T) : Option Nat := t.root.id

/-- `Tree::get`. -/
def Tree.get (st : Storable T) (fuel : Nat) (s : Store) (t : Tree T) (name : Key) :
    Res (Option T) :=
  Node.get st fuel s t.root name

/-- `Tree::has_dir`. -/
def Tree.has_dir (st : Storable T) (fuel : Nat) (s : Store) (t : Tree T) (name : Key) :
    Res Bool :=
  Node.has_dir st fuel s t.root name

/-- `Tree::add`: delegates to the root and bumps the count when a new file was
created. -/
def Tree.add (st : Storable T) (fuel : Nat) (s : Store) (t : Tree T) (name : Key) (info : T) :
    Res (Tree T) :=
  match Node.add st fuel s t.root name info with
  | .ok (root', fileAdded) =>
    .ok ⟨root', if fileAdded then t.file_count + 1 else t.file_count⟩
  | .err e => .err e
  | .panic => .panic
  | .fuelOut => .fuelOut

/-- `Tree::remove`: delegates to the root; when a file was removed, asserts
the cached count is positive (a panic otherwise) and decrements it. -/
def Tree.remove (st : Storable T) (fuel : Nat) (s : Store) (t : Tree T) (name : Key) :
    Res (Bool × Tree T) :=
  match Node.remove st fuel s t.root name with
  | .ok ((fileRemoved, _), root') =>
    if fileRemoved then
      if t.file_count = 0 then .panic
      else .ok (true, ⟨root', t.file_count - 1⟩)
    else .ok (false, ⟨root', t.file_count⟩)
  | .err e => .err e
  | .panic => .panic
  | .fuelOut => .fuelOut

/-- `Tree::get_first`: the root's first file, with the reversed component
stack reversed back and concatenated into a full key. -/
def Tree.get_first (st : Storable T) (fuel : Nat) (s : Store) (t : Tree T) :
    Res (Option (Key × T)) :=
  match Node.get_first st fuel s t.root with
  | .ok r => .ok (r.map fun (path, f) => (path.reverse.flatten, f))
  | .err e => .err e
  | .panic => .panic
  | .fuelOut => .fuelOut

/-- `Tree::get_next`. -/
def Tree.get_next (st : Storable T) (fuel : Nat) (s : Store) (t : Tree T) (name : Key) :
    Res (Option (Key × T)) :=
  match Node.get_next st fuel s t.root name with
  | .ok r => .ok (r.map fun (path, f) => (path.reverse.flatten, f))
  | .err e => .err e
  | .panic => .panic
  | .fuelOut => .fuelOut

/-- `Tree::visit` (collecting form): the visited files in order, each with its
concatenated full key. -/
def Tree.visit (st : Storable T) (fuel : Nat) (s : Store) (t : Tree T) :
    Res (List (Key × T)) :=
  match Node.visitList st fuel s [] t.root with
  | .ok l => .ok (l.map fun (path, f) => (path.flatten, f))
  | .err e => .err e
  | .panic => .panic
  | .fuelOut => .fuelOut

/-- `Tree::write_full`. -/
def Tree.write_full (st : Storable T) (fuel : Nat) (s old : Store) (t : Tree T) :
    Res (Tree T × Store) :=
  match Node.write_full st fuel s old t.root with
  | .ok (root', s') => .ok (⟨root', t.file_count⟩, s')
  | .err e => .err e
  | .panic => .panic
  | .fuelOut => .fuelOut

/-- `Tree::write_delta`. -/
def Tree.write_delta (st : Storable T) (fuel : Nat) (s : Store) (t : Tree T) :
    Res (Tree T × Store) :=
  match Node.write_delta st fuel s t.root with
  | .ok (root', s') => .ok (⟨root', t.file_count⟩, s')
  | .err e => .err e
  | .panic => .panic
  | .fuelOut => .fuelOut

/-! ## Specification layer: pure views of a tree -/

mutual
/-- The files reachable from a node, as `(full key, payload)` pairs in entry
order, full keys being the concatenation of the path components.  An unloaded
subtree contributes nothing (the pure view of an in-memory tree). -/
def Node.flat : Node T → List (Key × T)
  | .mk _ none => []
  | .mk _ (some es) => es.flat

/-- The files reachable from an entry list, in order. -/
def EntryList.flat : EntryList T → List (Key × T)
  | .nil => []
  | .cons name (.File t) rest => (name, t) :: rest.flat
  | .cons name (.Directory nd) rest =>
    (nd.flat.map fun p => (name ++ p.1, p.2)) ++ rest.flat
end

/-- The number of `File` leaves reachable from a node. -/
def Node.countFiles (n : Node T) : Nat := n.flat.length

/-- The full keys of the files reachable from a node, in order. -/
def Node.fileKeys (n : Node T) : List Key := n.flat.map Prod.fst

/-- A directory component: nonempty, ends in `/`, and contains no other `/`
(spec §3: directory components within a key include their trailing `/`). -/
def dirComponent (k : Key) : Prop :=
  k ≠ [] ∧ k.getLast? = some slash ∧ slash ∉ k.dropLast

/-- A file component: nonempty, with `/` allowed only as the final byte
(`split_key` never splits on a terminal `/`, so `add` can install such a
name as a file). -/
def fileComponent (k : Key) : Prop := k ≠ [] ∧ slash ∉ k.dropLast

/-- `k` is strictly below the first key of `es` (if any); with sortedness this
chains into "strictly below every key of `es`". -/
def ltHeadKey (k : Key) : EntryList T → Prop
  | .nil => True
  | .cons k' _ _ => k < k'

mutual
/-- Well-formed in-memory node: entries are loaded and well-formed.  This is
the data-model invariant of spec §3 for fully-materialized trees. -/
def Node.Wf : Node T → Prop
  | .mk _ none => False
  | .mk _ (some es) => es.Wf

/-- Well-formed entry list: keys strictly ascending (invariant 4), file
entries named by file components, directory entries named by directory
components with well-formed subtrees (invariant 5 and the key grammar of
§3). -/
def EntryList.Wf : EntryList T → Prop
  | .nil => True
  | .cons k (.File _) rest => fileComponent k ∧ ltHeadKey k rest ∧ rest.Wf
  | .cons k (.Directory nd) rest =>
    dirComponent k ∧ ltHeadKey k rest ∧ nd.Wf ∧ rest.Wf
end

mutual
/-- Every directory below this (non-root) node, and the node itself, has a
non-empty, loaded child map. -/
def Node.NeDirs : Node T → Prop
  | .mk _ none => False
  | .mk _ (some es) => es ≠ .nil ∧ es.NeDirs

/-- Every directory entry of the list satisfies `Node.NeDirs`. -/
def EntryList.NeDirs : EntryList T → Prop
  | .nil => True
  | .cons _ (.File _) rest => rest.NeDirs
  | .cons _ (.Directory nd) rest => nd.NeDirs ∧ rest.NeDirs
end

/-- The root variant of `NeDirs`: the root's map is loaded and may be empty,
but every directory strictly below is non-empty. -/
def rootNeDirs : Node T → Prop
  | .mk _ none => False
  | .mk _ (some es) => es.NeDirs

/-- A one-byte deserializer for `Bool`, for concrete witnesses. -/
def boolRead : List Nat → Option (Bool × List Nat)
  | [] => none
  | b :: r => if b = 1 then some (true, r) else if b = 0 then some (false, r) else none

/-- A concrete payload type for witnesses: `Bool` with a one-byte format. -/
def boolStorable : Storable Bool where
  write b := [if b then 1 else 0]
  read := boolRead
  read_suffix := by
    intro d t r h
    match d with
    | [] => simp [boolRead] at h
    | b :: d' =>
      simp only [boolRead] at h
      split at h
      · cases h; simp
      · split at h
        · cases h; simp
        · cases h
  read_write := by
    intro t rest
    cases t <;> simp [boolRead]

/-! ## Lemmas about `split_key` -/

theorem findSlashBefore_none {l : List Nat} {n : Nat} (h : slash ∉ l.take n) :
    split_key.findSlashBefore l n = none := by
  induction l generalizing n with
  | nil => cases n <;> simp [split_key.findSlashBefore]
  | cons b rest ih =>
    cases n with
    | zero => simp [split_key.findSlashBefore]
    | succ n =>
      simp only [List.take, List.mem_cons, not_or] at h
      simp [split_key.findSlashBefore, Ne.symm h.1, ih h.2]

theorem findSlashBefore_lt {l : List Nat} {n i : Nat}
    (h : split_key.findSlashBefore l n = some i) : i < n ∧ i < l.length := by
  induction l generalizing n i with
  | nil => cases n <;> simp [split_key.findSlashBefore] at h
  | cons b rest ih =>
    cases n with
    | zero => simp [split_key.findSlashBefore] at h
    | succ n =>
      simp only [split_key.findSlashBefore] at h
      split at h
      · cases h
        exact ⟨by omega, by simp⟩
      · simp only [Option.map_eq_some'] at h
        obtain ⟨j, hj, rfl⟩ := h
        have := ih hj
        refine ⟨by omega, ?_⟩
        simp only [List.length_cons]
        omega

theorem findSlashBefore_append {b : List Nat} (rest : List Nat) :
    ∀ {n : Nat}, slash ∉ b → b.length < n →
    split_key.findSlashBefore (b ++ slash :: rest) n = some b.length := by
  induction b with
  | nil =>
    intro n _ hn
    match n, hn with
    | n + 1, _ => simp [split_key.findSlashBefore]
  | cons x b' ih =>
    intro n hb hn
    match n, hn with
    | n + 1, hn =>
      have hx : ¬(x = slash) := fun h => hb (by simp [h])
      have hb' : slash ∉ b' := fun h => hb (List.mem_cons_of_mem _ h)
      have hlt : b'.length < n := by
        simp only [List.length_cons] at hn
        omega
      simp only [List.cons_append, split_key.findSlashBefore, hx, if_false,
        List.append_eq]
      rw [ih hb' hlt]
      simp [List.length_cons, Nat.add_comm]

/-- Evaluation of `split_key` once the key length is known. -/
theorem split_key_eq {key : Key} {n : Nat} (h : key.length = n + 1) :
    split_key key =
      match split_key.findSlashBefore key n with
      | some i => some (key.take (i + 1), some (key.drop (i + 1)))
      | none => some (key, none) := by
  unfold split_key
  rw [h]

/-- On a file component, `split_key` does not split. -/
theorem split_key_fileComponent {k : Key} (h : fileComponent k) :
    split_key k = some (k, none) := by
  obtain ⟨hne, hns⟩ := h
  match hk : k.length with
  | 0 => exact absurd (List.length_eq_zero.mp hk) hne
  | n + 1 =>
    have ht : k.take n = k.dropLast := by
      rw [List.dropLast_eq_take, hk]
      simp
    rw [split_key_eq hk, findSlashBefore_none (ht ▸ hns)]

/-- A directory component is a slash-free body followed by a single slash. -/
theorem dirComponent_shape {d : Key} (hd : dirComponent d) :
    ∃ b, d = b ++ [slash] ∧ slash ∉ b := by
  obtain ⟨hne, hlast, hns⟩ := hd
  refine ⟨d.dropLast, ?_, hns⟩
  have h1 : d.dropLast ++ [d.getLast hne] = d := List.dropLast_append_getLast hne
  have h2 : d.getLast hne = slash := by
    have := List.getLast?_eq_getLast d hne
    rw [this] at hlast
    exact Option.some.inj hlast
  rw [← h2]
  exact h1.symm

/-- On a directory component followed by a nonempty remainder, `split_key`
splits off exactly the component. -/
theorem split_key_dir_append {d rest : Key} (hd : dirComponent d) (hrest : rest ≠ []) :
    split_key (d ++ rest) = some (d, some rest) := by
  obtain ⟨b, rfl, hb⟩ := dirComponent_shape hd
  match hr : rest.length with
  | 0 => exact absurd (List.length_eq_zero.mp hr) hrest
  | m + 1 =>
    have hshape : b ++ [slash] ++ rest = b ++ slash :: rest := by simp
    have hlen : (b ++ [slash] ++ rest).length = (b.length + m + 1) + 1 := by
      simp [hr]
      omega
    have hfs : split_key.findSlashBefore (b ++ slash :: rest) (b.length + m + 1) =
        some b.length := findSlashBefore_append rest hb (by omega)
    rw [split_key_eq hlen, hshape, hfs]
    have h1 : (b ++ slash :: rest).take (b.length + 1) = b ++ [slash] := by
      rw [← hshape, List.take_left' (by simp)]
    have h2 : (b ++ slash :: rest).drop (b.length + 1) = rest := by
      rw [← hshape, List.drop_left' (by simp)]
    simp [h1, h2]

/-- /// C9 /// `split_key` evaluates `key.len() - 1` over unsigned length, so
on the empty key the subtraction underflows and the function panics in checked
builds (rendered `none`); consequently `get`, `has_dir`, `add`, `remove` and
`get_next` panic on the empty key for every store, node, payload codec and
positive fuel; and for every non-empty key `split_key` succeeds with a
non-empty head and, when it splits, a non-empty tail. -/
theorem c9_split_key_empty_key_panics (st : Storable T) :
    split_key ([] : Key) = none ∧
    (∀ (k : Key), k ≠ [] → ∃ head tailOpt, split_key k = some (head, tailOpt) ∧
      head ≠ [] ∧ ∀ tail, tailOpt = some tail → tail ≠ []) ∧
    (∀ (fuel : Nat) (s : Store) (n : Node T) (info : T),
      Node.get st (fuel + 1) s n [] = .panic ∧
      Node.has_dir st (fuel + 1) s n [] = .panic ∧
      Node.add st (fuel + 1) s n [] info = .panic ∧
      Node.remove st (fuel + 1) s n [] = .panic ∧
      Node.get_next st (fuel + 1) s n [] = .panic) := by
  refine ⟨rfl, ?_, ?_⟩
  · intro k hk
    match hl : k.length with
    | 0 => exact absurd (List.length_eq_zero.mp hl) hk
    | n + 1 =>
      match hfs : split_key.findSlashBefore k n with
      | some i =>
        have hi := findSlashBefore_lt hfs
        refine ⟨k.take (i + 1), some (k.drop (i + 1)), ?_, ?_, ?_⟩
        · simp [split_key, hl, hfs]
        · simp only [ne_eq, List.take_eq_nil_iff]
          push_neg
          exact ⟨by omega, hk⟩
        · intro tail htail
          cases htail
          simp only [ne_eq, List.drop_eq_nil_iff]
          push_neg
          omega
      | none =>
        exact ⟨k, none, by simp [split_key, hl, hfs], hk, by simp⟩
  · intro fuel s n info
    refine ⟨?_, ?_, ?_, ?_, ?_⟩ <;>
      simp [Node.get, Node.has_dir, Node.add, Node.remove, Node.get_next, split_key]

/-- Witness for C9 at concrete inputs. -/
theorem c9_split_key_empty_key_panics_witness :
    split_key ([] : Key) = none ∧
    Node.get boolStorable 1 nullStore (Node.new (T := Bool)) [] = .panic := by
  have h := c9_split_key_empty_key_panics (T := Bool) boolStorable
  exact ⟨h.1, ((h.2.2 0 nullStore Node.new true).1)⟩

/-! ## Parsing: consumption bounds and the behaviour of `load` -/

theorem read_u32_be_length {d r : List Nat} {v : Nat} (h : read_u32_be d = some (v, r)) :
    r.length + 4 = d.length := by
  match d with
  | b0 :: b1 :: b2 :: b3 :: rest =>
    cases h
    simp
  | [] | [_] | [_, _] | [_, _, _] => simp [read_u32_be] at h

theorem read_u64_be_length {d r : List Nat} {v : Nat} (h : read_u64_be d = some (v, r)) :
    r.length + 8 = d.length := by
  match d with
  | b0 :: b1 :: b2 :: b3 :: b4 :: b5 :: b6 :: b7 :: rest =>
    cases h
    simp
  | [] | [_] | [_, _] | [_, _, _] | [_, _, _, _] | [_, _, _, _, _]
  | [_, _, _, _, _, _] | [_, _, _, _, _, _, _] => simp [read_u64_be] at h

theorem takeExact_length {n : Nat} {d taken r : List Nat}
    (h : takeExact n d = some (taken, r)) : r.length ≤ d.length := by
  unfold takeExact at h
  split at h
  · cases h
    simp
  · cases h

/-- A successfully parsed entry consumes at least its tag byte. -/
theorem NodeEntry.read_length {st : Storable T} {data rest : List Nat}
    {x : Key × NodeEntry T} (h : NodeEntry.read st data = .ok (x, rest)) :
    rest.length < data.length := by
  match data with
  | [] => simp [NodeEntry.read, read_u8] at h
  | b :: r1 =>
    simp only [NodeEntry.read, read_u8] at h
    split at h
    · -- file entry
      match hp : st.read r1 with
      | none => simp [hp] at h
      | some (t, r2) =>
        simp only [hp] at h
        have h2 : r2.length ≤ r1.length := st.read_suffix _ _ _ hp
        match h32 : read_u32_be r2 with
        | none => simp [h32] at h
        | some (nameLen, r3) =>
          simp only [h32] at h
          have h3 := read_u32_be_length h32
          match hT : takeExact nameLen r3 with
          | none => simp [hT] at h
          | some (name, r4) =>
            simp only [hT] at h
            cases h
            have h4 := takeExact_length hT
            simp only [List.length_cons]
            omega
    · split at h
      · -- directory entry
        match h64 : read_u64_be r1 with
        | none => simp [h64] at h
        | some (i, r2) =>
          simp only [h64] at h
          have h2 := read_u64_be_length h64
          match h32 : read_u32_be r2 with
          | none => simp [h32] at h
          | some (nameLen, r3) =>
            simp only [h32] at h
            have h3 := read_u32_be_length h32
            match hT : takeExact nameLen r3 with
            | none => simp [hT] at h
            | some (name, r4) =>
              simp only [hT] at h
              cases h
              have h4 := takeExact_length hT
              simp only [List.length_cons]
              omega
      · cases h

/-- `NodeEntry::read` is a straight-line parser: it never exhausts fuel and
never panics. -/
theorem NodeEntry.read_not_fuelOut (st : Storable T) (d : List Nat) :
    NodeEntry.read st d ≠ .fuelOut ∧ NodeEntry.read st d ≠ .panic := by
  unfold NodeEntry.read
  repeat' split
  all_goals simp

/-- Fuel equal to the byte count always suffices for the entry loop. -/
theorem parseEntries_no_fuelOut (st : Storable T) :
    ∀ (fuel : Nat) (data : List Nat), data.length ≤ fuel →
    parseEntries st fuel data ≠ .fuelOut := by
  intro fuel
  induction fuel with
  | zero =>
    intro data h
    match data with
    | [] => simp [parseEntries]
    | _ :: _ => simp at h
  | succ fuel ih =>
    intro data h
    match data with
    | [] => simp [parseEntries]
    | b :: d =>
      simp only [parseEntries]
      match hr : NodeEntry.read st (b :: d) with
      | .ok ((name, entry), rest) =>
        have hlen := NodeEntry.read_length hr
        have hrec := ih rest (by simp only [List.length_cons] at hlen h; omega)
        match hp : parseEntries st fuel rest with
        | .ok es => simp [hp]
        | .err e => simp [hp]
        | .panic => simp [hp]
        | .fuelOut => exact absurd hp hrec
      | .err e => simp
      | .panic => exact absurd hr (NodeEntry.read_not_fuelOut st _).2
      | .fuelOut => exact absurd hr (NodeEntry.read_not_fuelOut st _).1

/-- The big-endian writers and readers round-trip (modulo the 32/64-bit
truncation the writers perform). -/
theorem read_u32_be_u32_be (n : Nat) (r : List Nat) :
    read_u32_be (u32_be n ++ r) = some (n % 2 ^ 32, r) := by
  simp only [u32_be, List.cons_append, List.nil_append, read_u32_be]
  congr 2
  omega

theorem read_u64_be_u64_be (n : Nat) (r : List Nat) :
    read_u64_be (u64_be n ++ r) = some (n % 2 ^ 64, r) := by
  simp only [u64_be, List.cons_append, List.nil_append, read_u64_be]
  congr 2
  omega

/-- /// C2 (counterexample) /// A block declaring zero entries but carrying a
complete trailing file entry: `Node::load` succeeds (the trailing entry is
simply parsed and appended), and in particular does not fail with
`CorruptTree`, contradicting the claim that trailing bytes past the declared
count are rejected. -/
theorem c2_trailing_bytes_accepted_counterexample :
    Node.load boolStorable ⟨[u32_be 0 ++ [102, 1, 0, 0, 0, 1, 97]]⟩
        (Node.openId 0) =
      .ok (.mk (some 0) (some (.cons [97] (.File true) .nil))) ∧
    Node.load boolStorable ⟨[u32_be 0 ++ [102, 1, 0, 0, 0, 1, 97]]⟩
        (Node.openId 0) ≠ .err .corruptTree := by
  constructor
  · rfl
  · intro h
    rw [show Node.load boolStorable ⟨[u32_be 0 ++ [102, 1, 0, 0, 0, 1, 97]]⟩
        (Node.openId 0) =
      .ok (.mk (some 0) (some (.cons [97] (.File true) .nil))) from rfl] at h
    cases h

/-- /// C2 (amended) /// `Node::load` on an unloaded node reads the 32-bit
big-endian count but uses it only to pre-size the map: it then parses entries
consecutively until the block is exhausted, whatever the count said.  The
result is exactly the result of the entry-parsing loop on the bytes after the
count (and that loop never exhausts its fuel), so a block with trailing bytes
fails only if those bytes do not parse as entries. -/
theorem c2_load_parses_to_exhaustion (st : Storable T) (s : Store) (i cnt : Nat)
    (rest : List Nat) (h : s.read i = some (u32_be cnt ++ rest)) :
    (Node.load st s (Node.openId i) =
      match parseEntries st rest.length rest with
      | .ok es => .ok (.mk (some i) (some es))
      | .err e => .err e
      | .panic => .panic
      | .fuelOut => .fuelOut) ∧
    parseEntries st rest.length rest ≠ .fuelOut := by
  refine ⟨?_, parseEntries_no_fuelOut st rest.length rest le_rfl⟩
  simp only [Node.load, Node.openId, h, read_u32_be_u32_be]

/-- Witness for the amended C2 at a concrete block. -/
theorem c2_load_parses_to_exhaustion_witness :
    Node.load boolStorable ⟨[u32_be 7 ++ [102, 0, 0, 0, 0, 1, 98]]⟩
        (Node.openId 0) =
      .ok (.mk (some 0) (some (.cons [98] (.File false) .nil))) := by
  rw [(c2_load_parses_to_exhaustion boolStorable
    ⟨[u32_be 7 ++ [102, 0, 0, 0, 0, 1, 98]]⟩ 0 7 [102, 0, 0, 0, 0, 1, 98] rfl).1]
  rfl

/-! ## The lexicographic order on keys, and path components -/

theorem key_lt_append {a b : Key} (s : List Nat) (h : a < b) : a < b ++ s :=
  List.Lex.append_right _ s h

theorem key_lt_self_append (a : Key) {s : List Nat} (hs : s ≠ []) : a < a ++ s := by
  have h0 : ([] : List Nat) < s := by
    cases s with
    | nil => exact absurd rfl hs
    | cons x xs => exact List.Lex.nil
  simpa using List.Lex.append_left (· < ·) h0 a

theorem key_append_lt_iff (a x y : Key) : a ++ x < a ++ y ↔ x < y := by
  constructor
  · intro h
    induction a with
    | nil => simpa using h
    | cons c a ih => exact ih (List.Lex.cons_iff.mp h)
  · intro h
    exact List.Lex.append_left (· < ·) h a

/-- `p` is an initial segment of `k`. -/
def keyPre (p k : Key) : Prop := ∃ s, k = p ++ s

theorem key_divergence {a b : Key} (h : a < b) (hp : ¬ keyPre a b)
    (sa sb : List Nat) : a ++ sa < b ++ sb := by
  have h' : List.Lex (· < ·) a b := h
  induction h' generalizing sa sb with
  | nil => exact absurd ⟨_, rfl⟩ hp
  | @rel a₁ l₁ a₂ l₂ hr => exact List.Lex.rel hr
  | @cons a l₁ l₂ hlt ih =>
    refine List.Lex.cons (ih hlt ?_ sa sb)
    intro ⟨s, hs⟩
    exact hp ⟨s, by rw [hs]; rfl⟩

theorem dirComponent.toFile {k : Key} (h : dirComponent k) : fileComponent k :=
  ⟨h.1, h.2.2⟩

theorem dir_not_keyPre {a b : Key} (ha : dirComponent a) (hb : fileComponent b)
    (hne : a ≠ b) : ¬ keyPre a b := by
  obtain ⟨p, rfl, hp⟩ := dirComponent_shape ha
  rintro ⟨t, rfl⟩
  cases t with
  | nil => exact hne (by simp)
  | cons c t' =>
    have hmem : slash ∈ (p ++ [slash] ++ (c :: t')).dropLast := by
      have hshape : p ++ [slash] ++ (c :: t') = p ++ slash :: c :: t' := by simp
      rw [hshape, List.dropLast_eq_take]
      have hlen : (p ++ slash :: c :: t').length - 1 = p.length + (c :: t').length := by
        simp only [List.length_append, List.length_cons]
        omega
      rw [hlen, List.take_append_eq_append_take]
      simp
    exact hb.2 hmem

/-- The workhorse sibling comparison: a component strictly below another
component stays below it after appending arbitrary suffixes, provided the
smaller one is extended trivially or is a directory component. -/
theorem comp_append_lt {a b : Key} (hab : a < b) (hb : fileComponent b)
    (sa sb : List Nat) (ha : sa = [] ∨ dirComponent a) : a ++ sa < b ++ sb := by
  cases ha with
  | inl h =>
    subst h
    simpa using key_lt_append sb hab
  | inr hdir => exact key_divergence hab (dir_not_keyPre hdir hb (ne_of_lt hab)) sa sb

/-! ## Classification of `split_key` results -/

theorem findSlashBefore_eq_none {l : List Nat} :
    ∀ {n : Nat}, split_key.findSlashBefore l n = none → slash ∉ l.take n := by
  induction l with
  | nil => intro n h; simp
  | cons b rest ih =>
    intro n h
    cases n with
    | zero => simp
    | succ n =>
      simp only [split_key.findSlashBefore] at h
      split at h
      · cases h
      · simp only [Option.map_eq_none'] at h
        rename_i hb
        simp only [List.take, List.mem_cons, not_or]
        exact ⟨fun he => hb he.symm, ih h⟩

theorem findSlashBefore_some_spec {l : List Nat} :
    ∀ {n i : Nat}, split_key.findSlashBefore l n = some i →
    l.get? i = some slash ∧ slash ∉ l.take i := by
  induction l with
  | nil => intro n i h; cases n <;> simp [split_key.findSlashBefore] at h
  | cons b rest ih =>
    intro n i h
    cases n with
    | zero => simp [split_key.findSlashBefore] at h
    | succ n =>
      simp only [split_key.findSlashBefore] at h
      split at h
      · cases h
        rename_i hb
        exact ⟨by simp [hb], by simp⟩
      · simp only [Option.map_eq_some'] at h
        obtain ⟨j, hj, rfl⟩ := h
        rename_i hb
        have := ih hj
        refine ⟨by simpa using this.1, ?_⟩
        simp only [List.take, List.mem_cons, not_or]
        exact ⟨fun he => hb he.symm, this.2⟩

/-- A non-splitting `split_key` returns the whole key, which is then a file
component. -/
theorem split_key_none_spec {k elem : Key} (h : split_key k = some (elem, none)) :
    elem = k ∧ fileComponent k := by
  match hl : k.length with
  | 0 =>
    unfold split_key at h
    rw [hl] at h
    cases h
  | n + 1 =>
    rw [split_key_eq hl] at h
    match hfs : split_key.findSlashBefore k n with
    | some i => rw [hfs] at h; cases h
    | none =>
      rw [hfs] at h
      cases h
      have hne : k ≠ [] := by
        intro hk
        rw [hk] at hl
        cases hl
      have hns : slash ∉ k.dropLast := by
        have := findSlashBefore_eq_none hfs
        rwa [List.dropLast_eq_take, hl, Nat.succ_sub_one]
      exact ⟨rfl, hne, hns⟩

/-- A splitting `split_key` returns a directory component and a nonempty
remainder whose concatenation is the key. -/
theorem split_key_some_spec {k elem path : Key}
    (h : split_key k = some (elem, some path)) :
    k = elem ++ path ∧ dirComponent elem ∧ path ≠ [] := by
  match hl : k.length with
  | 0 =>
    unfold split_key at h
    rw [hl] at h
    cases h
  | n + 1 =>
    rw [split_key_eq hl] at h
    match hfs : split_key.findSlashBefore k n with
    | none => rw [hfs] at h; cases h
    | some i =>
      rw [hfs] at h
      cases h
      obtain ⟨hget, hmem⟩ := findSlashBefore_some_spec hfs
      obtain ⟨hin, hilen⟩ := findSlashBefore_lt hfs
      have htake : k.take (i + 1) = k.take i ++ [slash] := by
        have hget' : k[i]? = some slash := by rwa [← List.get?_eq_getElem?]
        rw [List.take_succ, hget']
        rfl
      refine ⟨(List.take_append_drop (i + 1) k).symm, ?_, ?_⟩
      · refine ⟨?_, ?_, ?_⟩
        · rw [htake]
          simp
        · rw [htake]
          simp
        · rw [htake, List.dropLast_concat]
          exact hmem
      · simp only [ne_eq, List.drop_eq_nil_iff]
        push_neg
        omega

/-! ## Structure of `flat`: sections, bounds, and membership -/

/-- Sorted association-list insert on the pure view, replacing an equal key. -/
def flatInsert (k : Key) (v : T) : List (Key × T) → List (Key × T)
  | [] => [(k, v)]
  | (k', v') :: rest =>
    if k < k' then (k, v) :: (k', v') :: rest
    else if k = k' then (k, v) :: rest
    else (k', v') :: flatInsert k v rest

/-- Removal of a key's binding on the pure view. -/
def flatErase (k : Key) : List (Key × T) → List (Key × T)
  | [] => []
  | (k', v') :: rest => if k = k' then rest else (k', v') :: flatErase k rest

/-- The slice of `flat` contributed by one entry. -/
def sectionFlat (k : Key) : NodeEntry T → List (Key × T)
  | .File t => [(k, t)]
  | .Directory nd => nd.flat.map fun q => (k ++ q.1, q.2)

theorem flat_cons (k : Key) (e : NodeEntry T) (rest : EntryList T) :
    (EntryList.cons k e rest).flat = sectionFlat k e ++ rest.flat := by
  cases e <;> rfl

theorem EntryList.Wf_inv {k : Key} {e : NodeEntry T} {rest : EntryList T}
    (h : (EntryList.cons k e rest).Wf) :
    fileComponent k ∧ ltHeadKey k rest ∧ rest.Wf := by
  cases e with
  | File t => exact ⟨h.1, h.2.1, h.2.2⟩
  | Directory nd => exact ⟨h.1.toFile, h.2.1, h.2.2.2⟩

theorem EntryList.Wf_dir_inv {k : Key} {nd : Node T} {rest : EntryList T}
    (h : (EntryList.cons k (.Directory nd) rest).Wf) :
    dirComponent k ∧ nd.Wf := ⟨h.1, h.2.2.1⟩

theorem lookup_some_mem_keys : ∀ {es : EntryList T} {k : Key} {e : NodeEntry T},
    es.lookup k = some e → k ∈ es.keys
  | .nil, k, e, h => by simp [EntryList.lookup] at h
  | .cons k' e' rest, k, e, h => by
    simp only [EntryList.lookup] at h
    split at h
    · simp_all [EntryList.keys]
    · simp [EntryList.keys, lookup_some_mem_keys h]

theorem lookup_none_not_mem_keys : ∀ {es : EntryList T} {k : Key},
    es.lookup k = none → k ∉ es.keys
  | .nil, k, _ => by simp [EntryList.keys]
  | .cons k' e' rest, k, h => by
    simp only [EntryList.lookup] at h
    split at h
    · cases h
    · rename_i hne
      simp only [EntryList.keys, List.mem_cons, not_or]
      exact ⟨hne, lookup_none_not_mem_keys h⟩

theorem EntryList.keys_components : ∀ {es : EntryList T}, es.Wf →
    ∀ k ∈ es.keys, fileComponent k
  | .nil, _ => by simp [EntryList.keys]
  | .cons k' e' rest, h => by
    intro k hk
    obtain ⟨hc, _, hrest⟩ := EntryList.Wf_inv h
    simp only [EntryList.keys, List.mem_cons] at hk
    cases hk with
    | inl hh => exact hh ▸ hc
    | inr hh => exact EntryList.keys_components hrest k hh

theorem ltHeadKey_all : ∀ {es : EntryList T}, es.Wf → ∀ {k : Key}, ltHeadKey k es →
    ∀ k' ∈ es.keys, k < k'
  | .nil, _, k, _ => by simp [EntryList.keys]
  | .cons k2 e rest, hwf, k, h => by
    intro k' hk'
    obtain ⟨_, hlt2, hrest⟩ := EntryList.Wf_inv hwf
    have hk2 : k < k2 := h
    simp only [EntryList.keys, List.mem_cons] at hk'
    cases hk' with
    | inl hh => exact hh ▸ hk2
    | inr hh => exact lt_trans hk2 (ltHeadKey_all hrest hlt2 k' hh)

/-- Every flat key extends some top-level key of the list. -/
theorem EntryList.flat_shape : ∀ {es : EntryList T},
    ∀ q ∈ es.flat, ∃ k s, k ∈ es.keys ∧ q.1 = k ++ s
  | .nil => by simp [EntryList.flat]
  | .cons k' e rest => by
    intro q hq
    rw [flat_cons] at hq
    rcases List.mem_append.mp hq with hsec | hrest
    · cases e with
      | File t =>
        simp only [sectionFlat, List.mem_singleton] at hsec
        exact ⟨k', [], by simp [EntryList.keys], by simp [hsec]⟩
      | Directory nd =>
        simp only [sectionFlat, List.mem_map] at hsec
        obtain ⟨p, _, hpq⟩ := hsec
        exact ⟨k', p.1, by simp [EntryList.keys], by rw [← hpq]⟩
    · obtain ⟨k, s, hk, hs⟩ := EntryList.flat_shape q hrest
      exact ⟨k, s, by simp [EntryList.keys, hk], hs⟩

/-- A bound key strictly below every top-level key is, suitably extended,
strictly below every flat key. -/
theorem flat_lt_bound {es : EntryList T} (hwf : es.Wf) {b : Key}
    (hlt : ∀ k ∈ es.keys, b < k) {s : List Nat} (hs : s = [] ∨ dirComponent b) :
    ∀ q ∈ es.flat, b ++ s < q.1 := by
  intro q hq
  obtain ⟨k, s', hk, heq⟩ := EntryList.flat_shape q hq
  rw [heq]
  exact comp_append_lt (hlt k hk) (EntryList.keys_components hwf k hk) s s' hs

theorem keyPre_of_append_eq {a b x y : List Nat} (h : a ++ x = b ++ y)
    (hl : a.length ≤ b.length) : keyPre a b := by
  refine ⟨b.drop a.length, ?_⟩
  have ha : (a ++ x).take a.length = a := List.take_left' rfl
  have hb : (b ++ y).take a.length = b.take a.length := List.take_append_of_le_length hl
  have hab : a = b.take a.length := by
    calc a = (a ++ x).take a.length := ha.symm
      _ = (b ++ y).take a.length := by rw [h]
      _ = b.take a.length := hb
  have hc := congrArg (fun l => l ++ b.drop a.length) hab
  simp only at hc
  rw [hc, List.take_append_drop]

/-- Two differently-named sibling sections never produce the same full key
(the slash at the end of a directory component pins the split point). -/
theorem section_key_ne {a b : Key} (ha : dirComponent a) (hb : fileComponent b)
    (hne : a ≠ b) {x y : List Nat} (hy : y = [] ∨ dirComponent b) :
    a ++ x ≠ b ++ y := by
  intro heq
  rcases Nat.lt_trichotomy a.length b.length with hl | hl | hl
  · exact dir_not_keyPre ha hb hne (keyPre_of_append_eq heq (le_of_lt hl))
  · have : a = b := by
      have ha' : (a ++ x).take a.length = a := List.take_left' rfl
      have hb' : (b ++ y).take a.length = b := by
        rw [hl]
        exact List.take_left' rfl
      rw [← ha', heq, hb']
    exact hne this
  · cases hy with
    | inl hy0 =>
      subst hy0
      have := congrArg List.length heq
      simp only [List.length_append, List.length_nil, Nat.add_zero] at this
      omega
    | inr hbd =>
      exact dir_not_keyPre hbd ha.toFile (Ne.symm hne)
        (keyPre_of_append_eq heq.symm (le_of_lt hl))

/-! ## `flatInsert` and `flatErase` over decomposed lists -/

theorem flatInsert_skip {l post : List (Key × T)} {K : Key} {v : T}
    (h : ∀ q ∈ l, q.1 < K) : flatInsert K v (l ++ post) = l ++ flatInsert K v post := by
  induction l with
  | nil => simp
  | cons q l ih =>
    have hq : q.1 < K := h q (by simp)
    have h1 : ¬ K < q.1 := lt_asymm hq
    have h2 : ¬ K = q.1 := fun he => absurd (he ▸ hq) (lt_irrefl K)
    simp only [List.cons_append, flatInsert, h1, if_false, h2, List.append_eq]
    rw [ih fun p hp => h p (by simp [hp])]

theorem flatInsert_front {post : List (Key × T)} {K : Key} {v : T}
    (h : ∀ q ∈ post, K < q.1) : flatInsert K v post = (K, v) :: post := by
  cases post with
  | nil => rfl
  | cons q rest =>
    have hq : K < q.1 := h q (by simp)
    simp [flatInsert, hq]

theorem flatErase_skip {l post : List (Key × T)} {K : Key}
    (h : ∀ q ∈ l, q.1 ≠ K) : flatErase K (l ++ post) = l ++ flatErase K post := by
  induction l with
  | nil => simp
  | cons q l ih =>
    have hq : ¬ K = q.1 := fun he => h q (by simp) he.symm
    simp only [List.cons_append, flatErase, hq, if_false, List.append_eq]
    rw [ih fun p hp => h p (by simp [hp])]

theorem flatErase_absent {post : List (Key × T)} {K : Key}
    (h : ∀ q ∈ post, q.1 ≠ K) : flatErase K post = post := by
  induction post with
  | nil => rfl
  | cons q rest ih =>
    have hq : ¬ K = q.1 := fun he => h q (by simp) he.symm
    simp only [flatErase, hq, if_false]
    rw [ih fun p hp => h p (by simp [hp])]

theorem flatInsert_map_section {e p : Key} {v : T} {l post : List (Key × T)}
    (hpost : ∀ q ∈ post, e ++ p < q.1) :
    flatInsert (e ++ p) v ((l.map fun q => (e ++ q.1, q.2)) ++ post) =
      ((flatInsert p v l).map fun q => (e ++ q.1, q.2)) ++ post := by
  induction l with
  | nil =>
    simp only [List.map_nil, List.nil_append, flatInsert, List.map_cons]
    exact flatInsert_front hpost
  | cons q l ih =>
    rcases lt_trichotomy p q.1 with hlt | heq | hgt
    · have h1 : e ++ p < e ++ q.1 := (key_append_lt_iff e p q.1).mpr hlt
      simp [flatInsert, h1, hlt]
    · have h1 : ¬ e ++ p < e ++ q.1 := by
        rw [key_append_lt_iff]
        exact heq ▸ lt_irrefl _
      have h2 : e ++ p = e ++ q.1 := by rw [heq]
      simp [flatInsert, h1, h2, heq, lt_irrefl]
    · have h3 : ¬ p < q.1 := lt_asymm hgt
      have h4 : ¬ p = q.1 := fun he => absurd (he ▸ hgt) (lt_irrefl _)
      have h1 : ¬ e ++ p < e ++ q.1 := by
        rw [key_append_lt_iff]
        exact h3
      have h2 : ¬ e ++ p = e ++ q.1 := fun he => h4 (List.append_cancel_left he)
      simp only [List.map_cons, List.cons_append, flatInsert, h1, if_false, h2, h3, h4,
        List.append_eq]
      rw [ih]

theorem flatErase_map_section {e p : Key} {l post : List (Key × T)}
    (hpost : ∀ q ∈ post, q.1 ≠ e ++ p) :
    flatErase (e ++ p) ((l.map fun q => (e ++ q.1, q.2)) ++ post) =
      ((flatErase p l).map fun q => (e ++ q.1, q.2)) ++ post := by
  induction l with
  | nil =>
    simp only [List.map_nil, List.nil_append]
    exact flatErase_absent hpost
  | cons q l ih =>
    by_cases heq : p = q.1
    · have h1 : e ++ p = e ++ q.1 := by rw [heq]
      simp [flatErase, h1, heq]
    · have h1 : ¬ e ++ p = e ++ q.1 := fun he => heq (List.append_cancel_left he)
      simp only [List.map_cons, List.cons_append, flatErase, h1, if_false, heq,
        List.append_eq]
      rw [ih]

/-! ## Well-formedness is preserved by map insert and remove -/

/-- What an inserted entry must satisfy for the map to stay well-formed. -/
def entryWf (k : Key) : NodeEntry T → Prop
  | .File _ => fileComponent k
  | .Directory nd => dirComponent k ∧ nd.Wf

theorem ltHeadKey_trans {kb k : Key} {es : EntryList T} (h1 : kb < k)
    (h2 : ltHeadKey k es) : ltHeadKey kb es := by
  cases es with
  | nil => trivial
  | cons k2 e rest => exact lt_trans h1 h2

theorem EntryList.insert_Wf : ∀ {es : EntryList T}, es.Wf → ∀ {k : Key} {e : NodeEntry T},
    entryWf k e → (es.insert k e).Wf ∧
      ∀ kb : Key, kb < k → ltHeadKey kb es → ltHeadKey kb (es.insert k e)
  | .nil, _, k, e, he => by
    refine ⟨?_, ?_⟩
    · cases e with
      | File t => exact ⟨he, trivial, trivial⟩
      | Directory nd => exact ⟨he.1, trivial, he.2, trivial⟩
    · intro kb hkb _
      cases e <;> exact hkb
  | .cons k' e' rest, hwf, k, e, he => by
    rcases lt_trichotomy k k' with h1 | h1 | h1
    · have heq : (EntryList.cons k' e' rest).insert k e =
          .cons k e (.cons k' e' rest) := by
        simp [EntryList.insert, h1]
      rw [heq]
      refine ⟨?_, ?_⟩
      · cases e with
        | File t => exact ⟨he, h1, hwf⟩
        | Directory nd => exact ⟨he.1, h1, he.2, hwf⟩
      · intro kb hkb _
        cases e <;> exact hkb
    · have hn : ¬ k < k' := by
        rw [h1]
        exact lt_irrefl k'
      have heq : (EntryList.cons k' e' rest).insert k e = .cons k e rest := by
        simp [EntryList.insert, hn, h1]
      rw [heq]
      obtain ⟨_, hlt', hrest⟩ := EntryList.Wf_inv hwf
      have hlt2 : ltHeadKey k rest := by
        rw [h1]
        exact hlt'
      refine ⟨?_, ?_⟩
      · cases e with
        | File t => exact ⟨he, hlt2, hrest⟩
        | Directory nd => exact ⟨he.1, hlt2, he.2, hrest⟩
      · intro kb hkb _
        cases e <;> exact hkb
    · have hn1 : ¬ k < k' := lt_asymm h1
      have hn2 : ¬ k = k' := fun hh => absurd (hh ▸ h1) (lt_irrefl _)
      have heq : (EntryList.cons k' e' rest).insert k e =
          .cons k' e' (rest.insert k e) := by
        simp [EntryList.insert, hn1, hn2]
      rw [heq]
      obtain ⟨hc', hlt', hrest⟩ := EntryList.Wf_inv hwf
      obtain ⟨hwf2, hbound⟩ := EntryList.insert_Wf hrest he
      have hhead : ltHeadKey k' (rest.insert k e) := hbound k' h1 hlt'
      refine ⟨?_, ?_⟩
      · cases e' with
        | File t => exact ⟨hc', hhead, hwf2⟩
        | Directory nd =>
          obtain ⟨hd, hndwf⟩ := EntryList.Wf_dir_inv hwf
          exact ⟨hd, hhead, hndwf, hwf2⟩
      · intro kb _ hl
        exact hl

theorem EntryList.remove_Wf : ∀ {es : EntryList T}, es.Wf → ∀ k : Key,
    (es.remove k).Wf ∧ ∀ kb : Key, ltHeadKey kb es → ltHeadKey kb (es.remove k)
  | .nil, _, k => ⟨trivial, fun kb h => h⟩
  | .cons k' e' rest, hwf, k => by
    obtain ⟨hc', hlt', hrest⟩ := EntryList.Wf_inv hwf
    by_cases h1 : k = k'
    · have heq : (EntryList.cons k' e' rest).remove k = rest := by
        simp [EntryList.remove, h1]
      rw [heq]
      exact ⟨hrest, fun kb h => ltHeadKey_trans h hlt'⟩
    · have heq : (EntryList.cons k' e' rest).remove k =
          .cons k' e' (rest.remove k) := by
        simp [EntryList.remove, h1]
      rw [heq]
      obtain ⟨hwf2, hbound⟩ := EntryList.remove_Wf hrest k
      have hhead : ltHeadKey k' (rest.remove k) := hbound k' hlt'
      refine ⟨?_, fun kb h => h⟩
      cases e' with
      | File t => exact ⟨hc', hhead, hwf2⟩
      | Directory nd =>
        obtain ⟨hd, hndwf⟩ := EntryList.Wf_dir_inv hwf
        exact ⟨hd, hhead, hndwf, hwf2⟩

/-! ## Decomposition of `flat` around a looked-up or missing key -/

theorem decomp_lookup_some : ∀ {es : EntryList T}, es.Wf →
    ∀ {elem : Key} {ent : NodeEntry T}, es.lookup elem = some ent →
    ∃ pre post : List (Key × T),
      es.flat = pre ++ sectionFlat elem ent ++ post ∧
      (∀ e' : NodeEntry T, (es.insert elem e').flat = pre ++ sectionFlat elem e' ++ post) ∧
      (es.remove elem).flat = pre ++ post ∧
      (∀ q ∈ pre, ∀ s : List Nat, q.1 < elem ++ s) ∧
      (∀ q ∈ post, ∀ s : List Nat, s = [] ∨ dirComponent elem → elem ++ s < q.1)
  | .nil, _, elem, ent, h => by simp [EntryList.lookup] at h
  | .cons k' e' rest, hwf, elem, ent, h => by
    obtain ⟨hc', hlt', hrest⟩ := EntryList.Wf_inv hwf
    simp only [EntryList.lookup] at h
    split at h
    · rename_i heqk
      cases h
      subst heqk
      refine ⟨[], rest.flat, by simp [flat_cons], ?_, ?_, by simp, ?_⟩
      · intro e''
        have heq : (EntryList.cons elem e' rest).insert elem e'' =
            .cons elem e'' rest := by
          simp [EntryList.insert, lt_irrefl]
        rw [heq, flat_cons]
        simp
      · have heq : (EntryList.cons elem e' rest).remove elem = rest := by
          simp [EntryList.remove]
        rw [heq]
        simp
      · intro q hq s hs
        exact flat_lt_bound hrest (ltHeadKey_all hrest hlt') hs q hq
    · rename_i hne
      obtain ⟨pre', post', hflat, hins, hrem, hpre, hpost⟩ := decomp_lookup_some hrest h
      have hkelem : k' < elem :=
        ltHeadKey_all hrest hlt' elem (lookup_some_mem_keys h)
      refine ⟨sectionFlat k' e' ++ pre', post', ?_, ?_, ?_, ?_, hpost⟩
      · rw [flat_cons, hflat]
        simp [List.append_assoc]
      · intro e''
        have hn1 : ¬ elem < k' := lt_asymm hkelem
        have heq : (EntryList.cons k' e' rest).insert elem e'' =
            .cons k' e' (rest.insert elem e'') := by
          simp [EntryList.insert, hn1, hne]
        rw [heq, flat_cons, hins e'']
        simp [List.append_assoc]
      · have heq : (EntryList.cons k' e' rest).remove elem =
            .cons k' e' (rest.remove elem) := by
          simp [EntryList.remove, hne]
        rw [heq, flat_cons, hrem]
        simp [List.append_assoc]
      · intro q hq s
        rcases List.mem_append.mp hq with hsec | hq'
        · cases e' with
          | File t =>
            simp only [sectionFlat, List.mem_singleton] at hsec
            have := comp_append_lt hkelem
              (EntryList.keys_components hrest elem (lookup_some_mem_keys h))
              [] s (Or.inl rfl)
            rw [hsec]
            simpa using this
          | Directory nd =>
            simp only [sectionFlat, List.mem_map] at hsec
            obtain ⟨p, _, hpq⟩ := hsec
            rw [← hpq]
            exact comp_append_lt hkelem
              (EntryList.keys_components hrest elem (lookup_some_mem_keys h))
              p.1 s (Or.inr (EntryList.Wf_dir_inv hwf).1)
        · exact hpre q hq' s

theorem decomp_lookup_none : ∀ {es : EntryList T}, es.Wf → ∀ {elem : Key},
    fileComponent elem → es.lookup elem = none →
    ∃ pre post : List (Key × T),
      es.flat = pre ++ post ∧
      (∀ e' : NodeEntry T, (es.insert elem e').flat = pre ++ sectionFlat elem e' ++ post) ∧
      (∀ q ∈ pre, ∀ s : List Nat, q.1 < elem ++ s) ∧
      (∀ q ∈ post, ∀ s : List Nat, s = [] ∨ dirComponent elem → elem ++ s < q.1)
  | .nil, _, elem, _, _ => by
    refine ⟨[], [], by simp [EntryList.flat], ?_, by simp, by simp⟩
    intro e'
    show (EntryList.cons elem e' .nil).flat = [] ++ sectionFlat elem e' ++ []
    rw [flat_cons]
    simp [EntryList.flat]
  | .cons k' e' rest, hwf, elem, hfe, h => by
    obtain ⟨hc', hlt', hrest⟩ := EntryList.Wf_inv hwf
    simp only [EntryList.lookup] at h
    split at h
    · cases h
    · rename_i hne
      rcases lt_trichotomy elem k' with h1 | h1 | h1
      · refine ⟨[], (EntryList.cons k' e' rest).flat, by simp, ?_, by simp, ?_⟩
        · intro e''
          have heq : (EntryList.cons k' e' rest).insert elem e'' =
              .cons elem e'' (.cons k' e' rest) := by
            simp [EntryList.insert, h1]
          rw [heq, flat_cons]
          simp
        · intro q hq s hs
          have hlt : ∀ k ∈ (EntryList.cons k' e' rest).keys, elem < k := by
            intro k hk
            simp only [EntryList.keys, List.mem_cons] at hk
            cases hk with
            | inl hh => exact hh ▸ h1
            | inr hh => exact lt_trans h1 (ltHeadKey_all hrest hlt' k hh)
          exact flat_lt_bound hwf hlt hs q hq
      · exact absurd h1 hne
      · obtain ⟨pre', post', hflat, hins, hpre, hpost⟩ := decomp_lookup_none hrest hfe h
        refine ⟨sectionFlat k' e' ++ pre', post', ?_, ?_, ?_, hpost⟩
        · rw [flat_cons, hflat]
          simp [List.append_assoc]
        · intro e''
          have hn1 : ¬ elem < k' := lt_asymm h1
          have heq : (EntryList.cons k' e' rest).insert elem e'' =
              .cons k' e' (rest.insert elem e'') := by
            simp [EntryList.insert, hn1, hne]
          rw [heq, flat_cons, hins e'']
          simp [List.append_assoc]
        · intro q hq s
          rcases List.mem_append.mp hq with hsec | hq'
          · cases e' with
            | File t =>
              simp only [sectionFlat, List.mem_singleton] at hsec
              have := comp_append_lt h1 hfe [] s (Or.inl rfl)
              rw [hsec]
              simpa using this
            | Directory nd =>
              simp only [sectionFlat, List.mem_map] at hsec
              obtain ⟨p, _, hpq⟩ := hsec
              rw [← hpq]
              exact comp_append_lt h1 hfe p.1 s (Or.inr (EntryList.Wf_dir_inv hwf).1)
          · exact hpre q hq' s

theorem lookup_entryWf : ∀ {es : EntryList T}, es.Wf → ∀ {k : Key} {e : NodeEntry T},
    es.lookup k = some e → entryWf k e
  | .nil, _, k, e, h => by simp [EntryList.lookup] at h
  | .cons k' e' rest, hwf, k, e, h => by
    simp only [EntryList.lookup] at h
    split at h
    · rename_i heq
      cases h
      subst heq
      cases e' with
      | File t => exact hwf.1
      | Directory nd => exact ⟨hwf.1, hwf.2.2.1⟩
    · exact lookup_entryWf (EntryList.Wf_inv hwf).2.2 h

theorem node_flat_mk (i : Option Nat) (es : EntryList T) :
    (Node.mk i (some es)).flat = es.flat := rfl

/-- The canonical `Node.Wf` destructor: a well-formed node is loaded. -/
theorem Node.Wf_shape : ∀ {n : Node T}, n.Wf →
    ∃ i es, n = .mk i (some es) ∧ EntryList.Wf es
  | .mk i none, h => absurd h (by simp [Node.Wf])
  | .mk i (some es), h => ⟨i, es, rfl, h⟩

/-- The functional specification of `Node::add` on well-formed in-memory
trees: the result is well-formed and dirty, its files are the old files with
`name` bound to `info` (a sorted insert-or-replace on the pure view), and the
returned flag is true exactly when `name` was not already a file. -/
theorem Node.add_spec (st : Storable T) : ∀ (fuel : Nat) {s : Store} {n : Node T}
    {name : Key} {info : T} {n' : Node T} {added : Bool},
    Node.add st fuel s n name info = .ok (n', added) → n.Wf →
    n'.Wf ∧ n'.flat = flatInsert name info n.flat ∧
    (added = true ↔ ∀ v : T, (name, v) ∉ n.flat) ∧ n'.id = none
  | 0, s, n, name, info, n', added => by
    intro h _
    simp [Node.add] at h
  | fuel + 1, s, n, name, info, n', added => by
    intro h hwf
    obtain ⟨i, es, rfl, hes⟩ := Node.Wf_shape hwf
    simp only [Node.add, Node.load] at h
    simp only [node_flat_mk]
    match hsp : split_key name with
    | none => simp [hsp] at h
    | some (elem, some path) =>
      simp only [hsp] at h
      obtain ⟨hname, helem, hpath⟩ := split_key_some_spec hsp
      match hlk : es.lookup elem with
      | some (.Directory nd) =>
        simp only [hlk] at h
        match hrec : Node.add st fuel s nd path info with
        | .ok (nd', fileAdded) =>
          simp only [hrec] at h
          cases h
          have hndwf : nd.Wf := (lookup_entryWf hes hlk).2
          obtain ⟨hwf', hflat', hiff', _⟩ := Node.add_spec st fuel hrec hndwf
          obtain ⟨pre, post, hdecf, hdeci, _, hpre, hpost⟩ := decomp_lookup_some hes hlk
          refine ⟨?_, ?_, ?_, rfl⟩
          · exact (EntryList.insert_Wf hes (e := .Directory nd') ⟨helem, hwf'⟩).1
          · show (es.insert elem (.Directory nd')).flat = flatInsert name info es.flat
            rw [hdeci, hdecf, hname]
            simp only [sectionFlat, List.append_assoc]
            rw [flatInsert_skip (fun q hq => hpre q hq path),
              flatInsert_map_section (fun q hq => hpost q hq path (Or.inr helem)), hflat']
          · rw [hiff']
            constructor
            · intro hall v hv
              rw [hdecf, hname] at hv
              rcases List.mem_append.mp hv with hv | hv
              · rcases List.mem_append.mp hv with hv | hv
                · exact absurd rfl (ne_of_lt (hpre _ hv path))
                · simp only [sectionFlat, List.mem_map] at hv
                  obtain ⟨q, hq, hqe⟩ := hv
                  have hq1 : q.1 = path := by
                    have := congrArg Prod.fst hqe
                    exact List.append_cancel_left this
                  have hq2 : q.2 = v := congrArg Prod.snd hqe
                  refine hall v ?_
                  rw [← hq1, ← hq2]
                  simpa using hq
              · exact absurd rfl (ne_of_gt (hpost _ hv path (Or.inr helem)))
            · intro hall v hv
              refine hall v ?_
              rw [hdecf, hname]
              refine List.mem_append.mpr (Or.inl (List.mem_append.mpr (Or.inr ?_)))
              simp only [sectionFlat, List.mem_map]
              exact ⟨(path, v), hv, rfl⟩
        | .err e => simp [hrec] at h
        | .panic => simp [hrec] at h
        | .fuelOut => simp [hrec] at h
      | some (.File t) => simp [hlk] at h
      | none =>
        simp only [hlk] at h
        match hrec : Node.add st fuel s Node.new path info with
        | .ok (nd', fileAdded) =>
          simp only [hrec] at h
          cases h
          have hnewwf : (Node.new : Node T).Wf := by
            simp [Node.new, Node.Wf, EntryList.Wf]
          obtain ⟨hwf', hflat', hiff', _⟩ := Node.add_spec st fuel hrec hnewwf
          have hnewflat : (Node.new : Node T).flat = [] := rfl
          rw [hnewflat] at hflat'
          have hflatn : nd'.flat = [(path, info)] := by
            rw [hflat']
            rfl
          have hadded : added = true := by
            rw [hiff']
            intro v hv
            rw [hnewflat] at hv
            simp at hv
          obtain ⟨pre, post, hdecf, hdeci, hpre, hpost⟩ := decomp_lookup_none hes helem.toFile hlk
          refine ⟨?_, ?_, ?_, rfl⟩
          · exact (EntryList.insert_Wf hes (e := .Directory nd') ⟨helem, hwf'⟩).1
          · show (es.insert elem (.Directory nd')).flat = flatInsert name info es.flat
            rw [hdeci, hdecf, hname, flatInsert_skip (fun q hq => hpre q hq path),
              flatInsert_front (fun q hq => hpost q hq path (Or.inr helem))]
            simp [sectionFlat, hflatn]
          · rw [hadded]
            simp only [true_iff]
            intro v hv
            rw [hdecf, hname] at hv
            rcases List.mem_append.mp hv with hv | hv
            · exact absurd rfl (ne_of_lt (hpre _ hv path))
            · exact absurd rfl (ne_of_gt (hpost _ hv path (Or.inr helem)))
        | .err e => simp [hrec] at h
        | .panic => simp [hrec] at h
        | .fuelOut => simp [hrec] at h
    | some (elem, none) =>
      simp only [hsp] at h
      obtain ⟨rfl, hfc⟩ := split_key_none_spec hsp
      match hlk : es.lookup elem with
      | some (.Directory nd) => simp [hlk] at h
      | some (.File t) =>
        simp only [hlk] at h
        cases h
        obtain ⟨pre, post, hdecf, hdeci, _, hpre, hpost⟩ := decomp_lookup_some hes hlk
        refine ⟨?_, ?_, ?_, rfl⟩
        · exact (EntryList.insert_Wf hes (e := .File info) hfc).1
        · show (es.insert elem (.File info)).flat = flatInsert elem info es.flat
          rw [hdeci, hdecf]
          simp only [sectionFlat, List.append_assoc]
          rw [flatInsert_skip (fun q hq => by simpa using hpre q hq [])]
          simp [flatInsert]
        · simp only [Bool.false_eq_true, false_iff, not_forall, not_not]
          refine ⟨t, ?_⟩
          rw [hdecf]
          refine List.mem_append.mpr (Or.inl (List.mem_append.mpr (Or.inr ?_)))
          simp [sectionFlat]
      | none =>
        simp only [hlk] at h
        cases h
        obtain ⟨pre, post, hdecf, hdeci, hpre, hpost⟩ := decomp_lookup_none hes hfc hlk
        refine ⟨?_, ?_, ?_, rfl⟩
        · exact (EntryList.insert_Wf hes (e := .File info) hfc).1
        · show (es.insert elem (.File info)).flat = flatInsert elem info es.flat
          rw [hdeci, hdecf, flatInsert_skip (fun q hq => by simpa using hpre q hq []),
            flatInsert_front (fun q hq => by simpa using hpost q hq [] (Or.inl rfl))]
          simp [sectionFlat]
        · simp only [true_iff]
          intro v hv
          rw [hdecf] at hv
          rcases List.mem_append.mp hv with hv | hv
          · have hcontra := hpre _ hv []
            simp only [List.append_nil] at hcontra
            exact absurd hcontra (lt_irrefl _)
          · have hcontra := hpost _ hv [] (Or.inl rfl)
            simp only [List.append_nil] at hcontra
            exact absurd hcontra (lt_irrefl _)

theorem Node.flat_key_ne_nil {n : Node T} (h : n.Wf) : ∀ q ∈ n.flat, q.1 ≠ [] := by
  obtain ⟨i, es, rfl, hes⟩ := Node.Wf_shape h
  intro q hq
  obtain ⟨k, s, hk, hshape⟩ := EntryList.flat_shape q (by simpa [node_flat_mk] using hq)
  rw [hshape]
  have hc := EntryList.keys_components hes k hk
  intro hnil
  simp only [List.append_eq_nil] at hnil
  exact hc.1 hnil.1

/-- The functional specification of `Node::remove` on well-formed in-memory
trees: the result is well-formed, its files are the old files with `name`'s
binding dropped, the first flag is true exactly when `name` was a file, the
second flag reports post-mutation emptiness of this node's map, and a removal
clears the node's id. -/
theorem Node.remove_spec (st : Storable T) : ∀ (fuel : Nat) {s : Store} {n : Node T}
    {name : Key} {fr ne : Bool} {n' : Node T},
    Node.remove st fuel s n name = .ok ((fr, ne), n') → n.Wf →
    n'.Wf ∧ n'.flat = flatErase name n.flat ∧
    (fr = true ↔ ∃ v : T, (name, v) ∈ n.flat) ∧
    (∃ es', n'.entries = some es' ∧ ne = es'.isEmpty) ∧
    (fr = true → n'.id = none)
  | 0, s, n, name, fr, ne, n' => by
    intro h _
    simp [Node.remove] at h
  | fuel + 1, s, n, name, fr, ne, n' => by
    intro h hwf
    obtain ⟨i, es, rfl, hes⟩ := Node.Wf_shape hwf
    simp only [Node.remove, Node.load] at h
    simp only [node_flat_mk]
    match hsp : split_key name with
    | none => simp [hsp] at h
    | some (elem, some path) =>
      simp only [hsp] at h
      obtain ⟨hname, helem, hpath⟩ := split_key_some_spec hsp
      match hlk : es.lookup elem with
      | some (.Directory nd) =>
        simp only [hlk] at h
        match hrec : Node.remove st fuel s nd path with
        | .ok ((fr0, ne0), nd') =>
          simp only [hrec] at h
          cases h
          have hndwf : nd.Wf := (lookup_entryWf hes hlk).2
          obtain ⟨hwf', hflat', hiff', hne', hid'⟩ := Node.remove_spec st fuel hrec hndwf
          obtain ⟨pre, post, hdecf, hdeci, hdecr, hpre, hpost⟩ := decomp_lookup_some hes hlk
          have hmemiff : (∃ v : T, (name, v) ∈ es.flat) ↔ ∃ v : T, (path, v) ∈ nd.flat := by
            constructor
            · rintro ⟨v, hv⟩
              rw [hdecf, hname] at hv
              rcases List.mem_append.mp hv with hv | hv
              · rcases List.mem_append.mp hv with hv | hv
                · exact absurd rfl (ne_of_lt (hpre _ hv path))
                · simp only [sectionFlat, List.mem_map] at hv
                  obtain ⟨q, hq, hqe⟩ := hv
                  have hq1 : q.1 = path := by
                    have := congrArg Prod.fst hqe
                    exact List.append_cancel_left this
                  have hq2 : q.2 = v := congrArg Prod.snd hqe
                  refine ⟨v, ?_⟩
                  rw [← hq1, ← hq2]
                  simpa using hq
              · exact absurd rfl (ne_of_gt (hpost _ hv path (Or.inr helem)))
            · rintro ⟨v, hv⟩
              refine ⟨v, ?_⟩
              rw [hdecf, hname]
              refine List.mem_append.mpr (Or.inl (List.mem_append.mpr (Or.inr ?_)))
              simp only [sectionFlat, List.mem_map]
              exact ⟨(path, v), hv, rfl⟩
          by_cases hne0 : ne0 = true
          · subst hne0
            obtain ⟨es0, hes0, hes0e⟩ := hne'
            have hes0nil : es0 = .nil := by
              cases es0 with
              | nil => rfl
              | cons a b c => simp [EntryList.isEmpty] at hes0e
            subst hes0nil
            have hflat0 : nd'.flat = [] := by
              match nd', hes0 with
              | .mk i0 es00, hes0 =>
                simp only [Node.entries] at hes0
                subst hes0
                rfl
            refine ⟨?_, ?_, ?_, ?_, ?_⟩
            · simpa using (EntryList.remove_Wf hes elem).1
            · show (es.remove elem).flat = flatErase name es.flat
              rw [hdecr, hdecf, hname]
              simp only [sectionFlat, List.append_assoc]
              rw [flatErase_skip (fun q hq => ne_of_lt (hpre q hq path)),
                flatErase_map_section
                  (fun q hq => ne_of_gt (hpost q hq path (Or.inr helem)))]
              rw [← hflat', hflat0]
              simp
            · rw [hiff']
              exact hmemiff.symm
            · exact ⟨es.remove elem, rfl, rfl⟩
            · intro _
              simp [Node.id]
          · have hne0f : ne0 = false := by
              cases ne0
              · rfl
              · exact absurd rfl hne0
            subst hne0f
            simp only [Bool.false_eq_true, false_or]
            refine ⟨?_, ?_, ?_, ?_, ?_⟩
            · exact (EntryList.insert_Wf hes (e := .Directory nd') ⟨helem, hwf'⟩).1
            · show (es.insert elem (.Directory nd')).flat = flatErase name es.flat
              rw [hdeci, hdecf, hname]
              simp only [sectionFlat, List.append_assoc]
              rw [flatErase_skip (fun q hq => ne_of_lt (hpre q hq path)),
                flatErase_map_section
                  (fun q hq => ne_of_gt (hpost q hq path (Or.inr helem))), hflat']
            · rw [hiff']
              exact hmemiff.symm
            · exact ⟨es.insert elem (.Directory nd'), rfl, rfl⟩
            · intro hfr
              subst hfr
              simp [Node.id]
        | .err e => simp [hrec] at h
        | .panic => simp [hrec] at h
        | .fuelOut => simp [hrec] at h
      | some (.File t) =>
        simp only [hlk] at h
        cases h
        obtain ⟨pre, post, hdecf, _, _, hpre, hpost⟩ := decomp_lookup_some hes hlk
        refine ⟨hes, ?_, ?_, ⟨es, rfl, rfl⟩, by simp⟩
        · show es.flat = flatErase name es.flat
          rw [hdecf, hname, flatErase_absent]
          intro q hq
          rcases List.mem_append.mp hq with hq | hq
          · rcases List.mem_append.mp hq with hq | hq
            · exact ne_of_lt (hpre _ hq path)
            · simp only [sectionFlat, List.mem_singleton] at hq
              rw [hq]
              intro hcontra
              have := congrArg List.length hcontra
              simp only [List.length_append] at this
              have : path.length = 0 := by omega
              exact hpath (List.length_eq_zero.mp this)
          · exact ne_of_gt (hpost _ hq path (Or.inr helem))
        · simp only [Bool.false_eq_true, false_iff, not_exists]
          intro v hv
          rw [hdecf, hname] at hv
          rcases List.mem_append.mp hv with hv | hv
          · rcases List.mem_append.mp hv with hv | hv
            · exact absurd rfl (ne_of_lt (hpre _ hv path))
            · simp only [sectionFlat, List.mem_singleton] at hv
              have := congrArg (List.length ∘ Prod.fst) hv
              simp only [Function.comp, List.length_append] at this
              have : path.length = 0 := by omega
              exact hpath (List.length_eq_zero.mp this)
          · exact absurd rfl (ne_of_gt (hpost _ hv path (Or.inr helem)))
      | none =>
        simp only [hlk] at h
        cases h
        obtain ⟨pre, post, hdecf, _, hpre, hpost⟩ := decomp_lookup_none hes helem.toFile hlk
        refine ⟨hes, ?_, ?_, ⟨es, rfl, rfl⟩, by simp⟩
        · show es.flat = flatErase name es.flat
          rw [hdecf, hname, flatErase_absent]
          intro q hq
          rcases List.mem_append.mp hq with hq | hq
          · exact ne_of_lt (hpre _ hq path)
          · exact ne_of_gt (hpost _ hq path (Or.inr helem))
        · simp only [Bool.false_eq_true, false_iff, not_exists]
          intro v hv
          rw [hdecf, hname] at hv
          rcases List.mem_append.mp hv with hv | hv
          · exact absurd rfl (ne_of_lt (hpre _ hv path))
          · exact absurd rfl (ne_of_gt (hpost _ hv path (Or.inr helem)))
    | some (elem, none) =>
      simp only [hsp] at h
      obtain ⟨rfl, hfc⟩ := split_key_none_spec hsp
      match hlk : es.lookup elem with
      | some (.Directory nd) =>
        simp only [hlk] at h
        cases h
        have hndwf : nd.Wf := (lookup_entryWf hes hlk).2
        obtain ⟨pre, post, hdecf, _, _, hpre, hpost⟩ := decomp_lookup_some hes hlk
        have hsecne : ∀ q ∈ sectionFlat elem (NodeEntry.Directory nd), q.1 ≠ elem := by
          intro q hq
          simp only [sectionFlat, List.mem_map] at hq
          obtain ⟨p, hp, hpq⟩ := hq
          rw [← hpq]
          intro hcontra
          have hlen := congrArg List.length hcontra
          simp only [List.length_append] at hlen
          exact Node.flat_key_ne_nil hndwf p hp (List.length_eq_zero.mp (by omega))
        refine ⟨hes, ?_, ?_, ⟨es, rfl, rfl⟩, by simp⟩
        · show es.flat = flatErase elem es.flat
          rw [hdecf, flatErase_absent]
          intro q hq
          rcases List.mem_append.mp hq with hq | hq
          · rcases List.mem_append.mp hq with hq | hq
            · have hcontra := hpre _ hq []
              simp only [List.append_nil] at hcontra
              exact ne_of_lt hcontra
            · exact hsecne q hq
          · have hcontra := hpost _ hq [] (Or.inl rfl)
            simp only [List.append_nil] at hcontra
            exact ne_of_gt hcontra
        · simp only [Bool.false_eq_true, false_iff, not_exists]
          intro v hv
          rw [hdecf] at hv
          rcases List.mem_append.mp hv with hv | hv
          · rcases List.mem_append.mp hv with hv | hv
            · have hcontra := hpre _ hv []
              simp only [List.append_nil] at hcontra
              exact absurd hcontra (lt_irrefl _)
            · exact hsecne _ hv rfl
          · have hcontra := hpost _ hv [] (Or.inl rfl)
            simp only [List.append_nil] at hcontra
            exact absurd hcontra (lt_irrefl _)
      | some (.File t) =>
        simp only [hlk] at h
        cases h
        obtain ⟨pre, post, hdecf, _, hdecr, hpre, hpost⟩ := decomp_lookup_some hes hlk
        refine ⟨?_, ?_, ?_, ⟨es.remove elem, rfl, rfl⟩, fun _ => rfl⟩
        · simpa using (EntryList.remove_Wf hes elem).1
        · show (es.remove elem).flat = flatErase elem es.flat
          rw [hdecr, hdecf]
          simp only [sectionFlat, List.append_assoc]
          rw [flatErase_skip (fun q hq => by
            have hcontra := hpre q hq []
            simp only [List.append_nil] at hcontra
            exact ne_of_lt hcontra)]
          simp [flatErase]
        · simp only [true_iff]
          refine ⟨t, ?_⟩
          rw [hdecf]
          refine List.mem_append.mpr (Or.inl (List.mem_append.mpr (Or.inr ?_)))
          simp [sectionFlat]
      | none =>
        simp only [hlk] at h
        cases h
        obtain ⟨pre, post, hdecf, _, hpre, hpost⟩ := decomp_lookup_none hes hfc hlk
        refine ⟨hes, ?_, ?_, ⟨es, rfl, rfl⟩, by simp⟩
        · show es.flat = flatErase elem es.flat
          rw [hdecf, flatErase_absent]
          intro q hq
          rcases List.mem_append.mp hq with hq | hq
          · have hcontra := hpre _ hq []
            simp only [List.append_nil] at hcontra
            exact ne_of_lt hcontra
          · have hcontra := hpost _ hq [] (Or.inl rfl)
            simp only [List.append_nil] at hcontra
            exact ne_of_gt hcontra
        · simp only [Bool.false_eq_true, false_iff, not_exists]
          intro v hv
          rw [hdecf] at hv
          rcases List.mem_append.mp hv with hv | hv
          · have hcontra := hpre _ hv []
            simp only [List.append_nil] at hcontra
            exact absurd hcontra (lt_irrefl _)
          · have hcontra := hpost _ hv [] (Or.inl rfl)
            simp only [List.append_nil] at hcontra
            exact absurd hcontra (lt_irrefl _)

/-! ## Sortedness of the pure view, and lengths under insert/erase -/

mutual
theorem Node.flat_pairwise : ∀ {n : Node T}, n.Wf →
    n.flat.Pairwise (fun p q => p.1 < q.1)
  | .mk i none, h => absurd h (by simp [Node.Wf])
  | .mk i (some es), h => EntryList.flat_sorted h

theorem EntryList.flat_sorted : ∀ {es : EntryList T}, es.Wf →
    es.flat.Pairwise (fun p q => p.1 < q.1)
  | .nil, _ => by simp [EntryList.flat]
  | .cons k e rest, hwf => by
    obtain ⟨hc, hlt, hrest⟩ := EntryList.Wf_inv hwf
    have hrs := EntryList.flat_sorted hrest
    rw [flat_cons, List.pairwise_append]
    refine ⟨?_, hrs, ?_⟩
    · cases e with
      | File t => simp [sectionFlat]
      | Directory nd =>
        have hnd := Node.flat_pairwise (EntryList.Wf_dir_inv hwf).2
        simp only [sectionFlat]
        rw [List.pairwise_map]
        exact hnd.imp fun hpq => (key_append_lt_iff k _ _).mpr hpq
    · intro q1 hq1 q2 hq2
      cases e with
      | File t =>
        simp only [sectionFlat, List.mem_singleton] at hq1
        rw [hq1]
        have := flat_lt_bound hrest (ltHeadKey_all hrest hlt) (Or.inl rfl) q2 hq2
        simpa using this
      | Directory nd =>
        simp only [sectionFlat, List.mem_map] at hq1
        obtain ⟨p, _, hpq⟩ := hq1
        rw [← hpq]
        exact flat_lt_bound hrest (ltHeadKey_all hrest hlt)
          (Or.inr (EntryList.Wf_dir_inv hwf).1) q2 hq2
end

theorem flatInsert_length_new {l : List (Key × T)} {K : Key} {v : T}
    (h : ∀ u : T, (K, u) ∉ l) : (flatInsert K v l).length = l.length + 1 := by
  induction l with
  | nil => rfl
  | cons q rest ih =>
    have hne : ¬ K = q.1 := by
      intro he
      exact h q.2 (by rw [he]; simp)
    simp only [flatInsert]
    by_cases h2 : K < q.1
    · simp [h2]
    · simp only [h2, if_false, hne, List.length_cons]
      rw [ih fun u hu => h u (by simp [hu])]

theorem flatInsert_length_replace {l : List (Key × T)} {K : Key} {v u : T}
    (hs : l.Pairwise (fun p q => p.1 < q.1)) (h : (K, u) ∈ l) :
    (flatInsert K v l).length = l.length := by
  induction l with
  | nil => simp at h
  | cons q rest ih =>
    rw [List.pairwise_cons] at hs
    rcases List.mem_cons.mp h with hh | hh
    · have hK : K = q.1 := by rw [← hh]
      have h1 : ¬ K < q.1 := hK ▸ lt_irrefl _
      simp [flatInsert, h1, hK]
    · have hKgt : q.1 < K := hs.1 _ hh
      have h1 : ¬ K < q.1 := lt_asymm hKgt
      have h2 : ¬ K = q.1 := fun he => absurd (he ▸ hKgt) (lt_irrefl _)
      simp only [flatInsert, h1, if_false, h2, List.length_cons]
      rw [ih hs.2 hh]

theorem flatErase_length {l : List (Key × T)} {K : Key} {u : T}
    (h : (K, u) ∈ l) : (flatErase K l).length = l.length - 1 := by
  induction l with
  | nil => simp at h
  | cons q rest ih =>
    by_cases hK : K = q.1
    · simp [flatErase, hK]
    · simp only [flatErase, hK, if_false, List.length_cons]
      have hh : (K, u) ∈ rest := by
        rcases List.mem_cons.mp h with hh | hh
        · exact absurd (congrArg Prod.fst hh) hK
        · exact hh
      rw [ih hh]
      have : rest.length ≥ 1 := by
        cases rest with
        | nil => simp at hh
        | cons a b => simp
      omega

/-! ## Operation sequences from the empty tree -/

/-- A mutation: the argument of one `Tree::add` or `Tree::remove` call. -/
inductive Op (T : Type) : Type where
  | addOp : Key → T → Op T
  | rmOp : Key → Op T

/-- Run one operation; the fuel is the key length, which always suffices
(each recursion level consumes at least one byte of the key). -/
def applyOp (st : Storable T) (s : Store) (t : Tree T) : Op T → Res (Tree T)
  | .addOp name info => Tree.add st name.length s t name info
  | .rmOp name =>
    match Tree.remove st name.length s t name with
    | .ok (_, t') => .ok t'
    | .err e => .err e
    | .panic => .panic
    | .fuelOut => .fuelOut

/-- Run a sequence of operations, stopping at the first failure. -/
def applyOps (st : Storable T) (s : Store) : List (Op T) → Tree T → Res (Tree T)
  | [], t => .ok t
  | op :: ops, t =>
    match applyOp st s t op with
    | .ok t' => applyOps st s ops t'
    | .err e => .err e
    | .panic => .panic
    | .fuelOut => .fuelOut

/-- One step preserves well-formedness and the count invariant. -/
theorem applyOp_inv {st : Storable T} {s : Store} {t t' : Tree T} {op : Op T}
    (h : applyOp st s t op = .ok t') (hwf : t.root.Wf)
    (hcount : t.file_count = t.root.countFiles) :
    t'.root.Wf ∧ t'.file_count = t'.root.countFiles := by
  cases op with
  | addOp name info =>
    simp only [applyOp, Tree.add] at h
    match hrec : Node.add st name.length s t.root name info with
    | .ok (root', added) =>
      rw [hrec] at h
      cases h
      obtain ⟨hwf', hflat', hiff', _⟩ := Node.add_spec st _ hrec hwf
      refine ⟨hwf', ?_⟩
      simp only [Node.countFiles, hflat']
      by_cases hadd : added = true
      · rw [hadd, flatInsert_length_new (hiff'.mp hadd)]
        simp [hcount, Node.countFiles]
      · have : added = false := by
          cases added
          · rfl
          · exact absurd rfl hadd
        subst this
        have hmem : ∃ u : T, (name, u) ∈ t.root.flat := by
          by_contra hno
          push_neg at hno
          exact hadd (hiff'.mpr hno)
        obtain ⟨u, hu⟩ := hmem
        rw [flatInsert_length_replace (Node.flat_pairwise hwf) hu]
        simp [hcount, Node.countFiles]
    | .err e => rw [hrec] at h; cases h
    | .panic => rw [hrec] at h; cases h
    | .fuelOut => rw [hrec] at h; cases h
  | rmOp name =>
    simp only [applyOp, Tree.remove] at h
    match hrec : Node.remove st name.length s t.root name with
    | .ok ((fr, ne), root') =>
      rw [hrec] at h
      obtain ⟨hwf', hflat', hiff', _, _⟩ := Node.remove_spec st _ hrec hwf
      by_cases hfr : fr = true
      · subst hfr
        simp only [if_true] at h
        by_cases hz : t.file_count = 0
        · rw [if_pos hz] at h
          cases h
        · rw [if_neg hz] at h
          cases h
          refine ⟨hwf', ?_⟩
          obtain ⟨u, hu⟩ := hiff'.mp rfl
          simp only [Node.countFiles, hflat', flatErase_length hu]
          simp only [Node.countFiles] at hcount
          omega
      · have : fr = false := by
          cases fr
          · rfl
          · exact absurd rfl hfr
        subst this
        simp only [Bool.false_eq_true, if_false] at h
        cases h
        refine ⟨hwf', ?_⟩
        simp only [Node.countFiles, hflat']
        rw [flatErase_absent]
        · exact hcount
        · intro q hq hqe
          have : ∃ u : T, (name, u) ∈ t.root.flat := ⟨q.2, by rw [← hqe]; simpa using hq⟩
          rw [← hiff'] at this
          cases this
    | .err e => rw [hrec] at h; cases h
    | .panic => rw [hrec] at h; cases h
    | .fuelOut => rw [hrec] at h; cases h

theorem applyOps_inv {st : Storable T} {s : Store} : ∀ {ops : List (Op T)} {t t' : Tree T},
    applyOps st s ops t = .ok t' → t.root.Wf → t.file_count = t.root.countFiles →
    t'.root.Wf ∧ t'.file_count = t'.root.countFiles := by
  intro ops
  induction ops with
  | nil =>
    intro t t' h hwf hc
    cases h
    exact ⟨hwf, hc⟩
  | cons op ops ih =>
    intro t t' h hwf hc
    simp only [applyOps] at h
    match hop : applyOp st s t op with
    | .ok t1 =>
      rw [hop] at h
      obtain ⟨hwf1, hc1⟩ := applyOp_inv hop hwf hc
      exact ih h hwf1 hc1
    | .err e => rw [hop] at h; cases h
    | .panic => rw [hop] at h; cases h
    | .fuelOut => rw [hop] at h; cases h

/-! ## `visit` reports exactly the pure view -/

mutual
theorem visitList_ok (st : Storable T) : ∀ (fuel : Nat) {s : Store} {p : List Key}
    {n : Node T} {l : List (List Key × T)},
    Node.visitList st fuel s p n = .ok l → n.Wf →
    l.map (fun q => (q.1.flatten, q.2)) = n.flat.map (fun q => (p.flatten ++ q.1, q.2))
  | 0, s, p, n, l => by
    intro h _
    simp [Node.visitList] at h
  | fuel + 1, s, p, n, l => by
    intro h hwf
    obtain ⟨i, es, rfl, hes⟩ := Node.Wf_shape hwf
    simp only [Node.visitList, Node.load] at h
    simp only [node_flat_mk]
    exact visitEntries_ok st fuel h hes

theorem visitEntries_ok (st : Storable T) : ∀ (fuel : Nat) {s : Store} {p : List Key}
    {es : EntryList T} {l : List (List Key × T)},
    visitEntries st fuel s p es = .ok l → es.Wf →
    l.map (fun q => (q.1.flatten, q.2)) = es.flat.map (fun q => (p.flatten ++ q.1, q.2))
  | 0, s, p, es, l => by
    intro h _
    simp [visitEntries] at h
  | fuel + 1, s, p, es, l => by
    intro h hwf
    match es with
    | .nil =>
      simp only [visitEntries] at h
      cases h
      simp [EntryList.flat]
    | .cons name (.File t) rest =>
      simp only [visitEntries] at h
      match hrec : visitEntries st fuel s p rest with
      | .ok more =>
        rw [hrec] at h
        cases h
        have hih := visitEntries_ok st fuel hrec (EntryList.Wf_inv hwf).2.2
        rw [flat_cons]
        simp only [sectionFlat, List.map_cons, List.singleton_append, List.map_append,
          hih]
        simp
      | .err e => rw [hrec] at h; cases h
      | .panic => rw [hrec] at h; cases h
      | .fuelOut => rw [hrec] at h; cases h
    | .cons name (.Directory nd) rest =>
      simp only [visitEntries] at h
      match hsub : Node.visitList st fuel s (p ++ [name]) nd with
      | .ok sub =>
        rw [hsub] at h
        match hrec : visitEntries st fuel s p rest with
        | .ok more =>
          rw [hrec] at h
          cases h
          have hih1 := visitList_ok st fuel hsub (EntryList.Wf_dir_inv hwf).2
          have hih2 := visitEntries_ok st fuel hrec (EntryList.Wf_inv hwf).2.2
          rw [flat_cons]
          simp only [sectionFlat, List.map_append, hih2, List.map_map]
          rw [hih1]
          congr 1
          apply List.map_congr_left
          intro q _
          simp [List.append_assoc]
        | .err e => rw [hrec] at h; cases h
        | .panic => rw [hrec] at h; cases h
        | .fuelOut => rw [hrec] at h; cases h
      | .err e => rw [hsub] at h; cases h
      | .panic => rw [hsub] at h; cases h
      | .fuelOut => rw [hsub] at h; cases h
end

theorem Tree.visit_ok {st : Storable T} {fuel : Nat} {s : Store} {t : Tree T}
    {l : List (Key × T)} (h : Tree.visit st fuel s t = .ok l) (hwf : t.root.Wf) :
    l = t.root.flat := by
  simp only [Tree.visit] at h
  match hv : Node.visitList st fuel s [] t.root with
  | .ok l0 =>
    rw [hv] at h
    cases h
    have hmap := visitList_ok st fuel hv hwf
    simp only [List.flatten_nil, List.nil_append] at hmap
    rw [hmap]
    simp
  | .err e => rw [hv] at h; cases h
  | .panic => rw [hv] at h; cases h
  | .fuelOut => rw [hv] at h; cases h

/-! ## The no-empty-directories invariant -/

/-- What an inserted entry must satisfy for `NeDirs` to be preserved. -/
def entryNe : NodeEntry T → Prop
  | .File _ => True
  | .Directory nd => nd.NeDirs

theorem EntryList.insert_ne_nil (es : EntryList T) (k : Key) (e : NodeEntry T) :
    es.insert k e ≠ .nil := by
  cases es with
  | nil => simp [EntryList.insert]
  | cons k' e' rest =>
    simp only [EntryList.insert]
    split
    · simp
    · split <;> simp

theorem EntryList.NeDirs_inv {k : Key} {e : NodeEntry T} {rest : EntryList T}
    (h : (EntryList.cons k e rest).NeDirs) : entryNe e ∧ rest.NeDirs := by
  cases e with
  | File t => exact ⟨trivial, h⟩
  | Directory nd => exact ⟨h.1, h.2⟩

theorem EntryList.NeDirs_cons {k : Key} {e : NodeEntry T} {rest : EntryList T}
    (h1 : entryNe e) (h2 : rest.NeDirs) : (EntryList.cons k e rest).NeDirs := by
  cases e with
  | File t => exact h2
  | Directory nd => exact ⟨h1, h2⟩

theorem EntryList.insert_NeDirs : ∀ {es : EntryList T}, es.NeDirs →
    ∀ {k : Key} {e : NodeEntry T}, entryNe e → (es.insert k e).NeDirs
  | .nil, _, k, e, he => by
    simp only [EntryList.insert]
    exact EntryList.NeDirs_cons he trivial
  | .cons k' e' rest, hne, k, e, he => by
    obtain ⟨he', hrest⟩ := EntryList.NeDirs_inv hne
    simp only [EntryList.insert]
    split
    · exact EntryList.NeDirs_cons he (EntryList.NeDirs_cons he' hrest)
    · split
      · exact EntryList.NeDirs_cons he hrest
      · exact EntryList.NeDirs_cons he' (EntryList.insert_NeDirs hrest he)

theorem EntryList.remove_NeDirs : ∀ {es : EntryList T}, es.NeDirs → ∀ k : Key,
    (es.remove k).NeDirs
  | .nil, _, k => trivial
  | .cons k' e' rest, hne, k => by
    obtain ⟨he', hrest⟩ := EntryList.NeDirs_inv hne
    simp only [EntryList.remove]
    split
    · exact hrest
    · exact EntryList.NeDirs_cons he' (EntryList.remove_NeDirs hrest k)

theorem lookup_entryNe : ∀ {es : EntryList T}, es.NeDirs → ∀ {k : Key} {e : NodeEntry T},
    es.lookup k = some e → entryNe e
  | .nil, _, k, e, h => by simp [EntryList.lookup] at h
  | .cons k' e' rest, hne, k, e, h => by
    obtain ⟨he', hrest⟩ := EntryList.NeDirs_inv hne
    simp only [EntryList.lookup] at h
    split at h
    · cases h
      exact he'
    · exact lookup_entryNe hrest h

theorem rootNeDirs_shape : ∀ {n : Node T}, rootNeDirs n →
    ∃ i es, n = .mk i (some es) ∧ EntryList.NeDirs es
  | .mk i none, h => absurd h (by simp [rootNeDirs])
  | .mk i (some es), h => ⟨i, es, rfl, h⟩

/-- `Node::add` preserves the no-empty-directories invariant, and the node it
returns is itself non-empty: a directory is only ever created together with
the file inserted beneath it. -/
theorem Node.add_ne (st : Storable T) : ∀ (fuel : Nat) {s : Store} {n : Node T}
    {name : Key} {info : T} {n' : Node T} {added : Bool},
    Node.add st fuel s n name info = .ok (n', added) → rootNeDirs n →
    Node.NeDirs n'
  | 0, s, n, name, info, n', added => by
    intro h _
    simp [Node.add] at h
  | fuel + 1, s, n, name, info, n', added => by
    intro h hne
    obtain ⟨i, es, rfl, hes⟩ := rootNeDirs_shape hne
    simp only [Node.add, Node.load] at h
    match hsp : split_key name with
    | none => simp [hsp] at h
    | some (elem, some path) =>
      simp only [hsp] at h
      match hlk : es.lookup elem with
      | some (.Directory nd) =>
        simp only [hlk] at h
        match hrec : Node.add st fuel s nd path info with
        | .ok (nd', fileAdded) =>
          simp only [hrec] at h
          cases h
          have hndroot : rootNeDirs nd := by
            have h0 := lookup_entryNe hes hlk
            match nd, h0 with
            | .mk i0 (some es0), h0 => exact h0.2
            | .mk i0 none, h0 => exact False.elim h0
          have hndne : Node.NeDirs nd' := Node.add_ne st fuel hrec hndroot
          exact ⟨EntryList.insert_ne_nil es elem _,
            EntryList.insert_NeDirs hes hndne⟩
        | .err e => simp [hrec] at h
        | .panic => simp [hrec] at h
        | .fuelOut => simp [hrec] at h
      | some (.File t) => simp [hlk] at h
      | none =>
        simp only [hlk] at h
        match hrec : Node.add st fuel s Node.new path info with
        | .ok (nd', fileAdded) =>
          simp only [hrec] at h
          cases h
          have hndne : Node.NeDirs nd' :=
            Node.add_ne st fuel hrec (by simp [Node.new, rootNeDirs, EntryList.NeDirs])
          exact ⟨EntryList.insert_ne_nil es elem _,
            EntryList.insert_NeDirs hes hndne⟩
        | .err e => simp [hrec] at h
        | .panic => simp [hrec] at h
        | .fuelOut => simp [hrec] at h
    | some (elem, none) =>
      simp only [hsp] at h
      match hlk : es.lookup elem with
      | some (.Directory nd) => simp [hlk] at h
      | some (.File t) =>
        simp only [hlk] at h
        cases h
        exact ⟨EntryList.insert_ne_nil es elem _,
          EntryList.insert_NeDirs hes trivial⟩
      | none =>
        simp only [hlk] at h
        cases h
        exact ⟨EntryList.insert_ne_nil es elem _,
          EntryList.insert_NeDirs hes trivial⟩

/-- `Node::remove` preserves the no-empty-directories invariant: a child
directory is deleted from its parent the moment it becomes empty. -/
theorem Node.remove_ne (st : Storable T) : ∀ (fuel : Nat) {s : Store} {n : Node T}
    {name : Key} {fr ne : Bool} {n' : Node T},
    Node.remove st fuel s n name = .ok ((fr, ne), n') → rootNeDirs n →
    rootNeDirs n' ∧ ∃ es', n'.entries = some es' ∧ ne = es'.isEmpty
  | 0, s, n, name, fr, ne, n' => by
    intro h _
    simp [Node.remove] at h
  | fuel + 1, s, n, name, fr, ne, n' => by
    intro h hne
    obtain ⟨i, es, rfl, hes⟩ := rootNeDirs_shape hne
    simp only [Node.remove, Node.load] at h
    match hsp : split_key name with
    | none => simp [hsp] at h
    | some (elem, some path) =>
      simp only [hsp] at h
      match hlk : es.lookup elem with
      | some (.Directory nd) =>
        simp only [hlk] at h
        match hrec : Node.remove st fuel s nd path with
        | .ok ((fr0, ne0), nd') =>
          simp only [hrec] at h
          cases h
          have hndroot : rootNeDirs nd := by
            have h0 := lookup_entryNe hes hlk
            match nd, h0 with
            | .mk i0 (some es0), h0 => exact h0.2
            | .mk i0 none, h0 => exact False.elim h0
          obtain ⟨hnd', es0, hch, hne0⟩ := Node.remove_ne st fuel hrec hndroot
          by_cases hemp : ne0 = true
          · subst hemp
            simp only [if_true]
            exact ⟨EntryList.remove_NeDirs hes elem, es.remove elem, rfl, rfl⟩
          · have hne0f : ne0 = false := by
              cases ne0
              · rfl
              · exact absurd rfl hemp
            subst hne0f
            simp only [Bool.false_eq_true, if_false, false_or]
            have hndne : Node.NeDirs nd' := by
              match nd', hch, hnd' with
              | .mk i1 (some es1), hch, hnd' =>
                simp only [Node.entries] at hch
                cases hch
                refine ⟨?_, hnd'⟩
                intro hnil
                subst hnil
                simp [EntryList.isEmpty] at hne0
            exact ⟨EntryList.insert_NeDirs hes hndne,
              es.insert elem (.Directory nd'), rfl, rfl⟩
        | .err e => simp [hrec] at h
        | .panic => simp [hrec] at h
        | .fuelOut => simp [hrec] at h
      | some (.File t) =>
        simp only [hlk] at h
        cases h
        exact ⟨hes, es, rfl, rfl⟩
      | none =>
        simp only [hlk] at h
        cases h
        exact ⟨hes, es, rfl, rfl⟩
    | some (elem, none) =>
      simp only [hsp] at h
      match hlk : es.lookup elem with
      | some (.Directory nd) =>
        simp only [hlk] at h
        cases h
        exact ⟨hes, es, rfl, rfl⟩
      | some (.File t) =>
        simp only [hlk] at h
        cases h
        exact ⟨EntryList.remove_NeDirs hes elem, es.remove elem, rfl, rfl⟩
      | none =>
        simp only [hlk] at h
        cases h
        exact ⟨hes, es, rfl, rfl⟩

theorem applyOp_ne {st : Storable T} {s : Store} {t t' : Tree T} {op : Op T}
    (h : applyOp st s t op = .ok t') (hne : rootNeDirs t.root) :
    rootNeDirs t'.root := by
  cases op with
  | addOp name info =>
    simp only [applyOp, Tree.add] at h
    match hrec : Node.add st name.length s t.root name info with
    | .ok (root', added) =>
      rw [hrec] at h
      cases h
      have hth := Node.add_ne st _ hrec hne
      match root', hth with
      | .mk i0 (some es0), h0 => exact h0.2
      | .mk i0 none, h0 => exact False.elim h0
    | .err e => rw [hrec] at h; cases h
    | .panic => rw [hrec] at h; cases h
    | .fuelOut => rw [hrec] at h; cases h
  | rmOp name =>
    simp only [applyOp, Tree.remove] at h
    match hrec : Node.remove st name.length s t.root name with
    | .ok ((fr, ne), root') =>
      rw [hrec] at h
      have := (Node.remove_ne st _ hrec hne).1
      by_cases hfr : fr = true
      · subst hfr
        simp only [if_true] at h
        by_cases hz : t.file_count = 0
        · rw [if_pos hz] at h
          cases h
        · rw [if_neg hz] at h
          cases h
          exact this
      · have : fr = false := by
          cases fr
          · rfl
          · exact absurd rfl hfr
        subst this
        simp only [Bool.false_eq_true, if_false] at h
        cases h
        exact (Node.remove_ne st _ hrec hne).1
    | .err e => rw [hrec] at h; cases h
    | .panic => rw [hrec] at h; cases h
    | .fuelOut => rw [hrec] at h; cases h

theorem applyOps_ne {st : Storable T} {s : Store} : ∀ {ops : List (Op T)} {t t' : Tree T},
    applyOps st s ops t = .ok t' → rootNeDirs t.root → rootNeDirs t'.root := by
  intro ops
  induction ops with
  | nil =>
    intro t t' h hne
    cases h
    exact hne
  | cons op ops ih =>
    intro t t' h hne
    simp only [applyOps] at h
    match hop : applyOp st s t op with
    | .ok t1 =>
      rw [hop] at h
      exact ih h (applyOp_ne hop hne)
    | .err e => rw [hop] at h; cases h
    | .panic => rw [hop] at h; cases h
    | .fuelOut => rw [hop] at h; cases h

/-- /// C3 /// For every tree obtained from `Tree::new` by a sequence of
successful `add` / `remove` operations, the cached `file_count` equals the
number of `File` leaves reachable from the root, which is also the number of
files reported by `visit`; a further `add` increments the count exactly when
the key was not already a file (an update leaves it unchanged), and a further
`remove` decrements it exactly when a file was removed. -/
theorem c3_count_conservation (st : Storable T) (s : Store) (ops : List (Op T))
    (t : Tree T) (h : applyOps st s ops Tree.new = .ok t) :
    t.file_count = t.root.countFiles ∧
    (∀ (fuel : Nat) (l : List (Key × T)), Tree.visit st fuel s t = .ok l →
      t.file_count = l.length) ∧
    (∀ (fuel : Nat) (name : Key) (info : T) (t' : Tree T),
      Tree.add st fuel s t name info = .ok t' →
      ((∀ v : T, (name, v) ∉ t.root.flat) → t'.file_count = t.file_count + 1) ∧
      ((∃ v : T, (name, v) ∈ t.root.flat) → t'.file_count = t.file_count)) ∧
    (∀ (fuel : Nat) (name : Key) (r : Bool) (t' : Tree T),
      Tree.remove st fuel s t name = .ok (r, t') →
      (r = true ↔ ∃ v : T, (name, v) ∈ t.root.flat) ∧
      t'.file_count = t.file_count - (if r = true then 1 else 0)) := by
  obtain ⟨hwf, hc⟩ := applyOps_inv h trivial rfl
  refine ⟨hc, ?_, ?_, ?_⟩
  · intro fuel l hv
    rw [Tree.visit_ok hv hwf, hc]
    rfl
  · intro fuel name info t' ha
    simp only [Tree.add] at ha
    match hrec : Node.add st fuel s t.root name info with
    | .ok (root', added) =>
      rw [hrec] at ha
      cases ha
      obtain ⟨_, _, hiff, _⟩ := Node.add_spec st fuel hrec hwf
      constructor
      · intro hnone
        rw [hiff.mpr hnone]
        simp
      · intro ⟨v, hv⟩
        have : added = false := by
          cases hadd : added
          · rfl
          · exact absurd hv (hiff.mp hadd v)
        rw [this]
        simp
    | .err e => rw [hrec] at ha; cases ha
    | .panic => rw [hrec] at ha; cases ha
    | .fuelOut => rw [hrec] at ha; cases ha
  · intro fuel name r t' hr
    simp only [Tree.remove] at hr
    match hrec : Node.remove st fuel s t.root name with
    | .ok ((fr, ne), root') =>
      rw [hrec] at hr
      obtain ⟨_, _, hiff, _, _⟩ := Node.remove_spec st fuel hrec hwf
      by_cases hfr : fr = true
      · subst hfr
        simp only [if_true] at hr
        by_cases hz : t.file_count = 0
        · rw [if_pos hz] at hr
          cases hr
        · rw [if_neg hz] at hr
          cases hr
          exact ⟨hiff, by simp⟩
      · have hf : fr = false := by
          cases fr
          · rfl
          · exact absurd rfl hfr
        subst hf
        simp only [Bool.false_eq_true, if_false] at hr
        cases hr
        exact ⟨hiff, by simp⟩
    | .err e => rw [hrec] at hr; cases hr
    | .panic => rw [hrec] at hr; cases hr
    | .fuelOut => rw [hrec] at hr; cases hr

/-- Witness for C3: one concrete `add` from the empty tree. -/
theorem c3_count_conservation_witness :
    ({ root := .mk none (some (.cons [97] (.File true) .nil)), file_count := 1 } :
      Tree Bool).file_count =
    ({ root := .mk none (some (.cons [97] (.File true) .nil)), file_count := 1 } :
      Tree Bool).root.countFiles :=
  (c3_count_conservation boolStorable nullStore [.addOp [97] true] _ rfl).1

/-- /// C10 /// In every tree reachable from `Tree::new` by successful `add`
and `remove` operations, every directory node other than the root has a
non-empty (and loaded) child map: `add` creates a subdirectory only together
with the file inserted beneath it, and `remove` deletes a child directory as
soon as it becomes empty. -/
theorem c10_no_empty_nonroot_dirs (st : Storable T) (s : Store) (ops : List (Op T))
    (t : Tree T) (h : applyOps st s ops Tree.new = .ok t) : rootNeDirs t.root :=
  applyOps_ne h trivial

/-- Witness for C10: an `add` below a fresh subdirectory followed by nothing;
the created directory is non-empty. -/
theorem c10_no_empty_nonroot_dirs_witness :
    rootNeDirs
      ({ root := .mk none (some (.cons [97, 47]
          (.Directory (.mk none (some (.cons [98] (.File true) .nil)))) .nil)),
         file_count := 1 } : Tree Bool).root :=
  c10_no_empty_nonroot_dirs boolStorable nullStore [.addOp [97, 47, 98] true] _ rfl

/-! ## Collision predicates and panic behaviour -/

/-- The key names an existing directory: every component of the key descends
through a `Directory` entry and the final element is itself a `Directory`
entry — the `ExactDirectory` outcome of `path_recurse`, possibly nested. -/
inductive DirPath : Node T → Key → Prop where
  | exact : ∀ {i : Option Nat} {es : EntryList T} {k elem : Key} {nd : Node T},
      split_key k = some (elem, none) → es.lookup elem = some (.Directory nd) →
      DirPath (.mk i (some es)) k
  | deeper : ∀ {i : Option Nat} {es : EntryList T} {k elem path : Key} {nd : Node T},
      split_key k = some (elem, some path) → es.lookup elem = some (.Directory nd) →
      DirPath nd path → DirPath (.mk i (some es)) k

/-- Some proper path prefix of the key is an existing file — the
`ConflictingFile` outcome of `path_recurse`, possibly nested. -/
inductive FileConflict : Node T → Key → Prop where
  | conflict : ∀ {i : Option Nat} {es : EntryList T} {k elem path : Key} {t : T},
      split_key k = some (elem, some path) → es.lookup elem = some (.File t) →
      FileConflict (.mk i (some es)) k
  | deeper : ∀ {i : Option Nat} {es : EntryList T} {k elem path : Key} {nd : Node T},
      split_key k = some (elem, some path) → es.lookup elem = some (.Directory nd) →
      FileConflict nd path → FileConflict (.mk i (some es)) k

/-- Re-inserting the entry a key already maps to leaves a sorted map
unchanged. -/
theorem EntryList.insert_self : ∀ {es : EntryList T}, es.Wf → ∀ {k : Key} {e : NodeEntry T},
    es.lookup k = some e → es.insert k e = es
  | .nil, _, k, e, h => by simp [EntryList.lookup] at h
  | .cons k' e' rest, hwf, k, e, h => by
    simp only [EntryList.lookup] at h
    split at h
    · rename_i heq
      cases h
      have hn : ¬ k < k' := by
        rw [heq]
        exact lt_irrefl k'
      simp [EntryList.insert, hn, heq]
    · rename_i hne
      obtain ⟨_, hlt', hrest⟩ := EntryList.Wf_inv hwf
      have hgt : k' < k := ltHeadKey_all hrest hlt' k (lookup_some_mem_keys h)
      have hn1 : ¬ k < k' := lt_asymm hgt
      simp only [EntryList.insert, hn1, if_false, hne]
      rw [EntryList.insert_self hrest h]

/-- Adding below a fresh empty node never panics: there is nothing to collide
with. -/
theorem new_add_no_panic (st : Storable T) : ∀ (fuel : Nat) {s : Store} {path : Key}
    {v : T}, path ≠ [] → Node.add st fuel s Node.new path v ≠ .panic
  | 0, s, path, v => by
    intro _
    simp [Node.add]
  | fuel + 1, s, path, v => by
    intro hne
    simp only [Node.add, Node.new, Node.load]
    match hsp : split_key path with
    | none =>
      obtain ⟨_, _, h⟩ := (c9_split_key_empty_key_panics st).2.1 path hne
      rw [hsp] at h
      cases h.1
    | some (elem, some p2) =>
      simp only [hsp, EntryList.lookup]
      have hp2 : p2 ≠ [] := (split_key_some_spec hsp).2.2
      match hrec : Node.add st fuel s Node.new p2 v with
      | .ok (nd', fileAdded) => simp [hrec]
      | .err e => simp [hrec]
      | .panic => exact absurd hrec (new_add_no_panic st fuel hp2)
      | .fuelOut => simp [hrec]
    | some (elem, none) => simp [hsp, EntryList.lookup]

theorem key_length_step {name elem path : Key}
    (h : split_key name = some (elem, some path)) {fuel : Nat}
    (hf : name.length ≤ fuel + 1) : path.length ≤ fuel := by
  obtain ⟨hname, helem, _⟩ := split_key_some_spec h
  have h1 : name.length = elem.length + path.length := by
    rw [hname]
    simp
  have h2 : 1 ≤ elem.length := List.length_pos.mpr helem.1
  omega

theorem get_no_panic (st : Storable T) : ∀ (fuel : Nat) {s : Store} {n : Node T}
    {name : Key}, n.Wf → name ≠ [] → Node.get st fuel s n name ≠ .panic
  | 0, s, n, name => by
    intro _ _
    simp [Node.get]
  | fuel + 1, s, n, name => by
    intro hwf hne
    obtain ⟨i, es, rfl, hes⟩ := Node.Wf_shape hwf
    simp only [Node.get, Node.load]
    match hsp : split_key name with
    | none =>
      obtain ⟨_, _, hcontra⟩ := (c9_split_key_empty_key_panics st).2.1 name hne
      rw [hsp] at hcontra
      cases hcontra.1
    | some (elem, some path) =>
      simp only
      match hlk : es.lookup elem with
      | some (.Directory nd) =>
        exact get_no_panic st fuel (lookup_entryWf hes hlk).2 (split_key_some_spec hsp).2.2
      | some (.File t) => simp
      | none => simp
    | some (elem, none) =>
      simp only
      match hlk : es.lookup elem with
      | some (.Directory nd) => simp
      | some (.File t) => simp
      | none => simp

theorem has_dir_no_panic (st : Storable T) : ∀ (fuel : Nat) {s : Store} {n : Node T}
    {name : Key}, n.Wf → name ≠ [] → Node.has_dir st fuel s n name ≠ .panic
  | 0, s, n, name => by
    intro _ _
    simp [Node.has_dir]
  | fuel + 1, s, n, name => by
    intro hwf hne
    obtain ⟨i, es, rfl, hes⟩ := Node.Wf_shape hwf
    simp only [Node.has_dir, Node.load]
    match hsp : split_key name with
    | none =>
      obtain ⟨_, _, hcontra⟩ := (c9_split_key_empty_key_panics st).2.1 name hne
      rw [hsp] at hcontra
      cases hcontra.1
    | some (elem, some path) =>
      simp only
      match hlk : es.lookup elem with
      | some (.Directory nd) =>
        exact has_dir_no_panic st fuel (lookup_entryWf hes hlk).2
          (split_key_some_spec hsp).2.2
      | some (.File t) => simp
      | none => simp
    | some (elem, none) =>
      simp only
      match hlk : es.lookup elem with
      | some (.Directory nd) => simp
      | some (.File t) => simp
      | none => simp

theorem remove_no_panic (st : Storable T) : ∀ (fuel : Nat) {s : Store} {n : Node T}
    {name : Key}, n.Wf → name ≠ [] → Node.remove st fuel s n name ≠ .panic
  | 0, s, n, name => by
    intro _ _
    simp [Node.remove]
  | fuel + 1, s, n, name => by
    intro hwf hne
    obtain ⟨i, es, rfl, hes⟩ := Node.Wf_shape hwf
    simp only [Node.remove, Node.load]
    match hsp : split_key name with
    | none =>
      obtain ⟨_, _, hcontra⟩ := (c9_split_key_empty_key_panics st).2.1 name hne
      rw [hsp] at hcontra
      cases hcontra.1
    | some (elem, some path) =>
      simp only
      match hlk : es.lookup elem with
      | some (.Directory nd) =>
        match hrec : Node.remove st fuel s nd path with
        | .ok ((fr0, ne0), nd') => simp [hrec]
        | .err e => simp [hrec]
        | .panic =>
          exact absurd hrec (remove_no_panic st fuel (lookup_entryWf hes hlk).2
            (split_key_some_spec hsp).2.2)
        | .fuelOut => simp [hrec]
      | some (.File t) => simp
      | none => simp
    | some (elem, none) =>
      simp only
      match hlk : es.lookup elem with
      | some (.Directory nd) => simp
      | some (.File t) => simp
      | none => simp

/-- Inversion helpers for the collision predicates. -/
theorem collision_inv_dir {i : Option Nat} {es : EntryList T} {name elem path : Key}
    {nd : Node T} (hsp : split_key name = some (elem, some path))
    (hlk : es.lookup elem = some (.Directory nd)) :
    (DirPath (.mk i (some es)) name ∨ FileConflict (.mk i (some es)) name) ↔
      (DirPath nd path ∨ FileConflict nd path) := by
  constructor
  · intro h
    rcases h with hd | hc
    · cases hd with
      | exact hsp' hlk' =>
        rw [hsp'] at hsp
        cases hsp
      | deeper hsp' hlk' hrec =>
        rw [hsp'] at hsp
        cases hsp
        rw [hlk'] at hlk
        cases hlk
        exact Or.inl hrec
    · cases hc with
      | conflict hsp' hlk' =>
        rw [hsp'] at hsp
        cases hsp
        rw [hlk'] at hlk
        cases hlk
      | deeper hsp' hlk' hrec =>
        rw [hsp'] at hsp
        cases hsp
        rw [hlk'] at hlk
        cases hlk
        exact Or.inr hrec
  · intro h
    rcases h with hd | hc
    · exact Or.inl (DirPath.deeper hsp hlk hd)
    · exact Or.inr (FileConflict.deeper hsp hlk hc)

theorem collision_not_deep_miss {i : Option Nat} {es : EntryList T} {name elem path : Key}
    (hsp : split_key name = some (elem, some path)) (hlk : es.lookup elem = none) :
    ¬ (DirPath (.mk i (some es)) name ∨ FileConflict (.mk i (some es)) name) := by
  intro h
  rcases h with hd | hc
  · cases hd with
    | exact hsp' hlk' =>
      rw [hsp'] at hsp
      cases hsp
    | deeper hsp' hlk' _ =>
      rw [hsp'] at hsp
      cases hsp
      rw [hlk'] at hlk
      cases hlk
  · cases hc with
    | conflict hsp' hlk' =>
      rw [hsp'] at hsp
      cases hsp
      rw [hlk'] at hlk
      cases hlk
    | deeper hsp' hlk' _ =>
      rw [hsp'] at hsp
      cases hsp
      rw [hlk'] at hlk
      cases hlk

theorem collision_not_flat_file {i : Option Nat} {es : EntryList T} {name elem : Key}
    {t : T} (hsp : split_key name = some (elem, none))
    (hlk : es.lookup elem = some (.File t)) :
    ¬ (DirPath (.mk i (some es)) name ∨ FileConflict (.mk i (some es)) name) := by
  intro h
  rcases h with hd | hc
  · cases hd with
    | exact hsp' hlk' =>
      rw [hsp'] at hsp
      cases hsp
      rw [hlk'] at hlk
      cases hlk
    | deeper hsp' _ _ =>
      rw [hsp'] at hsp
      cases hsp
  · cases hc with
    | conflict hsp' _ =>
      rw [hsp'] at hsp
      cases hsp
    | deeper hsp' _ _ =>
      rw [hsp'] at hsp
      cases hsp

theorem collision_not_flat_miss {i : Option Nat} {es : EntryList T} {name elem : Key}
    (hsp : split_key name = some (elem, none)) (hlk : es.lookup elem = none) :
    ¬ (DirPath (.mk i (some es)) name ∨ FileConflict (.mk i (some es)) name) := by
  intro h
  rcases h with hd | hc
  · cases hd with
    | exact hsp' hlk' =>
      rw [hsp'] at hsp
      cases hsp
      rw [hlk'] at hlk
      cases hlk
    | deeper hsp' _ _ =>
      rw [hsp'] at hsp
      cases hsp
  · cases hc with
    | conflict hsp' _ =>
      rw [hsp'] at hsp
      cases hsp
    | deeper hsp' _ _ =>
      rw [hsp'] at hsp
      cases hsp

/-- `Node::add` panics exactly on a collision: the key names an existing
directory, or some proper prefix of it is an existing file. -/
theorem add_panic_iff (st : Storable T) : ∀ (fuel : Nat) {s : Store} {n : Node T}
    {name : Key} {v : T}, n.Wf → name ≠ [] → name.length ≤ fuel →
    (Node.add st fuel s n name v = .panic ↔ DirPath n name ∨ FileConflict n name)
  | 0, s, n, name, v => by
    intro _ hne hf
    exact absurd (List.length_pos.mpr hne) (by omega)
  | fuel + 1, s, n, name, v => by
    intro hwf hne hf
    obtain ⟨i, es, rfl, hes⟩ := Node.Wf_shape hwf
    simp only [Node.add, Node.load]
    match hsp : split_key name with
    | none =>
      obtain ⟨_, _, hcontra⟩ := (c9_split_key_empty_key_panics st).2.1 name hne
      rw [hsp] at hcontra
      cases hcontra.1
    | some (elem, some path) =>
      simp only [hsp]
      have hspec := split_key_some_spec hsp
      match hlk : es.lookup elem with
      | some (.Directory nd) =>
        simp only [hlk]
        have hih := add_panic_iff st fuel (v := v) (s := s)
          (lookup_entryWf hes hlk).2 hspec.2.2 (key_length_step hsp hf)
        rw [collision_inv_dir hsp hlk, ← hih]
        match hrec : Node.add st fuel s nd path v with
        | .ok (nd', fileAdded) => simp
        | .err e => simp
        | .panic => simp
        | .fuelOut => simp
      | some (.File t) =>
        simp only [hlk, true_iff]
        exact Or.inr (FileConflict.conflict hsp hlk)
      | none =>
        simp only [hlk]
        have hnp := new_add_no_panic st fuel (s := s) (v := v) hspec.2.2
        constructor
        · intro h
          match hrec : Node.add st fuel s Node.new path v with
          | .ok (nd', fileAdded) => rw [hrec] at h; cases h
          | .err e => rw [hrec] at h; cases h
          | .panic => exact absurd hrec hnp
          | .fuelOut => rw [hrec] at h; cases h
        · intro h
          exact absurd h (collision_not_deep_miss hsp hlk)
    | some (elem, none) =>
      simp only [hsp]
      match hlk : es.lookup elem with
      | some (.Directory nd) =>
        simp only [hlk, true_iff]
        exact Or.inl (DirPath.exact hsp hlk)
      | some (.File t) =>
        simp only [hlk]
        constructor
        · intro h
          cases h
        · intro h
          exact absurd h (collision_not_flat_file hsp hlk)
      | none =>
        simp only [hlk]
        constructor
        · intro h
          cases h
        · intro h
          exact absurd h (collision_not_flat_miss hsp hlk)

theorem split_key_eq_none {k : Key} (h : split_key k = none) : k = [] := by
  match hk : k.length with
  | 0 => exact List.length_eq_zero.mp hk
  | n + 1 =>
    rw [split_key_eq hk] at h
    split at h <;> cases h

theorem collision_name_ne_nil {n : Node T} {name : Key}
    (h : DirPath n name ∨ FileConflict n name) : name ≠ [] := by
  intro hnil
  subst hnil
  rcases h with hd | hc
  · cases hd with
    | exact hsp _ => simp [split_key] at hsp
    | deeper hsp _ _ => simp [split_key] at hsp
  · cases hc with
    | conflict hsp _ => simp [split_key] at hsp
    | deeper hsp _ _ => simp [split_key] at hsp

theorem get_collision_none (st : Storable T) : ∀ (fuel : Nat) {s : Store} {n : Node T}
    {name : Key}, n.Wf → (DirPath n name ∨ FileConflict n name) → name.length ≤ fuel →
    Node.get st fuel s n name = .ok none
  | 0, s, n, name => by
    intro hwf hcol hf
    exact absurd (List.length_pos.mpr (collision_name_ne_nil hcol)) (by omega)
  | fuel + 1, s, n, name => by
    intro hwf hcol hf
    obtain ⟨i, es, rfl, hes⟩ := Node.Wf_shape hwf
    simp only [Node.get, Node.load]
    match hsp : split_key name with
    | none => exact absurd (split_key_eq_none hsp) (collision_name_ne_nil hcol)
    | some (elem, some path) =>
      simp only [hsp]
      match hlk : es.lookup elem with
      | some (.Directory nd) =>
        simp only [hlk]
        exact get_collision_none st fuel (lookup_entryWf hes hlk).2
          ((collision_inv_dir hsp hlk).mp hcol) (key_length_step hsp hf)
      | some (.File t) => simp [hlk]
      | none => exact absurd hcol (collision_not_deep_miss hsp hlk)
    | some (elem, none) =>
      simp only [hsp]
      match hlk : es.lookup elem with
      | some (.Directory nd) => simp [hlk]
      | some (.File t) => exact absurd hcol (collision_not_flat_file hsp hlk)
      | none => exact absurd hcol (collision_not_flat_miss hsp hlk)

/-- On a collision, `Node::remove` removes nothing: it reports no file
removed, reports this node non-empty, and returns the tree unchanged. -/
theorem remove_collision_noop (st : Storable T) : ∀ (fuel : Nat) {s : Store} {n : Node T}
    {name : Key}, n.Wf → (DirPath n name ∨ FileConflict n name) → name.length ≤ fuel →
    Node.remove st fuel s n name = .ok ((false, false), n)
  | 0, s, n, name => by
    intro hwf hcol hf
    exact absurd (List.length_pos.mpr (collision_name_ne_nil hcol)) (by omega)
  | fuel + 1, s, n, name => by
    intro hwf hcol hf
    obtain ⟨i, es, rfl, hes⟩ := Node.Wf_shape hwf
    have hesne : es ≠ .nil := by
      intro hnil
      subst hnil
      rcases hcol with hd | hc
      · cases hd with
        | exact hsp' hlk' => simp [EntryList.lookup] at hlk'
        | deeper hsp' hlk' hrec' => simp [EntryList.lookup] at hlk'
      · cases hc with
        | conflict hsp' hlk' => simp [EntryList.lookup] at hlk'
        | deeper hsp' hlk' hrec' => simp [EntryList.lookup] at hlk'
    have hesempty : es.isEmpty = false := by
      cases es with
      | nil => exact absurd rfl hesne
      | cons a b c => rfl
    simp only [Node.remove, Node.load]
    match hsp : split_key name with
    | none => exact absurd (split_key_eq_none hsp) (collision_name_ne_nil hcol)
    | some (elem, some path) =>
      simp only [hsp]
      match hlk : es.lookup elem with
      | some (.Directory nd) =>
        simp only [hlk]
        have hrec := remove_collision_noop st fuel (s := s) (lookup_entryWf hes hlk).2
          ((collision_inv_dir hsp hlk).mp hcol) (key_length_step hsp hf)
        rw [hrec]
        simp only [Bool.false_eq_true, if_false, false_or, or_self]
        rw [EntryList.insert_self hes hlk]
        simp [hesempty]
      | some (.File t) =>
        simp [hlk, hesempty]
      | none => exact absurd hcol (collision_not_deep_miss hsp hlk)
    | some (elem, none) =>
      simp only [hsp]
      match hlk : es.lookup elem with
      | some (.Directory nd) => simp [hlk, hesempty]
      | some (.File t) => exact absurd hcol (collision_not_flat_file hsp hlk)
      | none => exact absurd hcol (collision_not_flat_miss hsp hlk)

/-- With enough fuel, `has_dir` on a well-formed tree answers true exactly
when the key names an existing directory. -/
theorem has_dir_true_iff (st : Storable T) : ∀ (fuel : Nat) {s : Store} {n : Node T}
    {name : Key}, n.Wf → name ≠ [] → name.length ≤ fuel →
    (Node.has_dir st fuel s n name = .ok true ↔ DirPath n name)
  | 0, s, n, name => by
    intro _ hne hf
    exact absurd (List.length_pos.mpr hne) (by omega)
  | fuel + 1, s, n, name => by
    intro hwf hne hf
    obtain ⟨i, es, rfl, hes⟩ := Node.Wf_shape hwf
    simp only [Node.has_dir, Node.load]
    match hsp : split_key name with
    | none =>
      obtain ⟨_, _, hcontra⟩ := (c9_split_key_empty_key_panics st).2.1 name hne
      rw [hsp] at hcontra
      cases hcontra.1
    | some (elem, some path) =>
      simp only [hsp]
      have hspec := split_key_some_spec hsp
      match hlk : es.lookup elem with
      | some (.Directory nd) =>
        simp only [hlk]
        rw [has_dir_true_iff st fuel (lookup_entryWf hes hlk).2 hspec.2.2
          (key_length_step hsp hf)]
        constructor
        · intro h
          exact DirPath.deeper hsp hlk h
        · intro h
          cases h with
          | exact hsp' hlk' =>
            rw [hsp'] at hsp
            cases hsp
          | deeper hsp' hlk' hd =>
            rw [hsp'] at hsp
            cases hsp
            rw [hlk'] at hlk
            cases hlk
            exact hd
      | some (.File t) =>
        simp only [hlk]
        constructor
        · intro h
          simp at h
        · intro h
          cases h with
          | exact hsp' hlk' =>
            rw [hsp'] at hsp
            cases hsp
          | deeper hsp' hlk' hd =>
            rw [hsp'] at hsp
            cases hsp
            rw [hlk'] at hlk
            cases hlk
      | none =>
        simp only [hlk]
        constructor
        · intro h
          simp at h
        · intro h
          cases h with
          | exact hsp' hlk' =>
            rw [hsp'] at hsp
            cases hsp
          | deeper hsp' hlk' hd =>
            rw [hsp'] at hsp
            cases hsp
            rw [hlk'] at hlk
            cases hlk
    | some (elem, none) =>
      simp only [hsp]
      match hlk : es.lookup elem with
      | some (.Directory nd) =>
        simp only [hlk, true_iff]
        exact DirPath.exact hsp hlk
      | some (.File t) =>
        simp only [hlk]
        constructor
        · intro h
          simp at h
        · intro h
          cases h with
          | exact hsp' hlk' =>
            rw [hsp'] at hsp
            cases hsp
            rw [hlk'] at hlk
            cases hlk
          | deeper hsp' hlk' hd =>
            rw [hsp'] at hsp
            cases hsp
      | none =>
        simp only [hlk]
        constructor
        · intro h
          simp at h
        · intro h
          cases h with
          | exact hsp' hlk' =>
            rw [hsp'] at hsp
            cases hsp
            rw [hlk'] at hlk
            cases hlk
          | deeper hsp' hlk' hd =>
            rw [hsp'] at hsp
            cases hsp

/-- On a file conflict, `has_dir` answers false. -/
theorem has_dir_fileConflict (st : Storable T) : ∀ (fuel : Nat) {s : Store} {n : Node T}
    {name : Key}, n.Wf → FileConflict n name → name.length ≤ fuel →
    Node.has_dir st fuel s n name = .ok false
  | 0, s, n, name => by
    intro hwf hc hf
    exact absurd (List.length_pos.mpr (collision_name_ne_nil (Or.inr hc))) (by omega)
  | fuel + 1, s, n, name => by
    intro hwf hc hf
    obtain ⟨i, es, rfl, hes⟩ := Node.Wf_shape hwf
    simp only [Node.has_dir, Node.load]
    cases hc with
    | conflict hsp hlk => simp [hsp, hlk]
    | deeper hsp hlk hrec =>
      simp only [hsp, hlk]
      exact has_dir_fileConflict st fuel (lookup_entryWf hes hlk).2 hrec
        (key_length_step hsp hf)

/-! ### Claim C6: collision behaviour of add / get / has_dir / remove -/

/-- A tree holding the single file "a/b": the top-level entry "a/" is a
directory, so the key "a/" itself is an ExactDirectory collision for `add`. -/
def c6Node : Node Bool :=
  .mk none (some (.cons [97, 47]
    (.Directory (.mk none (some (.cons [98] (.File true) .nil)))) .nil))

theorem c6Node_wf : c6Node.Wf := by
  refine ⟨⟨by decide, by decide, by decide⟩, trivial, ⟨⟨by decide, by decide⟩, trivial, trivial⟩, trivial⟩

/-- C6, counterexample.  The claim asserts that in collision situations
`has_dir` "returns false".  On the tree holding "a/b", the key "a/" is an
ExactDirectory collision — `add` panics on it — yet `has_dir` returns true,
not false (`path_recurse` maps ExactDirectory to `Ok(true)` in `has_dir`). -/
theorem c6_has_dir_collision_counterexample :
    Node.add boolStorable 2 nullStore c6Node [97, 47] true = .panic ∧
    Node.has_dir boolStorable 2 nullStore c6Node [97, 47] = .ok true :=
  ⟨rfl, rfl⟩

/-- C6 (amended).  For every well-formed tree and non-empty key (with enough
fuel to cover the key), `add` panics exactly when the key collides with the
existing tree — the full key names an existing directory (ExactDirectory) or
a proper path prefix of the key is an existing file (ConflictingFile); `get`,
`has_dir` and `remove` never panic; in those collision situations `get`
returns none and `remove` removes nothing (it returns `(false, false)` and
leaves the node unchanged), while `has_dir` returns true in the
ExactDirectory situation and false in the ConflictingFile situation. -/
theorem c6_collision_panics (st : Storable T) (fuel : Nat) (s : Store) (n : Node T)
    (name : Key) (v : T) (hwf : n.Wf) (hne : name ≠ []) (hf : name.length ≤ fuel) :
    (Node.add st fuel s n name v = .panic ↔ DirPath n name ∨ FileConflict n name) ∧
    Node.get st fuel s n name ≠ .panic ∧
    Node.has_dir st fuel s n name ≠ .panic ∧
    Node.remove st fuel s n name ≠ .panic ∧
    (DirPath n name ∨ FileConflict n name →
      Node.get st fuel s n name = .ok none ∧
      Node.remove st fuel s n name = .ok ((false, false), n)) ∧
    (DirPath n name → Node.has_dir st fuel s n name = .ok true) ∧
    (FileConflict n name → Node.has_dir st fuel s n name = .ok false) := by
  refine ⟨add_panic_iff st fuel hwf hne hf, get_no_panic st fuel hwf hne,
    has_dir_no_panic st fuel hwf hne, remove_no_panic st fuel hwf hne,
    fun hcol => ⟨get_collision_none st fuel hwf hcol hf,
      remove_collision_noop st fuel hwf hcol hf⟩,
    fun hd => (has_dir_true_iff st fuel hwf hne hf).mpr hd,
    fun hc => has_dir_fileConflict st fuel hwf hc hf⟩

/-- C6 witness: the amended theorem applied to the tree holding "a/b" at the
ExactDirectory key "a/". -/
theorem c6_collision_panics_witness :
    Node.add boolStorable 2 nullStore c6Node [97, 47] true = .panic ∧
    Node.get boolStorable 2 nullStore c6Node [97, 47] = .ok none ∧
    Node.remove boolStorable 2 nullStore c6Node [97, 47] =
      .ok ((false, false), c6Node) ∧
    Node.has_dir boolStorable 2 nullStore c6Node [97, 47] = .ok true := by
  have h := c6_collision_panics boolStorable 2 nullStore c6Node [97, 47] true
    c6Node_wf (by decide) (by decide)
  have hd : DirPath c6Node [97, 47] := DirPath.exact rfl rfl
  exact ⟨h.1.mpr (Or.inl hd), (h.2.2.2.2.1 (Or.inl hd)).1,
    (h.2.2.2.2.1 (Or.inl hd)).2, h.2.2.2.2.2.1 hd⟩

/-! ### Claim C7: has_dir characterization and the 16-file fixture -/

/-- Byte string of an ASCII path, for writing fixture keys readably. -/
def bytes (s : String) : Key := s.data.map Char.toNat

/-- With loaded, well-formed nodes and enough fuel `has_dir` always answers:
it returns `.ok` of some boolean (never an error, panic or fuel exhaustion). -/
theorem has_dir_total (st : Storable T) : ∀ (fuel : Nat) {s : Store} {n : Node T}
    {name : Key}, n.Wf → name ≠ [] → name.length ≤ fuel →
    ∃ b : Bool, Node.has_dir st fuel s n name = .ok b
  | 0, s, n, name => by
    intro _ hne hf
    exact absurd (List.length_pos.mpr hne) (by omega)
  | fuel + 1, s, n, name => by
    intro hwf hne hf
    obtain ⟨i, es, rfl, hes⟩ := Node.Wf_shape hwf
    simp only [Node.has_dir, Node.load]
    match hsp : split_key name with
    | none =>
      obtain ⟨_, _, hcontra⟩ := (c9_split_key_empty_key_panics st).2.1 name hne
      rw [hsp] at hcontra
      cases hcontra.1
    | some (elem, some path) =>
      simp only
      match hlk : es.lookup elem with
      | some (.Directory nd) =>
        exact has_dir_total st fuel (lookup_entryWf hes hlk).2
          (split_key_some_spec hsp).2.2 (key_length_step hsp hf)
      | some (.File t) => exact ⟨false, rfl⟩
      | none => exact ⟨false, rfl⟩
    | some (elem, none) =>
      simp only
      match hlk : es.lookup elem with
      | some (.Directory nd) => exact ⟨true, rfl⟩
      | some (.File t) => exact ⟨false, rfl⟩
      | none => exact ⟨false, rfl⟩

/-- The add operations of the 16-file test fixture, in the order the test
issues them. -/
def fixtureOps : List (Op Bool) :=
  [.addOp (bytes ("dirA/subdira/file1")) true,
   .addOp (bytes ("dirA/subdira/file2")) true,
   .addOp (bytes ("dirA/subdirb/file3")) true,
   .addOp (bytes ("dirB/subdira/file4")) true,
   .addOp (bytes ("dirB/subdira/subsubdirx/file5")) true,
   .addOp (bytes ("dirB/subdira/subsubdiry/file6")) true,
   .addOp (bytes ("dirB/subdira/subsubdirz/file7")) true,
   .addOp (bytes ("dirB/subdira/subsubdirz/file8")) true,
   .addOp (bytes ("dirB/subdirb/file10")) true,
   .addOp (bytes ("dirB/subdirb/file9")) true,
   .addOp (bytes ("dirC/file11")) true,
   .addOp (bytes ("dirC/file12")) true,
   .addOp (bytes ("dirC/file13")) true,
   .addOp (bytes ("dirC/file14")) true,
   .addOp (bytes ("dirC/file15")) true,
   .addOp (bytes ("file16")) true]

/-- The in-memory tree those 16 adds produce (checked by `fixture_eval`). -/
def fixtureRoot : Node Bool :=
  .mk none (some (.cons [100, 105, 114, 65, 47] (.Directory (.mk none (some (.cons [115, 117, 98, 100, 105, 114, 97, 47] (.Directory (.mk none (some (.cons [102, 105, 108, 101, 49] (.File true)
        (.cons [102, 105, 108, 101, 50] (.File true)
          .nil)))))
      (.cons [115, 117, 98, 100, 105, 114, 98, 47] (.Directory (.mk none (some (.cons [102, 105, 108, 101, 51] (.File true)
          .nil))))
        .nil)))))
    (.cons [100, 105, 114, 66, 47] (.Directory (.mk none (some (.cons [115, 117, 98, 100, 105, 114, 97, 47] (.Directory (.mk none (some (.cons [102, 105, 108, 101, 52] (.File true)
          (.cons [115, 117, 98, 115, 117, 98, 100, 105, 114, 120, 47] (.Directory (.mk none (some (.cons [102, 105, 108, 101, 53] (.File true)
              .nil))))
            (.cons [115, 117, 98, 115, 117, 98, 100, 105, 114, 121, 47] (.Directory (.mk none (some (.cons [102, 105, 108, 101, 54] (.File true)
                .nil))))
              (.cons [115, 117, 98, 115, 117, 98, 100, 105, 114, 122, 47] (.Directory (.mk none (some (.cons [102, 105, 108, 101, 55] (.File true)
                  (.cons [102, 105, 108, 101, 56] (.File true)
                    .nil)))))
                .nil)))))))
        (.cons [115, 117, 98, 100, 105, 114, 98, 47] (.Directory (.mk none (some (.cons [102, 105, 108, 101, 49, 48] (.File true)
            (.cons [102, 105, 108, 101, 57] (.File true)
              .nil)))))
          .nil)))))
      (.cons [100, 105, 114, 67, 47] (.Directory (.mk none (some (.cons [102, 105, 108, 101, 49, 49] (.File true)
          (.cons [102, 105, 108, 101, 49, 50] (.File true)
            (.cons [102, 105, 108, 101, 49, 51] (.File true)
              (.cons [102, 105, 108, 101, 49, 52] (.File true)
                (.cons [102, 105, 108, 101, 49, 53] (.File true)
                  .nil))))))))
        (.cons [102, 105, 108, 101, 49, 54] (.File true)
          .nil)))))

/-- The fixture tree with its file count. -/
def fixtureTree : Tree Bool := ⟨fixtureRoot, 16⟩

theorem fixture_eval :
    applyOps boolStorable nullStore fixtureOps Tree.new = .ok fixtureTree := rfl

/-- A tree holding the single file "d/f", for instantiating C7. -/
def c7Node : Node Bool :=
  .mk none (some (.cons [100, 47]
    (.Directory (.mk none (some (.cons [102] (.File true) .nil)))) .nil))

theorem c7Node_wf : c7Node.Wf :=
  ⟨⟨by decide, by decide, by decide⟩, trivial, ⟨⟨by decide, by decide⟩, trivial, trivial⟩, trivial⟩

/-- C7: for a well-formed tree and non-empty key (with fuel covering the key),
`has_dir` returns true exactly when the key descends component by component
through existing directories and its final component (with its terminal
slash) names an existing directory entry — the `DirPath` relation; any other
key (reaching a file, a missing entry, or a conflicting file) returns false.
In the 16-file fixture, "dirB/subdira/subsubdirz/" yields true while
"dirB/subdira/subsubdirz/file7" and "dirB/subdira/subsubdirz/file7/" yield
false. -/
theorem c7_has_dir_characterization (st : Storable T) (fuel : Nat) (s : Store)
    (n : Node T) (name : Key) (hwf : n.Wf) (hne : name ≠ [])
    (hf : name.length ≤ fuel) :
    (Node.has_dir st fuel s n name = .ok true ↔ DirPath n name) ∧
    (¬ DirPath n name → Node.has_dir st fuel s n name = .ok false) ∧
    (∀ t : Tree Bool, applyOps boolStorable nullStore fixtureOps Tree.new = .ok t →
      Tree.has_dir boolStorable 32 nullStore t (bytes ("dirB/subdira/subsubdirz/")) = .ok true ∧
      Tree.has_dir boolStorable 32 nullStore t (bytes ("dirB/subdira/subsubdirz/file7")) = .ok false ∧
      Tree.has_dir boolStorable 32 nullStore t (bytes ("dirB/subdira/subsubdirz/file7/")) = .ok false) := by
  refine ⟨has_dir_true_iff st fuel hwf hne hf, ?_, ?_⟩
  · intro hnd
    obtain ⟨b, hb⟩ := has_dir_total st fuel hwf hne hf
    cases b with
    | true => exact absurd ((has_dir_true_iff st fuel hwf hne hf).mp hb) hnd
    | false => exact hb
  · intro t ht
    rw [fixture_eval] at ht
    cases ht
    exact ⟨rfl, rfl, rfl⟩

/-- C7 witness: the characterization applied to the tree holding "d/f" at
key "d/", together with the three fixture evaluations. -/
theorem c7_has_dir_characterization_witness :
    Node.has_dir boolStorable 2 nullStore c7Node [100, 47] = .ok true ∧
    Tree.has_dir boolStorable 32 nullStore fixtureTree (bytes ("dirB/subdira/subsubdirz/")) = .ok true ∧
    Tree.has_dir boolStorable 32 nullStore fixtureTree (bytes ("dirB/subdira/subsubdirz/file7")) = .ok false ∧
    Tree.has_dir boolStorable 32 nullStore fixtureTree (bytes ("dirB/subdira/subsubdirz/file7/")) = .ok false := by
  have h := c7_has_dir_characterization boolStorable 2 nullStore c7Node [100, 47]
    c7Node_wf (by decide) (by decide)
  have hfx := h.2.2 fixtureTree fixture_eval
  exact ⟨h.1.mpr (DirPath.exact rfl rfl), hfx.1, hfx.2.1, hfx.2.2⟩

/-! ### Claim C8: directory cleanup on remove -/

theorem ltHeadKey_of_lt {k k' : Key} : ∀ {es : EntryList T}, k < k' →
    ltHeadKey k' es → ltHeadKey k es
  | .nil, _, _ => trivial
  | .cons k'' e rest, h1, h2 => by
    simp only [ltHeadKey] at h2 ⊢
    exact lt_trans h1 h2

/-- A key strictly below every key of a sorted list is not bound in it. -/
theorem EntryList.lookup_lt_none : ∀ {es : EntryList T}, es.Wf → ∀ {k : Key},
    ltHeadKey k es → es.lookup k = none
  | .nil, _, k, _ => rfl
  | .cons k' e rest, hwf, k, hlt => by
    obtain ⟨hc, hlt', hrest⟩ := EntryList.Wf_inv hwf
    simp only [ltHeadKey] at hlt
    simp only [EntryList.lookup]
    rw [if_neg (ne_of_lt hlt)]
    exact lookup_lt_none hrest (ltHeadKey_of_lt hlt hlt')

/-- After `VecMap::remove`, the removed key is no longer bound. -/
theorem EntryList.lookup_remove_self : ∀ {es : EntryList T}, es.Wf → ∀ (k : Key),
    (es.remove k).lookup k = none
  | .nil, _, k => rfl
  | .cons k' e rest, hwf, k => by
    obtain ⟨hc, hlt, hrest⟩ := EntryList.Wf_inv hwf
    simp only [EntryList.remove]
    by_cases hk : k = k'
    · rw [if_pos hk]
      subst hk
      exact lookup_lt_none hrest hlt
    · rw [if_neg hk]
      simp only [EntryList.lookup]
      rw [if_neg hk]
      exact lookup_remove_self hrest k

/-- After `VecMap::insert`, the inserted key is bound to the new entry. -/
theorem EntryList.lookup_insert_self : ∀ (es : EntryList T) (k : Key) (e : NodeEntry T),
    (es.insert k e).lookup k = some e
  | .nil, k, e => by simp [EntryList.insert, EntryList.lookup]
  | .cons k' e' rest, k, e => by
    simp only [EntryList.insert]
    by_cases h1 : k < k'
    · rw [if_pos h1]
      simp [EntryList.lookup]
    · rw [if_neg h1]
      by_cases h2 : k = k'
      · rw [if_pos h2]
        simp [EntryList.lookup]
      · rw [if_neg h2]
        simp only [EntryList.lookup]
        rw [if_neg h2]
        exact lookup_insert_self rest k e

/-- The id caches are cleared on every node along (the still-existing part
of) the path `name`: the spec-side reading of "every node on a mutated path
has its id cleared". -/
def Node.idsClearedAlong : Nat → Node T → Key → Bool
  | 0, _, _ => true
  | fuel + 1, n, name =>
    match n.id with
    | some _ => false
    | none =>
      match split_key name, n.entries with
      | some (elem, some path), some es =>
        match es.lookup elem with
        | some (.Directory nd) => Node.idsClearedAlong fuel nd path
        | _ => true
      | _, _ => true

/-- When `remove` removed a file, every node remaining on the removed key's
path has a cleared id. -/
theorem remove_ids (st : Storable T) : ∀ (fuel : Nat) {s : Store} {n : Node T}
    {name : Key} {ne : Bool} {n' : Node T},
    Node.remove st fuel s n name = .ok ((true, ne), n') → n.Wf →
    Node.idsClearedAlong fuel n' name = true
  | 0, s, n, name, ne, n' => by
    intro h _
    simp [Node.remove] at h
  | fuel + 1, s, n, name, ne, n' => by
    intro h hwf
    obtain ⟨i, es, rfl, hes⟩ := Node.Wf_shape hwf
    simp only [Node.remove, Node.load] at h
    match hsp : split_key name with
    | none => simp [hsp] at h
    | some (elem, some path) =>
      simp only [hsp] at h
      match hlk : es.lookup elem with
      | some (.Directory nd) =>
        simp only [hlk] at h
        match hrec : Node.remove st fuel s nd path with
        | .ok ((fr0, ne0), nd') =>
          simp only [hrec] at h
          cases h
          by_cases hne0 : ne0 = true
          · subst hne0
            show Node.idsClearedAlong (fuel + 1) (.mk none (some (es.remove elem))) name = true
            simp only [Node.idsClearedAlong, Node.id, Node.entries, hsp,
              EntryList.lookup_remove_self hes elem]
          · have hne0f : ne0 = false := by
              cases ne0
              · rfl
              · exact absurd rfl hne0
            subst hne0f
            show Node.idsClearedAlong (fuel + 1)
              (.mk none (some (es.insert elem (.Directory nd')))) name = true
            simp only [Node.idsClearedAlong, Node.id, Node.entries, hsp,
              EntryList.lookup_insert_self]
            exact remove_ids st fuel hrec (lookup_entryWf hes hlk).2
        | .err e => simp [hrec] at h
        | .panic => simp [hrec] at h
        | .fuelOut => simp [hrec] at h
      | some (.File t) =>
        simp only [hlk] at h
        simp at h
      | none =>
        simp only [hlk] at h
        simp at h
    | some (elem, none) =>
      simp only [hsp] at h
      match hlk : es.lookup elem with
      | some (.Directory nd) =>
        simp only [hlk] at h
        simp at h
      | some (.File t) =>
        simp only [hlk] at h
        cases h
        show Node.idsClearedAlong (fuel + 1) (.mk none (some (es.remove elem))) name = true
        simp only [Node.idsClearedAlong, Node.id, Node.entries, hsp]
      | none =>
        simp only [hlk] at h
        simp at h

theorem rootNeDirs_of_NeDirs : ∀ {n : Node T}, n.NeDirs → rootNeDirs n
  | .mk i none, h => False.elim h
  | .mk i (some es), h => h.2

mutual
/-- Under the no-empty-directories invariant a well-formed node holds at
least one file. -/
theorem Node.flat_ne_of_NeDirs : ∀ {n : Node T}, n.NeDirs → n.Wf → n.flat ≠ []
  | .mk i none, hne, _ => False.elim hne
  | .mk i (some es), hne, hwf => by
    simp only [node_flat_mk]
    exact EntryList.flatL_ne_of_NeDirs hne.1 hne.2 hwf

/-- A non-empty entry list whose directories are all non-empty holds at
least one file. -/
theorem EntryList.flatL_ne_of_NeDirs : ∀ {es : EntryList T}, es ≠ .nil → es.NeDirs →
    es.Wf → es.flat ≠ []
  | .nil, hne, _, _ => absurd rfl hne
  | .cons k (.File t) rest, _, hnd, hwf => by
    simp [flat_cons, sectionFlat]
  | .cons k (.Directory nd) rest, _, hnd, hwf => by
    rw [flat_cons]
    intro hcontra
    rcases List.append_eq_nil.mp hcontra with ⟨h1, h2⟩
    have hndne := Node.flat_ne_of_NeDirs hnd.1 (EntryList.Wf_dir_inv hwf).2
    simp only [sectionFlat] at h1
    exact hndne (List.map_eq_nil_iff.mp h1)
end

/-- Under the tree invariants, every directory path that `has_dir` affirms
has at least one file strictly below it. -/
theorem dirpath_file_below : ∀ {n : Node T} {p : Key}, n.Wf → rootNeDirs n →
    DirPath n p → ∃ k v, (k, v) ∈ n.flat ∧ ∃ r : Key, k = p ++ r
  | .mk i (some es), p, hwf, hne, @DirPath.exact _ _ _ _ elem nd hsp hlk => by
    have hes : EntryList.Wf es := hwf
    have hesne : EntryList.NeDirs es := hne
    obtain ⟨heq, _⟩ := split_key_none_spec hsp
    subst heq
    have hndwf := (lookup_entryWf hes hlk).2
    have hndne : Node.NeDirs nd := lookup_entryNe hesne hlk
    have hflatne := Node.flat_ne_of_NeDirs hndne hndwf
    obtain ⟨pre, post, hdecf, _, _, _, _⟩ := decomp_lookup_some hes hlk
    match hq : nd.flat with
    | [] => exact absurd hq hflatne
    | (k0, v) :: qrest =>
      refine ⟨elem ++ k0, v, ?_, k0, rfl⟩
      rw [node_flat_mk, hdecf]
      refine List.mem_append.mpr (Or.inl (List.mem_append.mpr (Or.inr ?_)))
      simp only [sectionFlat, List.mem_map]
      exact ⟨(k0, v), by rw [hq]; exact List.mem_cons_self _ _, rfl⟩
  | .mk i (some es), p, hwf, hne, @DirPath.deeper _ _ _ _ elem path nd hsp hlk hd => by
    have hes : EntryList.Wf es := hwf
    have hesne : EntryList.NeDirs es := hne
    obtain ⟨hname, helem, hpath⟩ := split_key_some_spec hsp
    have hndwf := (lookup_entryWf hes hlk).2
    have hndne : Node.NeDirs nd := lookup_entryNe hesne hlk
    obtain ⟨k0, v, hmem, r, hk0⟩ :=
      dirpath_file_below hndwf (rootNeDirs_of_NeDirs hndne) hd
    obtain ⟨pre, post, hdecf, _, _, _, _⟩ := decomp_lookup_some hes hlk
    refine ⟨elem ++ k0, v, ?_, r, by rw [hname, hk0, List.append_assoc]⟩
    rw [node_flat_mk, hdecf]
    refine List.mem_append.mpr (Or.inl (List.mem_append.mpr (Or.inr ?_)))
    simp only [sectionFlat, List.mem_map]
    exact ⟨(k0, v), hmem, rfl⟩
termination_by n p hwf hne hd => p.length
decreasing_by
  simp only [hname, List.length_append]
  have := List.length_pos.mpr helem.1
  omega

/-- C8: on a tree satisfying the add/remove invariants (well-formed, no empty
non-root directories — established for every tree built by `add` and `remove`
by `applyOps_inv` and `applyOps_ne`), a successful `remove` leaves exactly the
old files minus the removed key (so every directory emptied by the removal,
ancestors included, is detached); its `now_empty` answer is the emptiness of
the node's entry map after the local mutation; when a file was removed, the
root id and the id of every node remaining on the removed key's path are
cleared; and `has_dir` subsequently answers false on every path (in
particular each emptied ancestor directory) that no longer has a file below
it. -/
theorem c8_directory_cleanup (st : Storable T) (fuel : Nat) (s : Store)
    {n n' : Node T} {name : Key} {fr ne : Bool}
    (h : Node.remove st fuel s n name = .ok ((fr, ne), n'))
    (hwf : n.Wf) (hne : rootNeDirs n) :
    n'.flat = flatErase name n.flat ∧
    (∃ es', n'.entries = some es' ∧ ne = es'.isEmpty) ∧
    (fr = true → n'.id = none ∧ Node.idsClearedAlong fuel n' name = true) ∧
    (∀ p : Key, p ≠ [] → p.length ≤ fuel →
      (∀ k v, (k, v) ∈ n'.flat → ∀ r : Key, k ≠ p ++ r) →
      Node.has_dir st fuel s n' p = .ok false) := by
  obtain ⟨hwf', hflat', hiff', hne', hid'⟩ := Node.remove_spec st fuel h hwf
  refine ⟨hflat', hne', fun hfr => ⟨hid' hfr, ?_⟩, ?_⟩
  · subst hfr
    exact remove_ids st fuel h hwf
  · intro p hp hpf hnofile
    have hnd' : rootNeDirs n' := (Node.remove_ne st fuel h hne).1
    have hndp : ¬ DirPath n' p := by
      intro hdp
      obtain ⟨k, v, hkmem, r, hkr⟩ := dirpath_file_below hwf' hnd' hdp
      exact hnofile k v hkmem r hkr
    obtain ⟨b, hb⟩ := has_dir_total st fuel hwf' hp hpf
    cases b with
    | true => exact absurd ((has_dir_true_iff st fuel hwf' hp hpf).mp hb) hndp
    | false => exact hb

/-- A tree holding the single file "a/b", for instantiating C8. -/
def c8Node : Node Bool :=
  .mk none (some (.cons [97, 47]
    (.Directory (.mk none (some (.cons [98] (.File true) .nil)))) .nil))

theorem c8Node_wf : c8Node.Wf :=
  ⟨⟨by decide, by decide, by decide⟩, trivial, ⟨⟨by decide, by decide⟩, trivial, trivial⟩, trivial⟩

theorem c8Node_nedirs : rootNeDirs c8Node :=
  ⟨⟨fun h => EntryList.noConfusion h, trivial⟩, trivial⟩

/-- C8 witness: removing "a/b" — the last file under "a/" — from the tree
holding it leaves no files, clears the ids along the path, reports
`(file_removed, now_empty) = (true, true)`, and `has_dir "a/"` then answers
false. -/
theorem c8_directory_cleanup_witness :
    (Node.mk none (some EntryList.nil) : Node Bool).flat =
      flatErase [97, 47, 98] c8Node.flat ∧
    Node.idsClearedAlong 3 (Node.mk none (some EntryList.nil) : Node Bool)
      [97, 47, 98] = true ∧
    Node.has_dir boolStorable 3 nullStore
      (Node.mk none (some EntryList.nil) : Node Bool) [97, 47] = .ok false := by
  have hrm : Node.remove boolStorable 3 nullStore c8Node [97, 47, 98] =
      .ok ((true, true), Node.mk none (some EntryList.nil)) := rfl
  have h := c8_directory_cleanup boolStorable 3 nullStore hrm c8Node_wf c8Node_nedirs
  refine ⟨h.1, (h.2.2.1 rfl).2, h.2.2.2 [97, 47] (by decide) (by decide) ?_⟩
  intro k v hk
  simp [Node.flat, EntryList.flat] at hk

/-! ### Claim C1: ordered iteration via get_first / get_next -/

mutual
/-- A fuel measure dominating every nested call the iteration functions make
below a node. -/
def Node.size : Node T → Nat
  | .mk _ none => 1
  | .mk _ (some es) => es.size + 1

/-- Entry-list part of the fuel measure. -/
def EntryList.size : EntryList T → Nat
  | .nil => 1
  | .cons _ (.File _) rest => rest.size + 1
  | .cons _ (.Directory nd) rest => nd.size + rest.size + 1
end

/-- Convert the reversed component stack returned by the node-level iterator
into the full key, as the `Tree` wrappers do. -/
def toKeyed : List Key × T → Key × T := fun q => (q.1.reverse.flatten, q.2)

/-- The first file, in tree order, whose full key is strictly greater than
`name`: the specification of resuming iteration after `name`. -/
def findNext (name : Key) (l : List (Key × T)) : Option (Key × T) :=
  l.find? fun q => decide (name < q.1)

theorem Node.size_pos : ∀ n : Node T, 1 ≤ n.size
  | .mk _ none => le_refl _
  | .mk _ (some es) => Nat.le_add_left 1 es.size

theorem EntryList.sizeL_pos : ∀ es : EntryList T, 1 ≤ es.size
  | .nil => le_refl _
  | .cons _ (.File _) rest => Nat.le_add_left 1 _
  | .cons _ (.Directory _) rest => Nat.le_add_left 1 _

theorem seekGe_size_le : ∀ (es : EntryList T) (k : Key), (es.seekGe k).size ≤ es.size
  | .nil, k => le_refl _
  | .cons k' e rest, k => by
    simp only [EntryList.seekGe]
    by_cases h : k' < k
    · rw [if_pos h]
      refine le_trans (seekGe_size_le rest k) ?_
      cases e with
      | File t => simp only [EntryList.size]; omega
      | Directory nd => simp only [EntryList.size]; omega
    · rw [if_neg h]

theorem keys_gt {k : Key} : ∀ {es : EntryList T}, es.Wf → ltHeadKey k es →
    ∀ k' ∈ es.keys, k < k'
  | .nil, _, _ => by simp [EntryList.keys]
  | .cons k0 e rest, hwf, hlt => by
    intro k' hk'
    obtain ⟨_, hlt0, hrest⟩ := EntryList.Wf_inv hwf
    simp only [ltHeadKey] at hlt
    simp only [EntryList.keys, List.mem_cons] at hk'
    cases hk' with
    | inl h => exact h ▸ hlt
    | inr h => exact keys_gt hrest (ltHeadKey_of_lt hlt hlt0) k' h

/-- Full keys of files are never empty. -/
theorem flat_fst_ne_nil {es : EntryList T} (hwf : es.Wf) :
    ∀ q ∈ es.flat, q.1 ≠ [] := by
  intro q hq
  obtain ⟨k, s, hk, hq1⟩ := EntryList.flat_shape q hq
  have hc := EntryList.keys_components hwf k hk
  rw [hq1]
  intro hcontra
  rcases List.append_eq_nil.mp hcontra with ⟨h1, _⟩
  exact hc.1 h1

theorem findNext_skip_all {name : Key} {l1 : List (Key × T)}
    (h : ∀ q ∈ l1, ¬ name < q.1) : findNext name l1 = none := by
  apply List.find?_eq_none.mpr
  intro q hq
  simpa using h q hq

theorem findNext_hit_all {name : Key} : ∀ {l : List (Key × T)},
    (∀ q ∈ l, name < q.1) → findNext name l = l.head?
  | [], _ => rfl
  | q :: t, h => by
    simp only [findNext]
    rw [List.find?_cons_of_pos]
    · rfl
    · simpa using h q (List.mem_cons_self q t)

/-- `seekGe` keeps a well-formed suffix bounded below by the sought key and
drops no resumption candidate: over keys obtained from `split_key`, every file
in a dropped section sorts before (or at) the resumption key. -/
theorem seekGe_spec {elem pathD name : Key} (hname : name = elem ++ pathD)
    (hfe : fileComponent elem) :
    ∀ {es : EntryList T}, es.Wf →
    (es.seekGe elem).Wf ∧ (∀ k ∈ (es.seekGe elem).keys, elem ≤ k) ∧
    findNext name es.flat = findNext name (es.seekGe elem).flat
  | .nil, _ => ⟨trivial, by simp [EntryList.seekGe, EntryList.keys], rfl⟩
  | .cons k0 e0 rest, hwf => by
    obtain ⟨hc0, hlt0, hrest⟩ := EntryList.Wf_inv hwf
    simp only [EntryList.seekGe]
    by_cases hk : k0 < elem
    · rw [if_pos hk]
      obtain ⟨h1, h2, h3⟩ := seekGe_spec hname hfe hrest
      refine ⟨h1, h2, ?_⟩
      rw [flat_cons, findNext, List.find?_append, ← findNext, ← findNext,
        findNext_skip_all ?_, Option.none_or, h3]
      intro q hq
      cases e0 with
      | File t =>
        simp only [sectionFlat, List.mem_singleton] at hq
        subst hq
        have := comp_append_lt hk hfe [] pathD (Or.inl rfl)
        rw [List.append_nil, ← hname] at this
        exact lt_asymm this
      | Directory nd =>
        simp only [sectionFlat, List.mem_map] at hq
        obtain ⟨q0, _, rfl⟩ := hq
        have hdc0 := (EntryList.Wf_dir_inv hwf).1
        have := comp_append_lt hk hfe q0.1 pathD (Or.inr hdc0)
        rw [← hname] at this
        exact lt_asymm this
    · rw [if_neg hk]
      have hle : elem ≤ k0 := le_of_not_lt hk
      refine ⟨hwf, ?_, rfl⟩
      intro k' hk'
      simp only [EntryList.keys, List.mem_cons] at hk'
      cases hk' with
      | inl h => exact h ▸ hle
      | inr h => exact le_of_lt (lt_of_le_of_lt hle (keys_gt hrest hlt0 k' h))

/-- Every file in an entry list whose keys all sort strictly above the
resumption component sorts strictly above the resumption key itself. -/
theorem flat_all_gt {elem pathD name : Key} (hname : name = elem ++ pathD)
    (hd : pathD = [] ∨ dirComponent elem) {es : EntryList T} (hwf : es.Wf)
    (hgt : ∀ k ∈ es.keys, elem < k) : ∀ q ∈ es.flat, name < q.1 := by
  intro q hq
  obtain ⟨k, s, hk, hq1⟩ := EntryList.flat_shape q hq
  have hfc := EntryList.keys_components hwf k hk
  rw [hq1, hname]
  exact comp_append_lt (hgt k hk) hfc pathD s hd

mutual
/-- `get_first` returns the head of the node's ordered file listing. -/
theorem get_first_spec (st : Storable T) : ∀ (fuel : Nat) {s : Store} {n : Node T},
    n.Wf → Node.size n ≤ fuel →
    ∃ r, Node.get_first st fuel s n = .ok r ∧ r.map toKeyed = n.flat.head?
  | 0, s, n => by
    intro _ hsz
    exact absurd (le_trans (Node.size_pos n) hsz) (by omega)
  | fuel + 1, s, n => by
    intro hwf hsz
    obtain ⟨i, es, rfl, hes⟩ := Node.Wf_shape hwf
    simp only [Node.get_first, Node.load, node_flat_mk]
    refine getFirstEntries_spec st fuel hes ?_
    simp only [Node.size] at hsz
    omega

/-- The entry loop of `get_first` returns the head of the list's ordered
file listing. -/
theorem getFirstEntries_spec (st : Storable T) : ∀ (fuel : Nat) {s : Store}
    {es : EntryList T}, es.Wf → EntryList.size es ≤ fuel →
    ∃ r, getFirstEntries st fuel s es = .ok r ∧ r.map toKeyed = es.flat.head?
  | 0, s, es => by
    intro _ hsz
    exact absurd (le_trans (EntryList.sizeL_pos es) hsz) (by omega)
  | fuel + 1, s, .nil => by
    intro _ _
    exact ⟨none, rfl, rfl⟩
  | fuel + 1, s, .cons name (.File t) rest => by
    intro hwf _
    refine ⟨some ([name], t), rfl, ?_⟩
    simp [toKeyed, flat_cons, sectionFlat]
  | fuel + 1, s, .cons name (.Directory nd) rest => by
    intro hwf hsz
    obtain ⟨hdc, hndwf⟩ := EntryList.Wf_dir_inv hwf
    have hrestwf := (EntryList.Wf_inv hwf).2.2
    have hszn : Node.size nd ≤ fuel := by
      simp only [EntryList.size] at hsz
      omega
    have hszr : EntryList.size rest ≤ fuel := by
      simp only [EntryList.size] at hsz
      omega
    obtain ⟨r0, hr0, hm0⟩ := get_first_spec st fuel (s := s) hndwf hszn
    simp only [getFirstEntries, hr0]
    match r0, hm0 with
    | some (p0, t0), hm0 =>
      refine ⟨some (p0 ++ [name], t0), rfl, ?_⟩
      rw [flat_cons]
      cases hnd : nd.flat with
      | nil => rw [hnd] at hm0; simp at hm0
      | cons q tail =>
        rw [hnd] at hm0
        simp only [Option.map, List.head?] at hm0
        cases hm0
        simp [toKeyed, sectionFlat, hnd]
    | none, hm0 =>
      cases hnd : nd.flat with
      | cons q tail => rw [hnd] at hm0; simp at hm0
      | nil =>
        obtain ⟨r1, hr1, hm1⟩ := getFirstEntries_spec st fuel (s := s) hrestwf hszr
        refine ⟨r1, hr1, ?_⟩
        rw [hm1, flat_cons]
        simp [sectionFlat, hnd]
end

/-- Once the scan has moved strictly past the resumption component, the
entry loop of `get_next` degenerates to "first file of the remaining
entries", whatever the remaining subpath is. -/
theorem getNextEntries_fresh (st : Storable T) : ∀ (fuel : Nat) {s : Store}
    {elem : Key} {o : Option Key} {l : EntryList T}, l.Wf →
    EntryList.size l ≤ fuel → (∀ k ∈ EntryList.keys l, elem < k) →
    ∃ r, getNextEntries st fuel s elem o l = .ok r ∧
      r.map toKeyed = l.flat.head?
  | 0, s, elem, o, l => by
    intro _ hsz _
    exact absurd (le_trans (EntryList.sizeL_pos l) hsz) (by omega)
  | fuel + 1, s, elem, o, .nil => by
    intro _ _ _
    exact ⟨none, rfl, rfl⟩
  | fuel + 1, s, elem, o, .cons k0 (.File t) rest => by
    intro hwf hsz hgt
    have hne : elem ≠ k0 := ne_of_lt (hgt k0 (by simp [EntryList.keys]))
    simp only [getNextEntries]
    rw [if_pos hne]
    refine ⟨some ([k0], t), rfl, ?_⟩
    simp [toKeyed, flat_cons, sectionFlat]
  | fuel + 1, s, elem, o, .cons k0 (.Directory nd) rest => by
    intro hwf hsz hgt
    have hne : elem ≠ k0 := ne_of_lt (hgt k0 (by simp [EntryList.keys]))
    obtain ⟨hdc, hndwf⟩ := EntryList.Wf_dir_inv hwf
    have hrestwf := (EntryList.Wf_inv hwf).2.2
    have hszn : Node.size nd ≤ fuel := by
      simp only [EntryList.size] at hsz
      omega
    have hszr : EntryList.size rest ≤ fuel := by
      simp only [EntryList.size] at hsz
      omega
    obtain ⟨r0, hr0, hm0⟩ := get_first_spec st fuel (s := s) hndwf hszn
    simp only [getNextEntries]
    rw [if_pos hne]
    simp only [hr0]
    match r0, hm0 with
    | some (p0, t0), hm0 =>
      refine ⟨some (p0 ++ [k0], t0), rfl, ?_⟩
      rw [flat_cons]
      cases hnd : nd.flat with
      | nil => rw [hnd] at hm0; simp at hm0
      | cons q tail =>
        rw [hnd] at hm0
        simp only [Option.map, List.head?] at hm0
        cases hm0
        simp [toKeyed, sectionFlat, hnd]
    | none, hm0 =>
      cases hnd : nd.flat with
      | cons q tail => rw [hnd] at hm0; simp at hm0
      | nil =>
        obtain ⟨r1, hr1, hm1⟩ := getNextEntries_fresh st fuel (s := s) hrestwf hszr
          (fun k hk => hgt k (by simp [EntryList.keys]; exact Or.inr hk))
        refine ⟨r1, hr1, ?_⟩
        rw [hm1, flat_cons]
        simp [sectionFlat, hnd]

theorem findNext_cons_skip {name : Key} {q : Key × T} {l : List (Key × T)}
    (h : ¬ name < q.1) : findNext name (q :: l) = findNext name l := by
  simp only [findNext]
  rw [List.find?_cons_of_neg]
  simp [h]

theorem findNext_cons_hit {name : Key} {q : Key × T} {l : List (Key × T)}
    (h : name < q.1) : findNext name (q :: l) = some q := by
  simp only [findNext]
  rw [List.find?_cons_of_pos]
  simp [h]

theorem Node.flat_fst_ne {n : Node T} (hwf : n.Wf) : ∀ q ∈ n.flat, q.1 ≠ [] := by
  obtain ⟨i, es, rfl, hes⟩ := Node.Wf_shape hwf
  simpa using flat_fst_ne_nil hes

mutual
/-- `get_next` returns the first file whose full key sorts strictly after the
resumption key. -/
theorem get_next_spec (st : Storable T) : ∀ (fuel : Nat) {s : Store} {n : Node T}
    {name : Key}, n.Wf → Node.size n ≤ fuel → name ≠ [] →
    ∃ r, Node.get_next st fuel s n name = .ok r ∧
      r.map toKeyed = findNext name n.flat
  | 0, s, n, name => by
    intro _ hsz _
    exact absurd (le_trans (Node.size_pos n) hsz) (by omega)
  | fuel + 1, s, n, name => by
    intro hwf hsz hne
    obtain ⟨i, es, rfl, hes⟩ := Node.Wf_shape hwf
    simp only [Node.get_next, Node.load, node_flat_mk]
    match hsp : split_key name with
    | none => exact absurd (split_key_eq_none hsp) hne
    | some (elem, pathOpt) =>
      simp only
      have hrel : name = elem ++ pathOpt.getD [] ∧ fileComponent elem ∧
          (∀ path, pathOpt = some path → dirComponent elem ∧ path ≠ []) := by
        cases pathOpt with
        | none =>
          obtain ⟨heq, hfc⟩ := split_key_none_spec hsp
          exact ⟨by simp [heq], heq ▸ hfc, by intro path hcontra; cases hcontra⟩
        | some path =>
          obtain ⟨hname, hdc, hpne⟩ := split_key_some_spec hsp
          exact ⟨by simpa using hname, hdc.toFile,
            fun p hp => by cases hp; exact ⟨hdc, hpne⟩⟩
      obtain ⟨hseWf, hseGe, hseFind⟩ := seekGe_spec hrel.1 hrel.2.1 hes
      have hszse : EntryList.size (es.seekGe elem) ≤ fuel := by
        have hle := seekGe_size_le es elem
        simp only [Node.size] at hsz
        omega
      obtain ⟨r, hr, hm⟩ := getNextEntries_anchor st fuel (s := s) hseWf hszse
        hrel.1 hrel.2.1 hrel.2.2 hseGe
      exact ⟨r, hr, hm.trans hseFind.symm⟩

/-- The entry loop of `get_next`, entered at the suffix of entries whose keys
are at least the resumption component, returns the first file sorting
strictly after the resumption key. -/
theorem getNextEntries_anchor (st : Storable T) : ∀ (fuel : Nat) {s : Store}
    {name elem : Key} {pathOpt : Option Key} {l : EntryList T}, l.Wf →
    EntryList.size l ≤ fuel → name = elem ++ pathOpt.getD [] →
    fileComponent elem →
    (∀ path, pathOpt = some path → dirComponent elem ∧ path ≠ []) →
    (∀ k ∈ EntryList.keys l, elem ≤ k) →
    ∃ r, getNextEntries st fuel s elem pathOpt l = .ok r ∧
      r.map toKeyed = findNext name l.flat
  | 0, s, name, elem, pathOpt, l => by
    intro _ hsz _ _ _ _
    exact absurd (le_trans (EntryList.sizeL_pos l) hsz) (by omega)
  | fuel + 1, s, name, elem, pathOpt, .nil => by
    intro _ _ _ _ _ _
    exact ⟨none, rfl, rfl⟩
  | fuel + 1, s, name, elem, pathOpt, .cons k0 e0 rest => by
    intro hwf hsz hname hfe hsome hge
    obtain ⟨hc0, hlt0, hrest⟩ := EntryList.Wf_inv hwf
    have hd : pathOpt.getD ([] : Key) = [] ∨ dirComponent elem := by
      cases pathOpt with
      | none => exact Or.inl rfl
      | some path => exact Or.inr (hsome path rfl).1
    rcases lt_or_eq_of_le (hge k0 (by simp [EntryList.keys])) with hlt | heq
    · have hgt : ∀ k ∈ (EntryList.cons k0 e0 rest).keys, elem < k := by
        intro k hk
        simp only [EntryList.keys, List.mem_cons] at hk
        cases hk with
        | inl h => exact h ▸ hlt
        | inr h => exact lt_trans hlt (keys_gt hrest hlt0 k h)
      obtain ⟨r, hr, hm⟩ := getNextEntries_fresh st (fuel + 1) (s := s)
        (o := pathOpt) hwf hsz hgt
      exact ⟨r, hr, hm.trans (findNext_hit_all (flat_all_gt hname hd hwf hgt)).symm⟩
    · subst heq
      have hgtr : ∀ k ∈ rest.keys, elem < k := keys_gt hrest hlt0
      have hlee : elem ≤ name := by
        rw [hname]
        cases hpd : pathOpt.getD ([] : Key) with
        | nil => simp
        | cons c cs => exact le_of_lt (key_lt_self_append elem (by simp))
      cases e0 with
      | File t =>
        have hszr : EntryList.size rest ≤ fuel := by
          simp only [EntryList.size] at hsz
          omega
        simp only [getNextEntries]
        rw [if_neg (not_not_intro rfl)]
        obtain ⟨r, hr, hm⟩ := getNextEntries_fresh st fuel (s := s)
          (o := pathOpt) hrest hszr hgtr
        refine ⟨r, hr, ?_⟩
        rw [hm, flat_cons]
        simp only [sectionFlat, List.singleton_append]
        rw [findNext_cons_skip (not_lt.mpr hlee),
          findNext_hit_all (flat_all_gt hname hd hrest hgtr)]
      | Directory nd =>
        obtain ⟨hdc0, hndwf⟩ := EntryList.Wf_dir_inv hwf
        have hszn : Node.size nd ≤ fuel := by
          simp only [EntryList.size] at hsz
          omega
        have hszr : EntryList.size rest ≤ fuel := by
          simp only [EntryList.size] at hsz
          omega
        simp only [getNextEntries]
        rw [if_neg (not_not_intro rfl)]
        cases hp : pathOpt with
        | some path =>
          obtain ⟨hdce, hpne⟩ := hsome path hp
          have hname' : name = elem ++ path := by
            rw [hname, hp]
            rfl
          obtain ⟨r0, hr0, hm0⟩ := get_next_spec st fuel (s := s) hndwf hszn hpne
          simp only [hr0]
          have hsec : findNext name (sectionFlat elem (NodeEntry.Directory nd)) =
              (findNext path nd.flat).map (fun q : Key × T => (elem ++ q.1, q.2)) := by
            simp only [sectionFlat, findNext]
            rw [List.find?_map]
            have hp2 : ((fun q : Key × T => decide (name < q.1)) ∘
                (fun q : Key × T => (elem ++ q.1, q.2))) =
                (fun q : Key × T => decide (path < q.1)) := by
              funext q
              simp only [Function.comp_apply]
              rw [hname']
              exact decide_eq_decide.mpr (key_append_lt_iff elem path q.1)
            rw [hp2]
          match r0, hm0 with
          | some (p0, t0), hm0 =>
            refine ⟨some (p0 ++ [elem], t0), rfl, ?_⟩
            rw [flat_cons, findNext, List.find?_append, ← findNext, ← findNext,
              hsec, ← hm0]
            simp [toKeyed, Option.or, List.reverse_append]
          | none, hm0 =>
            obtain ⟨r1, hr1, hm1⟩ := getNextEntries_fresh st fuel (s := s)
              (o := some path) hrest hszr hgtr
            refine ⟨r1, hr1, ?_⟩
            rw [hm1, flat_cons, findNext, List.find?_append, ← findNext, ← findNext,
              hsec, ← hm0]
            rw [findNext_hit_all (flat_all_gt hname hd hrest hgtr)]
            rfl
        | none =>
          have hname0 : name = elem := by
            rw [hname, hp]
            simp
          obtain ⟨r0, hr0, hm0⟩ := get_first_spec st fuel (s := s) hndwf hszn
          simp only [hr0]
          match r0, hm0 with
          | some (p0, t0), hm0 =>
            refine ⟨some (p0 ++ [elem], t0), rfl, ?_⟩
            rw [flat_cons]
            cases hnd : nd.flat with
            | nil => rw [hnd] at hm0; simp at hm0
            | cons q tail =>
              rw [hnd] at hm0
              simp only [Option.map, List.head?] at hm0
              have hq := Option.some.inj hm0
              have hqmem : q ∈ nd.flat := by
                rw [hnd]
                exact List.mem_cons_self q tail
              have hq1 := Node.flat_fst_ne hndwf q hqmem
              simp only [sectionFlat, hnd, List.map_cons, List.cons_append]
              rw [findNext_cons_hit (hname0 ▸ key_lt_self_append elem hq1), ← hq]
              simp [toKeyed, List.reverse_append]
          | none, hm0 =>
            cases hnd : nd.flat with
            | cons q tail => rw [hnd] at hm0; simp at hm0
            | nil =>
              obtain ⟨r1, hr1, hm1⟩ := getNextEntries_fresh st fuel (s := s)
                (o := none) hrest hszr hgtr
              refine ⟨r1, hr1, ?_⟩
              rw [hm1, flat_cons]
              simp only [sectionFlat, hnd, List.map_nil, List.nil_append]
              rw [findNext_hit_all (flat_all_gt hname hd hrest hgtr)]
end

/-- In a strictly sorted file listing, the first entry with a strictly
greater key than entry `i` is entry `i + 1`: resuming from the previously
returned key advances the iteration by exactly one entry. -/
theorem sorted_findNext_succ : ∀ {l : List (Key × T)},
    l.Pairwise (fun p q => p.1 < q.1) → ∀ (i : Nat) (h : i < l.length),
    findNext (l.get ⟨i, h⟩).1 l = l.get? (i + 1)
  | [], _, i, h => absurd h (by simp)
  | q :: tl, hp, 0, h => by
    obtain ⟨hhead, htail⟩ := List.pairwise_cons.mp hp
    show findNext q.1 (q :: tl) = tl.get? 0
    rw [findNext_cons_skip (lt_irrefl q.1),
      findNext_hit_all (fun x hx => hhead x hx)]
    cases tl <;> rfl
  | q :: tl, hp, i + 1, h => by
    obtain ⟨hhead, htail⟩ := List.pairwise_cons.mp hp
    have hi : i < tl.length := Nat.lt_of_succ_lt_succ h
    have hmem : tl.get ⟨i, hi⟩ ∈ tl := tl.get_mem i hi
    show findNext (tl.get ⟨i, hi⟩).1 (q :: tl) = tl.get? (i + 1)
    rw [findNext_cons_skip (lt_asymm (hhead _ hmem)), sorted_findNext_succ htail i hi]

/-- C1: on a well-formed in-memory tree with enough fuel, `get_first` returns
the head of the tree's ordered file listing, and `get_next name` returns the
first file whose full key sorts strictly above `name` — so starting from
`get_first` and repeatedly calling `get_next` with the previously returned
key visits exactly the entries of the listing, in strictly ascending
lexicographic order of full keys (the listing is strictly sorted), advancing
one entry per call and returning none after the last entry: the iteration
terminates after visiting every file exactly once. -/
theorem c1_ordered_iteration (st : Storable T) (fuel : Nat) (s : Store) (t : Tree T)
    (hwf : t.root.Wf) (hfuel : Node.size t.root ≤ fuel) :
    Tree.get_first st fuel s t = .ok t.root.flat.head? ∧
    (∀ name : Key, name ≠ [] →
      Tree.get_next st fuel s t name = .ok (findNext name t.root.flat)) ∧
    (∀ (i : Nat) (h : i < t.root.flat.length),
      findNext (t.root.flat.get ⟨i, h⟩).1 t.root.flat = t.root.flat.get? (i + 1)) ∧
    t.root.flat.Pairwise (fun p q => p.1 < q.1) := by
  obtain ⟨i0, es, hroot, hes⟩ := Node.Wf_shape hwf
  have hpw : t.root.flat.Pairwise (fun p q => p.1 < q.1) := by
    rw [hroot, node_flat_mk]
    exact EntryList.flat_sorted hes
  refine ⟨?_, ?_, ?_, hpw⟩
  · obtain ⟨r, hr, hm⟩ := get_first_spec st fuel (s := s) hwf hfuel
    simp only [Tree.get_first, hr]
    rw [← hm]
    rfl
  · intro name hne
    obtain ⟨r, hr, hm⟩ := get_next_spec st fuel (s := s) hwf hfuel hne
    simp only [Tree.get_next, hr]
    rw [← hm]
    rfl
  · intro i h
    exact sorted_findNext_succ hpw i h

/-- A tree holding the files "a/b" and "c", for instantiating C1. -/
def c1Node : Node Bool :=
  .mk none (some (.cons [97, 47]
    (.Directory (.mk none (some (.cons [98] (.File true) .nil))))
    (.cons [99] (.File false) .nil)))

theorem c1Node_wf : c1Node.Wf :=
  ⟨⟨by decide, by decide, by decide⟩, (by decide : ([97, 47] : Key) < [99]),
    ⟨⟨by decide, by decide⟩, trivial, trivial⟩,
    ⟨⟨by decide, by decide⟩, trivial, trivial⟩⟩

/-- C1 witness: iterating over the tree holding "a/b" and "c" from
`get_first` via `get_next` yields "a/b", then "c", then none. -/
theorem c1_ordered_iteration_witness :
    Tree.get_first boolStorable 8 nullStore ⟨c1Node, 2⟩ =
      .ok (some ([97, 47, 98], true)) ∧
    Tree.get_next boolStorable 8 nullStore ⟨c1Node, 2⟩ [97, 47, 98] =
      .ok (some ([99], false)) ∧
    Tree.get_next boolStorable 8 nullStore ⟨c1Node, 2⟩ [99] = .ok none := by
  have h := c1_ordered_iteration boolStorable 8 nullStore ⟨c1Node, 2⟩ c1Node_wf
    (by decide)
  exact ⟨h.1, h.2.1 [97, 47, 98] (by decide), h.2.1 [99] (by decide)⟩

/-! ### Claims C4 and C5: persistence round-trips -/

/-- The in-memory image `Node::load` produces for a freshly parsed block of
this entry list: files as stored, directories as unloaded id handles. -/
def EntryList.handleForm : EntryList T → EntryList T
  | .nil => .nil
  | .cons k (.File t) r => .cons k (.File t) r.handleForm
  | .cons k (.Directory nd) r => .cons k (.Directory (.mk nd.id none)) r.handleForm

/-- Immediate child directory ids are present and below `m` (a serialized
`u64` id round-trips exactly when it is below `2 ^ 64`). -/
def EntryList.IdsBelow (m : Nat) : EntryList T → Prop
  | .nil => True
  | .cons _ (.File _) r => EntryList.IdsBelow m r
  | .cons _ (.Directory nd) r =>
    (∃ i, nd.id = some i ∧ i < m) ∧ EntryList.IdsBelow m r

theorem IdsBelow_mono {m m' : Nat} (h : m ≤ m') : ∀ {l : EntryList T},
    EntryList.IdsBelow m l → EntryList.IdsBelow m' l
  | .nil, _ => trivial
  | .cons _ (.File _) r, hp => IdsBelow_mono h (l := r) hp
  | .cons _ (.Directory nd) r, hp => by
    obtain ⟨⟨i, hi, hlt⟩, hr⟩ := hp
    exact ⟨⟨i, hi, lt_of_lt_of_le hlt h⟩, IdsBelow_mono h hr⟩

/-- Top-level key lengths fit the `u32` length prefix. -/
def EntryList.ShortKeysL : EntryList T → Prop
  | .nil => True
  | .cons k _ r => k.length < 2 ^ 32 ∧ r.ShortKeysL

mutual
/-- Every key component in the tree is shorter than `2 ^ 32`, so the `as u32`
length cast in `write_entries` does not truncate. -/
def Node.ShortKeys : Node T → Prop
  | .mk _ none => True
  | .mk _ (some es) => es.ShortKeysDeep

def EntryList.ShortKeysDeep : EntryList T → Prop
  | .nil => True
  | .cons k (.File _) r => k.length < 2 ^ 32 ∧ r.ShortKeysDeep
  | .cons k (.Directory nd) r =>
    k.length < 2 ^ 32 ∧ nd.ShortKeys ∧ r.ShortKeysDeep
end

theorem ShortKeysDeep.toL : ∀ {es : EntryList T}, es.ShortKeysDeep → es.ShortKeysL
  | .nil, _ => trivial
  | .cons k (.File _) r, h => ⟨h.1, ShortKeysDeep.toL h.2⟩
  | .cons k (.Directory _) r, h => ⟨h.1, ShortKeysDeep.toL h.2.2⟩

mutual
/-- Every reachable node carries a block id. -/
def Node.allIds : Node T → Prop
  | .mk none _ => False
  | .mk (some _) none => True
  | .mk (some _) (some es) => es.allIdsL

def EntryList.allIdsL : EntryList T → Prop
  | .nil => True
  | .cons _ (.File _) r => r.allIdsL
  | .cons _ (.Directory nd) r => nd.allIds ∧ r.allIdsL
end

mutual
/-- The content of loaded node `n` is stored in `s` under block id `rid`:
loading the handle yields entries mirroring `n`'s — files equal, directories
further persisted handles. -/
def Node.PersistedAs (st : Storable T) (s : Store) : Node T → Nat → Prop
  | .mk _ none, _ => False
  | .mk _ (some es), rid =>
    ∃ es₂, Node.load st s (Node.openId rid) = .ok (.mk (some rid) (some es₂)) ∧
      EntryList.PersistedList st s es es₂

/-- Pointwise: same keys in the same order, equal file payloads, persisted
handles for directories. -/
def EntryList.PersistedList (st : Storable T) (s : Store) :
    EntryList T → EntryList T → Prop
  | .nil, .nil => True
  | .cons k (.File t) r, .cons k2 (.File t2) r2 =>
    k2 = k ∧ t2 = t ∧ EntryList.PersistedList st s r r2
  | .cons k (.Directory nd) r, .cons k2 (.Directory nd2) r2 =>
    k2 = k ∧ (∃ rid2, nd2 = Node.openId rid2 ∧ Node.PersistedAs st s nd rid2) ∧
      EntryList.PersistedList st s r r2
  | _, _ => False
end

theorem ext_refl (s : Store) : s.Ext s := ⟨[], (List.append_nil _).symm⟩

theorem ext_trans {s1 s2 s3 : Store} (h1 : s1.Ext s2) (h2 : s2.Ext s3) :
    s1.Ext s3 := by
  obtain ⟨l1, h1⟩ := h1
  obtain ⟨l2, h2⟩ := h2
  exact ⟨l1 ++ l2, by rw [h2, h1, List.append_assoc]⟩

theorem ext_read {s s' : Store} (h : s.Ext s') {i : Nat} {d : List Nat}
    (hr : s.read i = some d) : s'.read i = some d := by
  obtain ⟨l, hl⟩ := h
  simp only [Store.read] at hr ⊢
  have hlt : i < s.blocks.length := by
    by_contra hge
    rw [List.get?_eq_none.mpr (le_of_not_lt hge)] at hr
    cases hr
  rw [hl, List.get?_append hlt]
  exact hr

theorem append_read (s : Store) (d : List Nat) :
    (s.append d).1.read (s.append d).2 = some d := by
  simp only [Store.append, Store.read]
  exact List.get?_concat_length s.blocks d

theorem append_ext (s : Store) (d : List Nat) : s.Ext (s.append d).1 := ⟨[d], rfl⟩

theorem takeExact_self (name tail : List Nat) :
    takeExact name.length (name ++ tail) = some (name, tail) := by
  unfold takeExact
  rw [if_pos (by simp)]
  rw [List.take_left, List.drop_left]

theorem read_serialized_file (st : Storable T) (t : T) (name : Key)
    (tail : List Nat) (hk : name.length < 2 ^ 32) :
    NodeEntry.read st
      (102 :: (st.write t ++ (u32_be name.length ++ (name ++ tail)))) =
      .ok ((name, .File t), tail) := by
  have hmod : name.length % 4294967296 = name.length := Nat.mod_eq_of_lt (by omega)
  simp [NodeEntry.read, read_u8, st.read_write, read_u32_be_u32_be, hmod,
    takeExact_self]

theorem read_serialized_dir (st : Storable T) (i : Nat) (name : Key)
    (tail : List Nat) (hk : name.length < 2 ^ 32) (hi : i < 2 ^ 64) :
    NodeEntry.read st
      (100 :: (u64_be i ++ (u32_be name.length ++ (name ++ tail)))) =
      .ok ((name, .Directory (Node.openId i)), tail) := by
  have hmod : name.length % 4294967296 = name.length := Nat.mod_eq_of_lt (by omega)
  have hmod64 : i % 18446744073709551616 = i := Nat.mod_eq_of_lt (by omega)
  simp [NodeEntry.read, read_u8, read_u64_be_u64_be, read_u32_be_u32_be,
    hmod, hmod64, takeExact_self]

/-- Parsing a serialized entry list reproduces it, with child directories as
unloaded id handles. -/
theorem parseEntries_serialize (st : Storable T) :
    ∀ {es : EntryList T} {p : List Nat}, serializeEntries st es = some p →
    es.ShortKeysL → EntryList.IdsBelow (2 ^ 64) es →
    ∀ fuel : Nat, p.length ≤ fuel → parseEntries st fuel p = .ok es.handleForm
  | .nil, p, hser, _, _, fuel, _ => by
    simp only [serializeEntries] at hser
    cases hser
    cases fuel <;> rfl
  | .cons name (.File t) rest, p, hser, hsk, hids, fuel, hf => by
    simp only [serializeEntries] at hser
    match hrest : serializeEntries st rest with
    | none => rw [hrest] at hser; cases hser
    | some tail =>
      rw [hrest] at hser
      simp only [Option.map] at hser
      cases hser
      match fuel with
      | 0 => simp at hf
      | f + 1 =>
        simp only [parseEntries, read_serialized_file st t name tail hsk.1]
        rw [parseEntries_serialize st hrest hsk.2 hids f (by
          simp only [List.length_cons, List.length_append] at hf
          omega)]
        rfl
  | .cons name (.Directory nd) rest, p, hser, hsk, hids, fuel, hf => by
    simp only [serializeEntries] at hser
    obtain ⟨⟨i, hid, hilt⟩, hidr⟩ := hids
    rw [hid] at hser
    match hrest : serializeEntries st rest with
    | none => rw [hrest] at hser; cases hser
    | some tail =>
      rw [hrest] at hser
      simp only [Option.map] at hser
      cases hser
      match fuel with
      | 0 => simp at hf
      | f + 1 =>
        simp only [parseEntries, read_serialized_dir st i name tail hsk.1 hilt]
        rw [parseEntries_serialize st hrest hsk.2 hidr f (by
          simp only [List.length_cons, List.length_append] at hf
          omega)]
        simp only [EntryList.handleForm, hid]
        rfl

/-- What `Node::write_entries` guarantees: one block appended, the node now
carrying the fresh id, and loading that id back from the extended store
reproducing the entry list as parsed handles. -/
theorem write_entries_spec (st : Storable T) {s : Store} {i : Option Nat}
    {es' : EntryList T} {n' : Node T} {s' : Store}
    (hw : Node.write_entries st s (.mk i (some es')) = .ok (n', s'))
    (hsk : es'.ShortKeysL) (hids : EntryList.IdsBelow (2 ^ 64) es') :
    s.Ext s' ∧ s'.blocks.length = s.blocks.length + 1 ∧
    n' = .mk (some s.blocks.length) (some es') ∧
    Node.load st s' (Node.openId s.blocks.length) =
      .ok (.mk (some s.blocks.length) (some es'.handleForm)) := by
  simp only [Node.write_entries] at hw
  match hser : serializeEntries st es' with
  | none => rw [hser] at hw; cases hw
  | some payload =>
    rw [hser] at hw
    simp only [Store.append] at hw
    cases hw
    refine ⟨⟨[u32_be es'.length ++ payload], rfl⟩, by simp [Store.append], rfl, ?_⟩
    simp only [Node.load, Node.openId]
    have hrd : Store.read ⟨s.blocks ++ [u32_be es'.length ++ payload]⟩
        s.blocks.length = some (u32_be es'.length ++ payload) := by
      simp only [Store.read]
      exact List.get?_concat_length s.blocks _
    rw [hrd]
    simp only [read_u32_be_u32_be,
      parseEntries_serialize st hser hsk hids payload.length (le_refl _)]

theorem load_openId_ext (st : Storable T) {s s' : Store} (h : s.Ext s')
    {rid : Nat} {X : Node T}
    (hl : Node.load st s (Node.openId rid) = .ok X) :
    Node.load st s' (Node.openId rid) = .ok X := by
  simp only [Node.load, Node.openId] at hl ⊢
  match hr : s.read rid with
  | none => rw [hr] at hl; cases hl
  | some data =>
    rw [hr] at hl
    rw [ext_read h hr]
    exact hl

mutual
/-- Persistence is stable under store extension. -/
theorem Node.PersistedAs_ext (st : Storable T) : ∀ {n : Node T} {rid : Nat}
    {s s' : Store}, s.Ext s' → Node.PersistedAs st s n rid →
    Node.PersistedAs st s' n rid
  | .mk i none, rid, s, s', h, hp => False.elim hp
  | .mk i (some es), rid, s, s', h, hp => by
    obtain ⟨es₂, hl, hpl⟩ := hp
    exact ⟨es₂, load_openId_ext st h hl, EntryList.PersistedList_ext st h hpl⟩

theorem EntryList.PersistedList_ext (st : Storable T) : ∀ {es es₂ : EntryList T}
    {s s' : Store}, s.Ext s' → EntryList.PersistedList st s es es₂ →
    EntryList.PersistedList st s' es es₂
  | .nil, .nil, s, s', _, _ => trivial
  | .cons k (.File t) r, .cons k2 (.File t2) r2, s, s', h, hp =>
    ⟨hp.1, hp.2.1, EntryList.PersistedList_ext st h hp.2.2⟩
  | .cons k (.Directory nd) r, .cons k2 (.Directory nd2) r2, s, s', h, hp => by
    obtain ⟨hk, ⟨rid2, hnd2, hpa⟩, hr⟩ := hp
    exact ⟨hk, ⟨rid2, hnd2, Node.PersistedAs_ext st h hpa⟩,
      EntryList.PersistedList_ext st h hr⟩
  | .nil, .cons _ _ _, _, _, _, hp => False.elim hp
  | .cons _ (.File _) _, .nil, _, _, _, hp => False.elim hp
  | .cons _ (.Directory _) _, .nil, _, _, _, hp => False.elim hp
  | .cons k (.File t) r, .cons k2 (.Directory _) r2, _, _, _, hp => False.elim hp
  | .cons k (.Directory _) r, .cons k2 (.File _) r2, _, _, _, hp => False.elim hp
end

/-- Lookup through the persisted image agrees with lookup in the original. -/
theorem lookup_plist (st : Storable T) {s : Store} : ∀ {es es₂ : EntryList T},
    EntryList.PersistedList st s es es₂ → ∀ elem : Key,
    (es.lookup elem = none ∧ es₂.lookup elem = none) ∨
    (∃ t, es.lookup elem = some (.File t) ∧ es₂.lookup elem = some (.File t)) ∨
    (∃ nd rid2, es.lookup elem = some (.Directory nd) ∧
      es₂.lookup elem = some (.Directory (Node.openId rid2)) ∧
      Node.PersistedAs st s nd rid2)
  | .nil, .nil, _, elem => Or.inl ⟨rfl, rfl⟩
  | .cons k (.File t) r, .cons k2 (.File t2) r2, hp, elem => by
    have hp' : k2 = k ∧ t2 = t ∧ EntryList.PersistedList st s r r2 := hp
    obtain ⟨hk, ht, hr⟩ := hp'
    subst hk
    subst ht
    simp only [EntryList.lookup]
    by_cases he : elem = k2
    · rw [if_pos he, if_pos he]
      exact Or.inr (Or.inl ⟨t2, rfl, rfl⟩)
    · rw [if_neg he, if_neg he]
      exact lookup_plist st hr elem
  | .cons k (.Directory nd) r, .cons k2 (.Directory nd2) r2, hp, elem => by
    have hp' : k2 = k ∧ (∃ rid2, nd2 = Node.openId rid2 ∧
        Node.PersistedAs st s nd rid2) ∧ EntryList.PersistedList st s r r2 := hp
    obtain ⟨hk, ⟨rid2, hnd2, hpa⟩, hr⟩ := hp'
    subst hk
    subst hnd2
    simp only [EntryList.lookup]
    by_cases he : elem = k2
    · rw [if_pos he, if_pos he]
      exact Or.inr (Or.inr ⟨nd, rid2, rfl, rfl, hpa⟩)
    · rw [if_neg he, if_neg he]
      exact lookup_plist st hr elem
  | .nil, .cons _ _ _, hp, _ => False.elim hp
  | .cons _ (.File _) _, .nil, hp, _ => False.elim hp
  | .cons _ (.Directory _) _, .nil, hp, _ => False.elim hp
  | .cons k (.File t) r, .cons k2 (.Directory _) r2, hp, _ => False.elim hp
  | .cons k (.Directory _) r, .cons k2 (.File _) r2, hp, _ => False.elim hp

/-- Reading through a persisted handle is observationally equal, under `get`,
to reading the original loaded node (whose own reads never touch a store). -/
theorem get_persisted (st : Storable T) : ∀ (fuel : Nat) {s s₀ : Store}
    {n : Node T} {rid : Nat} {k : Key}, n.Wf → Node.PersistedAs st s n rid →
    Node.get st fuel s (Node.openId rid) k = Node.get st fuel s₀ n k
  | 0, s, s₀, n, rid, k => by
    intro _ _
    rfl
  | fuel + 1, s, s₀, n, rid, k => by
    intro hwf hpa
    obtain ⟨i, es, rfl, hes⟩ := Node.Wf_shape hwf
    have hpa' : ∃ es₂, Node.load st s (Node.openId rid) =
        .ok (.mk (some rid) (some es₂)) ∧
        EntryList.PersistedList st s es es₂ := hpa
    obtain ⟨es₂, hl, hpl⟩ := hpa'
    simp only [Node.get]
    match hsp : split_key k with
    | none => rfl
    | some (elem, pathOpt) =>
      simp only
      rw [hl]
      simp only [Node.load]
      rcases lookup_plist st hpl elem with ⟨h1, h2⟩ | ⟨t, h1, h2⟩ |
        ⟨nd, rid2, h1, h2, hpa2⟩
      · cases pathOpt <;> simp [h1, h2]
      · cases pathOpt <;> simp [h1, h2]
      · cases pathOpt with
        | none => simp [h1, h2]
        | some path =>
          simp only [h1, h2]
          exact get_persisted st fuel (lookup_entryWf hes h1).2 hpa2

theorem ext_len {s s' : Store} (h : s.Ext s') :
    s.blocks.length ≤ s'.blocks.length := by
  obtain ⟨l, hl⟩ := h
  rw [hl]
  simp

mutual
/-- `Node::write_full` extends the destination store by at most one block per
node, gives every written node an id, and persists the tree's content under
the returned root id. -/
theorem write_full_spec (st : Storable T) : ∀ (fuel : Nat) {s old s' : Store}
    {n n' : Node T}, Node.write_full st fuel s old n = .ok (n', s') →
    n.Wf → n.ShortKeys → s.blocks.length + Node.size n ≤ 2 ^ 64 →
    s.Ext s' ∧ s'.blocks.length ≤ s.blocks.length + Node.size n ∧
    n'.allIds ∧ ∃ rid, rid < s'.blocks.length ∧ n'.id = some rid ∧
      Node.PersistedAs st s' n rid
  | 0, s, old, s', n, n' => by
    intro h _ _ _
    simp [Node.write_full] at h
  | fuel + 1, s, old, s', n, n' => by
    intro h hwf hsk hbound
    obtain ⟨i, es, rfl, hes⟩ := Node.Wf_shape hwf
    have hskE : es.ShortKeysDeep := hsk
    have hszn : Node.size (Node.mk i (some es)) = EntryList.size es + 1 := rfl
    simp only [Node.write_full, Node.load] at h
    match hrec : writeFullEntries st fuel s old es with
    | .ok (es', s1) =>
      simp only [hrec] at h
      obtain ⟨hext1, hlen1, hsk', hall', hbelow', hpl⟩ :=
        writeFullEntries_spec st fuel hrec hes hskE (by rw [hszn] at hbound; omega)
      obtain ⟨hext2, hlen2, hn', hload⟩ := write_entries_spec st h hsk'
        (IdsBelow_mono (by rw [hszn] at hbound; omega) hbelow')
      refine ⟨ext_trans hext1 hext2, by rw [hszn]; omega, ?_,
        s1.blocks.length, by omega, ?_, ?_⟩
      · rw [hn']
        exact hall'
      · rw [hn']
        rfl
      · exact ⟨es'.handleForm, hload, EntryList.PersistedList_ext st hext2 hpl⟩
    | .err e => simp only [hrec] at h; cases h
    | .panic => simp only [hrec] at h; cases h
    | .fuelOut => simp only [hrec] at h; cases h

/-- The child loop of `write_full`: children written depth-first, each child
entry ending with a persisted id handle. -/
theorem writeFullEntries_spec (st : Storable T) : ∀ (fuel : Nat)
    {s old s' : Store} {es es' : EntryList T},
    writeFullEntries st fuel s old es = .ok (es', s') → es.Wf →
    es.ShortKeysDeep → s.blocks.length + EntryList.size es ≤ 2 ^ 64 →
    s.Ext s' ∧ s'.blocks.length ≤ s.blocks.length + EntryList.size es ∧
    es'.ShortKeysL ∧ es'.allIdsL ∧ EntryList.IdsBelow s'.blocks.length es' ∧
    EntryList.PersistedList st s' es es'.handleForm
  | 0, s, old, s', es, es' => by
    intro h _ _ _
    simp [writeFullEntries] at h
  | fuel + 1, s, old, s', .nil, es' => by
    intro h _ _ _
    cases h
    exact ⟨ext_refl s, by simp [EntryList.size], trivial, trivial, trivial, trivial⟩
  | fuel + 1, s, old, s', .cons name (.File t) rest, es' => by
    intro h hwf hsk hbound
    have hszc : EntryList.size (EntryList.cons name (.File t) rest) =
        EntryList.size rest + 1 := rfl
    simp only [writeFullEntries] at h
    match hrec : writeFullEntries st fuel s old rest with
    | .ok (rest', s1) =>
      simp only [hrec] at h
      cases h
      obtain ⟨hext1, hlen1, hsk', hall', hbelow', hpl⟩ :=
        writeFullEntries_spec st fuel hrec (EntryList.Wf_inv hwf).2.2 hsk.2
          (by rw [hszc] at hbound; omega)
      exact ⟨hext1, by rw [hszc]; omega, ⟨hsk.1, hsk'⟩, hall', hbelow',
        rfl, rfl, hpl⟩
    | .err e => simp only [hrec] at h; cases h
    | .panic => simp only [hrec] at h; cases h
    | .fuelOut => simp only [hrec] at h; cases h
  | fuel + 1, s, old, s', .cons name (.Directory nd) rest, es' => by
    intro h hwf hsk hbound
    have hszc : EntryList.size (EntryList.cons name (.Directory nd) rest) =
        Node.size nd + EntryList.size rest + 1 := rfl
    simp only [writeFullEntries] at h
    match hrec1 : Node.write_full st fuel s old nd with
    | .ok (nd', s1) =>
      simp only [hrec1] at h
      match hrec2 : writeFullEntries st fuel s1 old rest with
      | .ok (rest', s2) =>
        simp only [hrec2] at h
        cases h
        obtain ⟨hext1, hlen1, hall1, rid_c, hridlt, hid_c, hpa_c⟩ :=
          write_full_spec st fuel hrec1 (EntryList.Wf_dir_inv hwf).2 hsk.2.1
            (by rw [hszc] at hbound; omega)
        obtain ⟨hext2, hlen2, hsk2, hall2, hbelow2, hpl2⟩ :=
          writeFullEntries_spec st fuel hrec2 (EntryList.Wf_inv hwf).2.2 hsk.2.2
            (by rw [hszc] at hbound; omega)
        have hlen12 := ext_len hext2
        refine ⟨ext_trans hext1 hext2, by rw [hszc]; omega, ⟨hsk.1, hsk2⟩,
          ⟨hall1, hall2⟩, ⟨⟨rid_c, hid_c, by omega⟩, hbelow2⟩,
          rfl, ⟨rid_c, ?_, Node.PersistedAs_ext st hext2 hpa_c⟩, hpl2⟩
        rw [hid_c]
        rfl
      | .err e => simp only [hrec2] at h; cases h
      | .panic => simp only [hrec2] at h; cases h
      | .fuelOut => simp only [hrec2] at h; cases h
    | .err e => simp only [hrec1] at h; cases h
    | .panic => simp only [hrec1] at h; cases h
    | .fuelOut => simp only [hrec1] at h; cases h
end

/-- C4: writing a loaded, well-formed tree with `write_full` into a
destination store (with room for its key lengths and ids in the on-disk
format) appends blocks for every node, leaves every node of the returned
tree with a block id, and reopening the returned root id from the
destination store yields a tree observationally equal under `get` — for
every key, every fuel and whatever store the original is read against. -/
theorem c4_write_full_roundtrip (st : Storable T) (fuel : Nat) (s old : Store)
    (t : Tree T) {t' : Tree T} {s' : Store}
    (hw : Tree.write_full st fuel s old t = .ok (t', s'))
    (hwf : t.root.Wf) (hsk : t.root.ShortKeys)
    (hbound : s.blocks.length + Node.size t.root ≤ 2 ^ 64) :
    s.Ext s' ∧ t'.file_count = t.file_count ∧ t'.root.allIds ∧
    ∃ rid, Tree.root_id t' = some rid ∧
      ∀ (fuel2 : Nat) (k : Key) (s₀ : Store),
        Tree.get st fuel2 s' (Tree.openTree rid t.file_count) k =
          Tree.get st fuel2 s₀ t k := by
  simp only [Tree.write_full] at hw
  match hrec : Node.write_full st fuel s old t.root with
  | .ok (root', s1) =>
    simp only [hrec] at hw
    cases hw
    obtain ⟨hext, hlen, hids, rid, hridlt, hid, hpa⟩ :=
      write_full_spec st fuel hrec hwf hsk hbound
    refine ⟨hext, rfl, hids, rid, hid, ?_⟩
    intro fuel2 k s₀
    simp only [Tree.get, Tree.openTree]
    exact get_persisted st fuel2 hwf hpa
  | .err e => simp only [hrec] at hw; cases hw
  | .panic => simp only [hrec] at hw; cases hw
  | .fuelOut => simp only [hrec] at hw; cases hw

theorem c1Node_shortKeys : Node.ShortKeys c1Node :=
  ⟨by decide, ⟨by decide, trivial⟩, by decide, trivial⟩

/-- C4 witness: writing the tree holding "a/b" and "c" into the empty store
and reopening its root id reads back the same file states. -/
theorem c4_write_full_roundtrip_witness :
    ∃ (t' : Tree Bool) (s' : Store),
      Tree.write_full boolStorable 8 nullStore nullStore ⟨c1Node, 2⟩ =
        .ok (t', s') ∧
      ∃ rid, Tree.root_id t' = some rid ∧
        Tree.get boolStorable 8 s' (Tree.openTree rid 2) [97, 47, 98] =
          .ok (some true) ∧
        Tree.get boolStorable 8 s' (Tree.openTree rid 2) [99] =
          .ok (some false) := by
  obtain ⟨t', s', hw⟩ : ∃ t' s',
      Tree.write_full boolStorable 8 nullStore nullStore ⟨c1Node, 2⟩ =
        .ok (t', s') := ⟨_, _, rfl⟩
  obtain ⟨hext, hcnt, hids, rid, hrid, hget⟩ :=
    c4_write_full_roundtrip boolStorable 8 nullStore nullStore ⟨c1Node, 2⟩ hw
      c1Node_wf c1Node_shortKeys (by decide)
  refine ⟨t', s', hw, rid, hrid, ?_, ?_⟩
  · rw [hget 8 [97, 47, 98] nullStore]
    rfl
  · rw [hget 8 [99] nullStore]
    rfl

mutual
/-- Spec §3 invariant 1 for loaded trees: wherever an id is cached, the block
it names stores exactly that subtree (and the id fits the on-disk `u64`). -/
def Node.DeltaWf (st : Storable T) (s : Store) : Node T → Prop
  | .mk _ none => False
  | .mk i (some es) =>
    (∀ j, i = some j → j < 2 ^ 64 ∧ Node.PersistedAs st s (.mk i (some es)) j) ∧
    EntryList.DeltaWfL st s es

def EntryList.DeltaWfL (st : Storable T) (s : Store) : EntryList T → Prop
  | .nil => True
  | .cons _ (.File _) r => EntryList.DeltaWfL st s r
  | .cons _ (.Directory nd) r =>
    Node.DeltaWf st s nd ∧ EntryList.DeltaWfL st s r
end

mutual
theorem Node.DeltaWf_ext (st : Storable T) : ∀ {n : Node T} {s s' : Store},
    s.Ext s' → Node.DeltaWf st s n → Node.DeltaWf st s' n
  | .mk _ none, s, s', _, hd => False.elim hd
  | .mk i (some es), s, s', h, hd =>
    ⟨fun j hj => ⟨(hd.1 j hj).1, Node.PersistedAs_ext st h (hd.1 j hj).2⟩,
      EntryList.DeltaWfL_ext st h hd.2⟩

theorem EntryList.DeltaWfL_ext (st : Storable T) : ∀ {l : EntryList T}
    {s s' : Store}, s.Ext s' → EntryList.DeltaWfL st s l →
    EntryList.DeltaWfL st s' l
  | .nil, s, s', _, _ => trivial
  | .cons _ (.File _) r, s, s', h, hd =>
    EntryList.DeltaWfL_ext st h (l := r) hd
  | .cons _ (.Directory nd) r, s, s', h, hd =>
    ⟨Node.DeltaWf_ext st h hd.1, EntryList.DeltaWfL_ext st h hd.2⟩
end

mutual
/-- `Node::write_delta`: a node with a cached id is returned at once with the
store untouched (nothing written for it or its descendants); a dirty node
writes its dirty descendants and then itself; either way the returned id
persists the node's content in the resulting store. -/
theorem write_delta_spec (st : Storable T) : ∀ (fuel : Nat) {s s' : Store}
    {n n' : Node T}, Node.write_delta st fuel s n = .ok (n', s') →
    n.Wf → n.ShortKeys → Node.DeltaWf st s n →
    s.blocks.length + Node.size n ≤ 2 ^ 64 →
    s.Ext s' ∧ s'.blocks.length ≤ s.blocks.length + Node.size n ∧
    (n.id.isSome = true → n' = n ∧ s' = s) ∧
    ∃ rid, rid < 2 ^ 64 ∧ n'.id = some rid ∧ Node.PersistedAs st s' n rid
  | 0, s, s', n, n' => by
    intro h _ _ _ _
    simp [Node.write_delta] at h
  | fuel + 1, s, s', n, n' => by
    intro h hwf hsk hdw hbound
    obtain ⟨i, es, rfl, hes⟩ := Node.Wf_shape hwf
    have hskE : es.ShortKeysDeep := hsk
    have hdw' : (∀ j, i = some j →
        j < 2 ^ 64 ∧ Node.PersistedAs st s (.mk i (some es)) j) ∧
        EntryList.DeltaWfL st s es := hdw
    have hszn : Node.size (Node.mk i (some es)) = EntryList.size es + 1 := rfl
    cases i with
    | some j =>
      simp only [Node.write_delta, Node.id] at h
      cases h
      exact ⟨ext_refl s, by omega, fun _ => ⟨rfl, rfl⟩, j, (hdw'.1 j rfl).1,
        rfl, (hdw'.1 j rfl).2⟩
    | none =>
      rw [hszn] at hbound
      simp only [Node.write_delta, Node.id, Node.entries] at h
      match hrec : writeDeltaEntries st fuel s es with
      | .ok (es', s1) =>
        simp only [hrec] at h
        obtain ⟨hext1, hlen1, hsk', hbelow', hpl⟩ :=
          writeDeltaEntries_spec st fuel hrec hes hskE hdw'.2 (by omega)
        obtain ⟨hext2, hlen2, hn', hload⟩ := write_entries_spec st h hsk' hbelow'
        refine ⟨ext_trans hext1 hext2, by rw [hszn]; omega,
          fun hcontra => by simp [Node.id] at hcontra,
          s1.blocks.length, by omega, ?_, ?_⟩
        · rw [hn']
          rfl
        · exact ⟨es'.handleForm, hload, EntryList.PersistedList_ext st hext2 hpl⟩
      | .err e => simp only [hrec] at h; cases h
      | .panic => simp only [hrec] at h; cases h
      | .fuelOut => simp only [hrec] at h; cases h

/-- The child loop of `write_delta`: each child directory ends with a
persisted id, clean children untouched. -/
theorem writeDeltaEntries_spec (st : Storable T) : ∀ (fuel : Nat)
    {s s' : Store} {es es' : EntryList T},
    writeDeltaEntries st fuel s es = .ok (es', s') → es.Wf →
    es.ShortKeysDeep → EntryList.DeltaWfL st s es →
    s.blocks.length + EntryList.size es ≤ 2 ^ 64 →
    s.Ext s' ∧ s'.blocks.length ≤ s.blocks.length + EntryList.size es ∧
    es'.ShortKeysL ∧ EntryList.IdsBelow (2 ^ 64) es' ∧
    EntryList.PersistedList st s' es es'.handleForm
  | 0, s, s', es, es' => by
    intro h _ _ _ _
    simp [writeDeltaEntries] at h
  | fuel + 1, s, s', .nil, es' => by
    intro h _ _ _ _
    cases h
    exact ⟨ext_refl s, by simp [EntryList.size], trivial, trivial, trivial⟩
  | fuel + 1, s, s', .cons name (.File t) rest, es' => by
    intro h hwf hsk hdl hbound
    have hszc : EntryList.size (EntryList.cons name (.File t) rest) =
        EntryList.size rest + 1 := rfl
    rw [hszc] at hbound
    simp only [writeDeltaEntries] at h
    match hrec : writeDeltaEntries st fuel s rest with
    | .ok (rest', s1) =>
      simp only [hrec] at h
      cases h
      obtain ⟨hext1, hlen1, hsk', hbelow', hpl⟩ :=
        writeDeltaEntries_spec st fuel hrec (EntryList.Wf_inv hwf).2.2 hsk.2
          hdl (by omega)
      exact ⟨hext1, by rw [hszc]; omega, ⟨hsk.1, hsk'⟩, hbelow',
        rfl, rfl, hpl⟩
    | .err e => simp only [hrec] at h; cases h
    | .panic => simp only [hrec] at h; cases h
    | .fuelOut => simp only [hrec] at h; cases h
  | fuel + 1, s, s', .cons name (.Directory nd) rest, es' => by
    intro h hwf hsk hdl hbound
    have hdl' : Node.DeltaWf st s nd ∧ EntryList.DeltaWfL st s rest := hdl
    have hszc : EntryList.size (EntryList.cons name (.Directory nd) rest) =
        Node.size nd + EntryList.size rest + 1 := rfl
    rw [hszc] at hbound
    simp only [writeDeltaEntries] at h
    match hrec1 : Node.write_delta st fuel s nd with
    | .ok (nd', s1) =>
      simp only [hrec1] at h
      match hrec2 : writeDeltaEntries st fuel s1 rest with
      | .ok (rest', s2) =>
        simp only [hrec2] at h
        cases h
        obtain ⟨hext1, hlen1, _, rid_c, hlt64, hid_c, hpa_c⟩ :=
          write_delta_spec st fuel hrec1 (EntryList.Wf_dir_inv hwf).2 hsk.2.1
            hdl'.1 (by omega)
        obtain ⟨hext2, hlen2, hsk2, hbelow2, hpl2⟩ :=
          writeDeltaEntries_spec st fuel hrec2 (EntryList.Wf_inv hwf).2.2
            hsk.2.2 (EntryList.DeltaWfL_ext st hext1 hdl'.2) (by omega)
        refine ⟨ext_trans hext1 hext2, by rw [hszc]; omega, ⟨hsk.1, hsk2⟩,
          ⟨⟨rid_c, hid_c, hlt64⟩, hbelow2⟩,
          rfl, ⟨rid_c, ?_, Node.PersistedAs_ext st hext2 hpa_c⟩, hpl2⟩
        rw [hid_c]
        rfl
      | .err e => simp only [hrec2] at h; cases h
      | .panic => simp only [hrec2] at h; cases h
      | .fuelOut => simp only [hrec2] at h; cases h
    | .err e => simp only [hrec1] at h; cases h
    | .panic => simp only [hrec1] at h; cases h
    | .fuelOut => simp only [hrec1] at h; cases h
end

/-- C5: on a loaded, well-formed tree whose cached ids all satisfy invariant
1 against the store `s` (clean subtrees persisted in `s`), `write_delta`
returns a clean root immediately with the store untouched — nothing is
written for a node with an id or its descendants — and otherwise appends at
most one block per node; in both cases reopening the returned root id from
the resulting store yields a tree observationally equal under `get` to the
pre-write tree, for every key, fuel, and store the original is read
against.  (As for C4, key components must fit the `u32` length prefix and
ids the on-disk `u64`.) -/
theorem c5_write_delta_roundtrip (st : Storable T) (fuel : Nat) (s : Store)
    (t : Tree T) {t' : Tree T} {s' : Store}
    (hw : Tree.write_delta st fuel s t = .ok (t', s'))
    (hwf : t.root.Wf) (hsk : t.root.ShortKeys)
    (hdw : Node.DeltaWf st s t.root)
    (hbound : s.blocks.length + Node.size t.root ≤ 2 ^ 64) :
    s.Ext s' ∧ t'.file_count = t.file_count ∧
    s'.blocks.length ≤ s.blocks.length + Node.size t.root ∧
    (t.root.id.isSome = true → t' = t ∧ s' = s) ∧
    ∃ rid, Tree.root_id t' = some rid ∧
      ∀ (fuel2 : Nat) (k : Key) (s₀ : Store),
        Tree.get st fuel2 s' (Tree.openTree rid t.file_count) k =
          Tree.get st fuel2 s₀ t k := by
  simp only [Tree.write_delta] at hw
  match hrec : Node.write_delta st fuel s t.root with
  | .ok (root', s1) =>
    simp only [hrec] at hw
    cases hw
    obtain ⟨hext, hlen, hsame, rid, hlt, hid, hpa⟩ :=
      write_delta_spec st fuel hrec hwf hsk hdw hbound
    refine ⟨hext, rfl, hlen, ?_, rid, hid, ?_⟩
    · intro hs
      obtain ⟨h1, h2⟩ := hsame hs
      exact ⟨by rw [h1], h2⟩
    · intro fuel2 k s₀
      simp only [Tree.get, Tree.openTree]
      exact get_persisted st fuel2 hwf hpa
  | .err e => simp only [hrec] at hw; cases hw
  | .panic => simp only [hrec] at hw; cases hw
  | .fuelOut => simp only [hrec] at hw; cases hw

/-- A dirty one-file tree holding "a", for instantiating C5. -/
def c5Node : Node Bool :=
  .mk none (some (.cons [97] (.File true) .nil))

theorem c5Node_wf : c5Node.Wf := ⟨⟨by decide, by decide⟩, trivial, trivial⟩

theorem c5Node_shortKeys : Node.ShortKeys c5Node := ⟨by decide, trivial⟩

theorem c5Node_deltaWf : Node.DeltaWf boolStorable nullStore c5Node :=
  ⟨fun j hj => Option.noConfusion hj, trivial⟩

/-- C5 witness: a delta write of the dirty tree holding "a" into the empty
store, reopened from the returned root id, reads "a" back. -/
theorem c5_write_delta_roundtrip_witness :
    ∃ (t' : Tree Bool) (s' : Store),
      Tree.write_delta boolStorable 4 nullStore ⟨c5Node, 1⟩ = .ok (t', s') ∧
      ∃ rid, Tree.root_id t' = some rid ∧
        Tree.get boolStorable 4 s' (Tree.openTree rid 1) [97] =
          .ok (some true) := by
  obtain ⟨t', s', hw⟩ : ∃ t' s',
      Tree.write_delta boolStorable 4 nullStore ⟨c5Node, 1⟩ =
        .ok (t', s') := ⟨_, _, rfl⟩
  obtain ⟨hext, hcnt, hlen, hsame, rid, hrid, hget⟩ :=
    c5_write_delta_roundtrip boolStorable 4 nullStore ⟨c5Node, 1⟩ hw
      c5Node_wf c5Node_shortKeys c5Node_deltaWf (by decide)
  refine ⟨t', s', hw, rid, hrid, ?_⟩
  rw [hget 4 [97] nullStore]
  rfl

end Treedirstate
